import Mathlib

/-!
# memdb: the in-memory ordered index (`btree.go`)

A shallow embedding of `BTree` and `BTreeIterator` from `btree.go`.

`BTree` wraps `github.com/google/btree`'s `BTreeG[*btreeItem]`.  That package is an
external dependency; it is modelled here by its documented contract: an ordered
collection of items under a caller-supplied `less`, kept as the ascending list of its
items.  `Clone` yields an independent tree with the same items, `Clear` empties a tree.
The reader/writer lock of `BTree` guards against data races only and is not part of the
sequential model; which lock each method takes around its tree access is recorded apart,
in `Method.steps`.

The development has two layers.  In the first, `BTree` and `BTreeIterator` hold their
tree as a value, which is enough for everything one index or one iterator does alone.
In the second (`Store`, `Ptr.BTree`, `Ptr.BTreeIterator`, `Machine`) the trees are
objects in a store and the structs hold their addresses, as the pointers of the source
do: there `Put` and `Delete` write the object the index points to, `tree.Clone()`
allocates a new object, and whether an iterator sees a later mutation is a question of
which address it holds.

Pointers are modelled by `Option` (`none` is Go's `nil`): a `[]byte` is
`Option (List UInt8)`, a `*btreeItem` is `Option btreeItem`, a `*wal.ChunkPosition` is
`Option ChunkPosition`.  A nil-pointer dereference is the explicit result
`Except.error Panic.nilDereference`.
-/

namespace Memdb

/-! ## Data model -/

/-- Go `[]byte`; `none` is the nil slice, `some []` the empty non-nil slice. -/
abbrev Bytes := Option (List UInt8)

/-- Position of a record in the write-ahead log (`wal.ChunkPosition`). -/
structure ChunkPosition where
  SegmentId : Nat
  BlockNumber : Nat
  ChunkOffset : Int
  ChunkSize : Nat
deriving DecidableEq

/-- Item stored in the tree (`btreeItem`). -/
structure btreeItem where
  key : Bytes
  pos : Option ChunkPosition
deriving DecidableEq

/-- Run-time failure of a Go program. -/
inductive Panic where
  | nilDereference
deriving DecidableEq

/-- Go `error` value; `Option GoError` is the interface value, `none` being `nil`. -/
abbrev GoError := String

/-- Lexicographic comparison of two byte sequences: `-1`, `0` or `1`. -/
def bytesCompareList : List UInt8 → List UInt8 → Int
  | [], [] => 0
  | [], _ :: _ => -1
  | _ :: _, [] => 1
  | x :: xs, y :: ys =>
    if x < y then -1 else if y < x then 1 else bytesCompareList xs ys

/-- Go `bytes.Compare`: a nil slice is equivalent to an empty slice. -/
def bytesCompare (a b : Bytes) : Int :=
  bytesCompareList (a.getD []) (b.getD [])

/-! ## Model of `github.com/google/btree`

The package requires `less` to be a strict weak ordering of the items.  The list
operations below are its contract under that requirement; with a `less` that is no
ordering, the package's search of a node of several items (a binary search) and the
search of the list can take different turns. -/

/-- Contract model of `btree.BTreeG[T]`: the ordering function and the items in
ascending order. -/
structure BTreeG (T : Type) where
  less : T → T → Bool
  items : List T

namespace BTreeG

variable {T : Type} {σ : Type}

/-- Insertion into an ascending list: the item equivalent to `item` (neither less than
the other) is replaced and returned, otherwise `item` is inserted at its place. -/
def insertItem (less : T → T → Bool) (item : T) : List T → Option T × List T
  | [] => (none, [item])
  | x :: xs =>
    if less x item then
      let r := insertItem less item xs
      (r.1, x :: r.2)
    else if less item x then (none, item :: x :: xs)
    else (some x, item :: xs)

/-- Search of an ascending list for the item equivalent to `key`. -/
def findItem (less : T → T → Bool) (key : T) : List T → Option T
  | [] => none
  | x :: xs =>
    if less x key then findItem less key xs
    else if less key x then none
    else some x

/-- Removal of the item equivalent to `key` from an ascending list. -/
def deleteItem (less : T → T → Bool) (key : T) : List T → Option T × List T
  | [] => (none, [])
  | x :: xs =>
    if less x key then
      let r := deleteItem less key xs
      (r.1, x :: r.2)
    else if less key x then (none, x :: xs)
    else (some x, xs)

/-- Calls `f` on the items of `l` in turn until `f` returns false; `f` threads the state
its closure captures. -/
def iterate (f : σ → T → σ × Bool) : List T → σ → σ
  | [], s => s
  | x :: xs, s =>
    let r := f s x
    if r.2 then iterate f xs r.1 else r.1

/-- `btree.NewG(degree, less)`. -/
def NewG (less : T → T → Bool) : BTreeG T :=
  { less := less, items := [] }

/-- `ReplaceOrInsert`: the result `(old, true)` is `some old`, `(zero, false)` is `none`. -/
def ReplaceOrInsert (t : BTreeG T) (item : T) : Option T × BTreeG T :=
  let r := insertItem t.less item t.items
  (r.1, { t with items := r.2 })

/-- `Get`: `(item, true)` is `some item`, `(zero, false)` is `none`. -/
def Get (t : BTreeG T) (key : T) : Option T :=
  findItem t.less key t.items

/-- `Delete`: `(item, true)` is `some item`, `(zero, false)` is `none`. -/
def Delete (t : BTreeG T) (item : T) : Option T × BTreeG T :=
  let r := deleteItem t.less item t.items
  (r.1, { t with items := r.2 })

/-- `Len`: number of items in the tree. -/
def Len (t : BTreeG T) : Nat := t.items.length

/-- `Min`: the smallest item, `none` for `(zero, false)`. -/
def Min (t : BTreeG T) : Option T := t.items.head?

/-- `Max`: the largest item, `none` for `(zero, false)`. -/
def Max (t : BTreeG T) : Option T := t.items.getLast?

/-- `Clone`: a tree with the same items that later writes to either tree do not affect. -/
def Clone (t : BTreeG T) : BTreeG T := t

/-- `Clear`: removes all items. -/
def Clear (t : BTreeG T) (_addNodesToFreelist : Bool) : BTreeG T :=
  { t with items := [] }

/-- `Ascend`: every item in `[first, last]`, until the iterator returns false. -/
def Ascend (t : BTreeG T) (f : σ → T → σ × Bool) (s : σ) : σ :=
  iterate f t.items s

/-- `Descend`: every item in `[last, first]`, until the iterator returns false. -/
def Descend (t : BTreeG T) (f : σ → T → σ × Bool) (s : σ) : σ :=
  iterate f t.items.reverse s

/-- `AscendRange`: every item in `[greaterOrEqual, lessThan)`: the walk starts at the
first item not less than `greaterOrEqual` and ends at the first item not less than
`lessThan`. -/
def AscendRange (t : BTreeG T) (greaterOrEqual lessThan : T) (f : σ → T → σ × Bool)
    (s : σ) : σ :=
  iterate f
    ((t.items.dropWhile (fun x => t.less x greaterOrEqual)).takeWhile
      (fun x => t.less x lessThan)) s

/-- `DescendRange`: every item in `[lessOrEqual, greaterThan)` in descending order: the
walk starts at the last item not greater than `lessOrEqual` and ends at the first item
not greater than `greaterThan`. -/
def DescendRange (t : BTreeG T) (lessOrEqual greaterThan : T) (f : σ → T → σ × Bool)
    (s : σ) : σ :=
  iterate f
    ((t.items.reverse.dropWhile (fun x => t.less lessOrEqual x)).takeWhile
      (fun x => t.less greaterThan x)) s

/-- `AscendGreaterOrEqual`: every item in `[pivot, last]`. -/
def AscendGreaterOrEqual (t : BTreeG T) (pivot : T) (f : σ → T → σ × Bool) (s : σ) : σ :=
  iterate f (t.items.dropWhile (fun x => t.less x pivot)) s

/-- `DescendLessOrEqual`: every item in `[pivot, first]` in descending order. -/
def DescendLessOrEqual (t : BTreeG T) (pivot : T) (f : σ → T → σ × Bool) (s : σ) : σ :=
  iterate f (t.items.reverse.dropWhile (fun x => t.less pivot x)) s

end BTreeG

/-! ## `BTree` -/

/-- The closure `less` built by `newBTree` from the optional `lessFunc`. -/
def newBTree.less (lessFunc : Option (Bytes → Bytes → Bool))
    (a b : Option btreeItem) : Bool :=
  match a with
  | none => true
  | some a =>
    match b with
    | none => false
    | some b =>
      match lessFunc with
      | none => decide (bytesCompare a.key b.key < 0)
      | some f => f a.key b.key

/-- The index `BTree`.  The field `tree` is set once by `newBTree` and never nil. -/
structure BTree where
  tree : BTreeG (Option btreeItem)
  less : Option btreeItem → Option btreeItem → Bool

/-- `newBTree(lessFunc)`. -/
def newBTree (lessFunc : Option (Bytes → Bytes → Bool)) : BTree :=
  { tree := BTreeG.NewG (newBTree.less lessFunc), less := newBTree.less lessFunc }

namespace BTree

variable {σ : Type}

/-- `Put`: the returned position and the index after the call. -/
def Put (mt : BTree) (key : Bytes) (position : Option ChunkPosition) :
    Option ChunkPosition × BTree :=
  let r := mt.tree.ReplaceOrInsert (some { key := key, pos := position })
  let oldValue : Option btreeItem := r.1.join
  let mt1 : BTree := { mt with tree := r.2 }
  match oldValue with
  | some old => (old.pos, mt1)
  | none => (none, mt1)

/-- `Get`. -/
def Get (mt : BTree) (key : Bytes) : Option ChunkPosition :=
  let value : Option btreeItem := (mt.tree.Get (some { key := key, pos := none })).join
  match value with
  | some v => v.pos
  | none => none

/-- `Delete`: the returned pair and the index after the call. -/
def Delete (mt : BTree) (key : Bytes) : (Option ChunkPosition × Bool) × BTree :=
  let r := mt.tree.Delete (some { key := key, pos := none })
  let value : Option btreeItem := r.1.join
  let mt1 : BTree := { mt with tree := r.2 }
  match value with
  | some v => ((v.pos, true), mt1)
  | none => ((none, false), mt1)

/-- `Size`. -/
def Size (mt : BTree) : Nat := mt.tree.Len

/-- The item callback that each traversal passes to the tree: it calls `handleFn` on
the item's key and position and stops on an error or on `cont = false`.  The handler
threads its own state `σ`. -/
def itemHandler (handleFn : σ → Bytes → Option ChunkPosition → σ × (Bool × Option GoError))
    (s : Except Panic σ) (i : Option btreeItem) : Except Panic σ × Bool :=
  match s with
  | .error e => (.error e, false)
  | .ok s =>
    match i with
    | none => (.error Panic.nilDereference, false)
    | some i =>
      let r := handleFn s i.key i.pos
      let cont := r.2.1
      let err := r.2.2
      if err ≠ none then (.ok r.1, false) else (.ok r.1, cont)

/-- `Ascend`. -/
def Ascend (mt : BTree)
    (handleFn : σ → Bytes → Option ChunkPosition → σ × (Bool × Option GoError)) (s : σ) :
    Except Panic σ :=
  mt.tree.Ascend (itemHandler handleFn) (.ok s)

/-- `Descend`. -/
def Descend (mt : BTree)
    (handleFn : σ → Bytes → Option ChunkPosition → σ × (Bool × Option GoError)) (s : σ) :
    Except Panic σ :=
  mt.tree.Descend (itemHandler handleFn) (.ok s)

/-- `AscendRange`. -/
def AscendRange (mt : BTree) (startKey endKey : Bytes)
    (handleFn : σ → Bytes → Option ChunkPosition → σ × (Bool × Option GoError)) (s : σ) :
    Except Panic σ :=
  mt.tree.AscendRange (some { key := startKey, pos := none })
    (some { key := endKey, pos := none }) (itemHandler handleFn) (.ok s)

/-- `DescendRange`. -/
def DescendRange (mt : BTree) (startKey endKey : Bytes)
    (handleFn : σ → Bytes → Option ChunkPosition → σ × (Bool × Option GoError)) (s : σ) :
    Except Panic σ :=
  mt.tree.DescendRange (some { key := startKey, pos := none })
    (some { key := endKey, pos := none }) (itemHandler handleFn) (.ok s)

/-- `AscendGreaterOrEqual`. -/
def AscendGreaterOrEqual (mt : BTree) (key : Bytes)
    (handleFn : σ → Bytes → Option ChunkPosition → σ × (Bool × Option GoError)) (s : σ) :
    Except Panic σ :=
  mt.tree.AscendGreaterOrEqual (some { key := key, pos := none }) (itemHandler handleFn)
    (.ok s)

/-- `DescendLessOrEqual`. -/
def DescendLessOrEqual (mt : BTree) (key : Bytes)
    (handleFn : σ → Bytes → Option ChunkPosition → σ × (Bool × Option GoError)) (s : σ) :
    Except Panic σ :=
  mt.tree.DescendLessOrEqual (some { key := key, pos := none }) (itemHandler handleFn)
    (.ok s)

end BTree

/-! ## `BTreeIterator` -/

/-- The iterator `BTreeIterator`; `tree = none` after `Close`. -/
structure BTreeIterator where
  tree : Option (BTreeG (Option btreeItem))
  reverse : Bool
  current : Option btreeItem
  valid : Bool
  less : Option btreeItem → Option btreeItem → Bool

/-- `newBTreeIterator(tree, reverse, less)`. -/
def newBTreeIterator (tree : BTreeG (Option btreeItem)) (reverse : Bool)
    (less : Option btreeItem → Option btreeItem → Bool) : BTreeIterator :=
  let cv : Option btreeItem × Bool :=
    if tree.Len > 0 then
      (if reverse then tree.Max.join else tree.Min.join, true)
    else (none, false)
  { tree := some tree.Clone, reverse := reverse, current := cv.1, valid := cv.2,
    less := less }

/-- `BTree.Iterator(reverse)`. -/
def BTree.Iterator (mt : BTree) (reverse : Bool) : BTreeIterator :=
  newBTreeIterator mt.tree reverse mt.less

namespace BTreeIterator

/-- `Rewind`. -/
def Rewind (it : BTreeIterator) : BTreeIterator :=
  match it.tree with
  | none => it
  | some tree =>
    if tree.Len = 0 then it
    else
      { it with
        current := if it.reverse then tree.Max.join else tree.Min.join
        valid := true }

/-- The callback of `Seek`: takes the first item offered and stops. -/
def seekStep (it : BTreeIterator) (i : Option btreeItem) : BTreeIterator × Bool :=
  ({ it with current := i, valid := true }, false)

/-- `Seek`. -/
def Seek (it : BTreeIterator) (key : Bytes) : BTreeIterator :=
  match it.tree with
  | none => it
  | some tree =>
    if !it.valid then it
    else
      let seekItem : Option btreeItem := some { key := key, pos := none }
      let it1 := { it with valid := false }
      if it1.reverse then tree.DescendLessOrEqual seekItem seekStep it1
      else tree.AscendGreaterOrEqual seekItem seekStep it1

/-- The callback of `Next` on a reverse iterator. -/
def nextStepReverse (it : BTreeIterator) (i : Option btreeItem) : BTreeIterator × Bool :=
  if !it.less i it.current then (it, true)
  else ({ it with current := i, valid := true }, false)

/-- The callback of `Next` on a forward iterator. -/
def nextStepForward (it : BTreeIterator) (i : Option btreeItem) : BTreeIterator × Bool :=
  if !it.less it.current i then (it, true)
  else ({ it with current := i, valid := true }, false)

/-- `Next`. -/
def Next (it : BTreeIterator) : BTreeIterator :=
  match it.tree with
  | none => it
  | some tree =>
    if !it.valid then it
    else
      let it1 := { it with valid := false }
      let it2 :=
        if it1.reverse then tree.DescendLessOrEqual it1.current nextStepReverse it1
        else tree.AscendGreaterOrEqual it1.current nextStepForward it1
      if !it2.valid then { it2 with current := none } else it2

/-- `Valid`. -/
def Valid (it : BTreeIterator) : Bool := it.valid

/-- `Key`. -/
def Key (it : BTreeIterator) : Except Panic Bytes :=
  if !it.valid then .ok none
  else
    match it.current with
    | none => .error Panic.nilDereference
    | some c => .ok c.key

/-- `Value`. -/
def Value (it : BTreeIterator) : Except Panic (Option ChunkPosition) :=
  if !it.valid then .ok none
  else
    match it.current with
    | none => .error Panic.nilDereference
    | some c => .ok c.pos

/-- `Close`; calling `Clear` on the nil tree of a closed iterator dereferences nil. -/
def Close (it : BTreeIterator) : Except Panic BTreeIterator :=
  match it.tree with
  | none => .error Panic.nilDereference
  | some tree =>
    let _cleared := tree.Clear true
    .ok { it with tree := none, current := none, valid := false }

end BTreeIterator

/-! ## Specification vocabulary -/

/-- The ordering of keys that `newBTree lessFunc` induces: `newBTree.less` on two non-nil
items carrying the keys. -/
def keyLess (lessFunc : Option (Bytes → Bytes → Bool)) (a b : Bytes) : Bool :=
  newBTree.less lessFunc (some { key := a, pos := none }) (some { key := b, pos := none })

/-- Two keys are the same key for the index when neither is less than the other. -/
def sameKey (lessFunc : Option (Bytes → Bytes → Bool)) (a b : Bytes) : Bool :=
  !keyLess lessFunc a b && !keyLess lessFunc b a

/-- A comparator that orders keys: irreflexive, transitive, and with a transitive
"neither is less" relation (a strict weak order). -/
structure IsStrictWeakOrder (lt : Bytes → Bytes → Bool) : Prop where
  irrefl : ∀ a, lt a a = false
  trans : ∀ a b c, lt a b = true → lt b c = true → lt a c = true
  negTrans : ∀ a b c, lt a b = true → lt a c = true ∨ lt c b = true

/-- The two order laws of `less` that hold on all items, nil included. -/
structure BTreeG.WeakOrder {T : Type} (lt : T → T → Bool) : Prop where
  trans : ∀ a b c, lt a b = true → lt b c = true → lt a c = true
  negTrans : ∀ a b c, lt a b = true → lt a c = true ∨ lt c b = true

/-- A list is strictly ascending under `lt`, and `lt` is irreflexive on its items. -/
def BTreeG.Ascending {T : Type} (lt : T → T → Bool) (l : List T) : Prop :=
  l.Pairwise (fun a b => lt a b = true) ∧ ∀ x ∈ l, lt x x = false

/-- An entry of the index: a key and the position stored for it. -/
abbrev Entry := Bytes × Option ChunkPosition

/-- The entry an item carries. -/
def btreeItem.entry (i : btreeItem) : Entry := (i.key, i.pos)

/-- The entries of a list of items, in the same order. -/
def entriesOf (l : List (Option btreeItem)) : List Entry :=
  l.filterMap (fun i => i.map btreeItem.entry)

/-- The entries of the index in ascending order. -/
def BTree.entries (mt : BTree) : List Entry := entriesOf mt.tree.items

/-- A mutation of the index. -/
inductive Op where
  | put (key : Bytes) (position : Option ChunkPosition)
  | delete (key : Bytes)

/-- The index after one mutation. -/
def BTree.apply (mt : BTree) : Op → BTree
  | .put key position => (mt.Put key position).2
  | .delete key => (mt.Delete key).2

/-- The index after a sequence of mutations. -/
def BTree.run (mt : BTree) (ops : List Op) : BTree :=
  ops.foldl BTree.apply mt

/-- A handler that appends the entry it is given to its state and always returns
`(true, nil)`. -/
def record (log : List Entry) (key : Bytes) (position : Option ChunkPosition) :
    List Entry × (Bool × Option GoError) :=
  (log ++ [(key, position)], (true, none))

/-- Representation invariant of an index made by `newBTree lessFunc`: both copies of the
ordering are the closure of `newBTree`, and the items are strictly ascending non-nil
items. -/
def BTree.Inv (lessFunc : Option (Bytes → Bytes → Bool)) (mt : BTree) : Prop :=
  mt.tree.less = newBTree.less lessFunc ∧ mt.less = newBTree.less lessFunc ∧
    BTreeG.Ascending (newBTree.less lessFunc) mt.tree.items

/-- Whether a key has an entry after a sequence of mutations, in the words of the
specification: it starts from `live`, a put of the key gives it an entry and a delete
of the key removes the entry. -/
def liveAfter (lessFunc : Option (Bytes → Bytes → Bool)) (k : Bytes) (live : Bool) :
    List Op → Bool
  | [] => live
  | .put key _ :: ops => liveAfter lessFunc k (sameKey lessFunc key k || live) ops
  | .delete key :: ops => liveAfter lessFunc k (!sameKey lessFunc key k && live) ops

/-- The key `"key11"` of the iteration example. -/
def key11 : Bytes := some [107, 101, 121, 49, 49]

/-- The key `"key13"` of the iteration example. -/
def key13 : Bytes := some [107, 101, 121, 49, 51]

/-- The key `"key27"` of the iteration example. -/
def key27 : Bytes := some [107, 101, 121, 50, 55]

/-- The key `"key35"` of the iteration example. -/
def key35 : Bytes := some [107, 101, 121, 51, 53]

/-- The key `"key41"` of the iteration example. -/
def key41 : Bytes := some [107, 101, 121, 52, 49]

/-- A position in segment 1 at the given offset, for examples. -/
def posAt (offset : Nat) : ChunkPosition :=
  { SegmentId := 1, BlockNumber := 0, ChunkOffset := offset, ChunkSize := 16 }

/-- The mutations of the iteration example: five puts, in the order of `main`. -/
def exampleOps : List Op :=
  [.put key13 (some (posAt 0)), .put key11 (some (posAt 16)), .put key35 (some (posAt 32)),
    .put key27 (some (posAt 48)), .put key41 (some (posAt 64))]

/-- One call of a handler: the entry it was given and what it returned. -/
abbrev Call := Entry × (Bool × Option GoError)

/-- The handler `h` with a log of its calls added to its state. -/
def logged {σ : Type}
    (h : σ → Bytes → Option ChunkPosition → σ × (Bool × Option GoError))
    (s : σ × List Call) (key : Bytes) (position : Option ChunkPosition) :
    (σ × List Call) × (Bool × Option GoError) :=
  let r := h s.1 key position
  ((r.1, s.2 ++ [((key, position), r.2)]), r.2)

/-- A handler result that ends a traversal: `cont` is false or the error is not nil. -/
def stops (r : Bool × Option GoError) : Bool := !r.1 || r.2.isSome

/-- The calls `h` would make if it were called on every entry of a list in turn, whatever
it returns, starting in state `s`. -/
def replay {σ : Type}
    (h : σ → Bytes → Option ChunkPosition → σ × (Bool × Option GoError)) :
    σ → List Entry → List Call
  | _, [] => []
  | s, e :: es => (e, (h s e.1 e.2).2) :: replay h (h s e.1 e.2).1 es

/-- The calls of an early-exit traversal over entries `full`, in the words of the
specification: `calls` is an initial part of the calls on all entries, no call before
the last one asked to stop, and either every entry was visited or the last call asked to
stop. -/
def EarlyExit {σ : Type}
    (h : σ → Bytes → Option ChunkPosition → σ × (Bool × Option GoError)) (s : σ)
    (full : List Entry) (calls : List Call) : Prop :=
  calls <+: replay h s full ∧ (∀ c ∈ calls.dropLast, stops c.2 = false) ∧
    (calls.length = full.length ∨ ∃ c, calls.getLast? = some c ∧ stops c.2 = true)

/-- A traversal that is to visit the entries `full` exits early: run with the logged
handler `h` from state `s` it returns, its calls are an early-exit run over `full`, and
they are the calls on all of `full` when no call asks to stop. -/
def ExitsEarly {σ : Type}
    (h : σ → Bytes → Option ChunkPosition → σ × (Bool × Option GoError)) (s : σ)
    (full : List Entry) (run : Except Panic (σ × List Call)) : Prop :=
  ∃ s1 calls, run = .ok (s1, calls) ∧ EarlyExit h s full calls ∧
    ((∀ c ∈ calls, stops c.2 = false) → calls.map Prod.fst = full)

/-- A handler that counts its calls and asks to stop at the key `k`. -/
def stopAt (k : Bytes) (n : Nat) (key : Bytes) (_position : Option ChunkPosition) :
    Nat × (Bool × Option GoError) :=
  (n + 1, (decide (key ≠ k), none))

/-- The items of an iterator's snapshot in the direction of the traversal; none once the
iterator is closed. -/
def BTreeIterator.dirItems (it : BTreeIterator) : List (Option btreeItem) :=
  match it.tree with
  | none => []
  | some tree => if it.reverse then tree.items.reverse else tree.items

/-- The iterator placed on the first item of a list, invalid when there is none. -/
def BTreeIterator.moveTo (it : BTreeIterator) : List (Option btreeItem) → BTreeIterator
  | [] => { it with current := none, valid := false }
  | x :: _ => { it with current := x, valid := true }

/-- The iterator placed on the `n`-th item of its traversal, invalid past the last. -/
def BTreeIterator.atPos (it : BTreeIterator) (n : Nat) : BTreeIterator :=
  it.moveTo (it.dirItems.drop n)

/-- What a caller reads off an iterator: `Valid()`, `Key()` and `Value()`. -/
def BTreeIterator.observe (it : BTreeIterator) :
    Bool × Except Panic Bytes × Except Panic (Option ChunkPosition) :=
  (it.Valid, it.Key, it.Value)

/-- The body of `for it.Rewind(); it.Valid(); it.Next() { ... }` reading `Key()` and
`Value()` in each iteration: `none` when the fuel runs out before the loop ends,
otherwise the pairs read, one for each iteration. -/
def BTreeIterator.scanLoop :
    Nat → BTreeIterator → List (Except Panic Bytes × Except Panic (Option ChunkPosition)) →
      Option (List (Except Panic Bytes × Except Panic (Option ChunkPosition)))
  | 0, _, _ => none
  | fuel + 1, it, seen =>
    if it.Valid then scanLoop fuel it.Next (seen ++ [(it.Key, it.Value)]) else some seen

/-- The loop `for it.Rewind(); it.Valid(); it.Next()`. -/
def BTreeIterator.scan (fuel : Nat) (it : BTreeIterator) :
    Option (List (Except Panic Bytes × Except Panic (Option ChunkPosition))) :=
  BTreeIterator.scanLoop fuel it.Rewind []

/-- The entries of the index in the direction of a traversal. -/
def BTree.dirEntries (mt : BTree) (reverse : Bool) : List Entry :=
  if reverse then mt.entries.reverse else mt.entries

/-- What the loop reads on an entry. -/
def Entry.read (e : Entry) : Except Panic Bytes × Except Panic (Option ChunkPosition) :=
  (.ok e.1, .ok e.2)

/-- What `observe` gives on an iterator placed on an entry, or on an invalid iterator. -/
def observed : Option Entry → Bool × Except Panic Bytes × Except Panic (Option ChunkPosition)
  | some e => (true, .ok e.1, .ok e.2)
  | none => (false, .ok none, .ok none)

/-- A positioning call on an iterator. -/
inductive ItOp where
  | rewind
  | seek (key : Bytes)
  | next

/-- The iterator after one positioning call. -/
def BTreeIterator.apply (it : BTreeIterator) : ItOp → BTreeIterator
  | .rewind => it.Rewind
  | .seek key => it.Seek key
  | .next => it.Next

/-- The iterator after a sequence of positioning calls. -/
def BTreeIterator.run (it : BTreeIterator) (calls : List ItOp) : BTreeIterator :=
  calls.foldl BTreeIterator.apply it

/-- An open iterator over the snapshot `items` of an index made by `newBTree lessFunc`. -/
def BTreeIterator.Over (lessFunc : Option (Bytes → Bytes → Bool))
    (items : List (Option btreeItem)) (it : BTreeIterator) : Prop :=
  it.tree = some { less := newBTree.less lessFunc, items := items } ∧
    it.less = newBTree.less lessFunc ∧ BTreeG.Ascending (newBTree.less lessFunc) items

/-- A call on the index or on the iterator. -/
inductive Action where
  | mutate (op : Op)
  | position (call : ItOp)

/-- Whether an action is a call on the iterator. -/
def Action.isPosition : Action → Bool
  | .mutate _ => false
  | .position _ => true

/-- The positioning call of an action, if it is one. -/
def Action.call? : Action → Option ItOp
  | .mutate _ => none
  | .position call => some call

/-- Whether the index has an entry with the key `k`. -/
def BTree.hasEntry (lessFunc : Option (Bytes → Bytes → Bool)) (mt : BTree) (k : Bytes) :
    Bool :=
  mt.entries.any (fun e => sameKey lessFunc e.1 k)

/-- Every put of a sequence of mutations carries a non-nil position. -/
def positionsNonNil (ops : List Op) : Prop :=
  ∀ key position, Op.put key position ∈ ops → position ≠ none

/-- A comparator that is a strict total order on keys.  A key is its bytes (the nil slice
and the empty slice are one key, as for `bytes.Equal`): the comparator gives the same
answer on keys with the same bytes, is irreflexive and transitive, and orders any two
keys with different bytes one way or the other. -/
structure IsStrictTotalOrder (lt : Bytes → Bytes → Bool) : Prop where
  bytes : ∀ a b, lt a b = lt (some (a.getD [])) (some (b.getD []))
  irrefl : ∀ a, lt a a = false
  trans : ∀ a b c, lt a b = true → lt b c = true → lt a c = true
  total : ∀ a b, a.getD [] ≠ b.getD [] → lt a b = true ∨ lt b a = true

/-- An example of a custom `LessFunc`,
`func(a, b []byte) bool { return bytes.Compare(b, a) < 0 }`: descending byte order. -/
def descendingBytes (a b : Bytes) : Bool :=
  decide (bytesCompare b a < 0)

/-! ### `options.go` -/

/-- The unit constant `B`. -/
def B : Nat := 1

/-- The unit constant `KB`. -/
def KB : Nat := 1024 * B

/-- The unit constant `MB`. -/
def MB : Nat := 1024 * KB

/-- The unit constant `GB`. -/
def GB : Nat := 1024 * MB

/-- The options of a database (`Options`); `SegmentSize` is an `int64`, `BytesPerSync` a
`uint32`, `WatchQueueSize` a `uint64`. -/
structure Options where
  DirPath : String
  SegmentSize : Int
  Sync : Bool
  BytesPerSync : Nat
  WatchQueueSize : Nat
  AutoMergeCronExpr : String
  LessFunc : Option (Bytes → Bytes → Bool)

/-- `DefaultOptions`; the directory name comes from `tempDBDir()`, which draws on the
clock and a random source and is a parameter here. -/
def DefaultOptions (tempDBDir : String) : Options :=
  { DirPath := tempDBDir
    SegmentSize := 1 * GB
    Sync := false
    BytesPerSync := 0
    WatchQueueSize := 0
    AutoMergeCronExpr := ""
    LessFunc := none }

/-- The iterator after a `Seek` whose walk offered the items of a list: on the first of
them, or invalid, keeping its cursor, when there is none. -/
def BTreeIterator.seekTo (it : BTreeIterator) : List (Option btreeItem) → BTreeIterator
  | [] => { it with valid := false }
  | x :: _ => { it with current := x, valid := true }

/-! ### The locking of `BTree`'s methods -/

/-- A step of a method of `BTree` that matters for its locking: a call on `mt.lock`, or an
access to the tree `mt.tree` points to. -/
inductive LockStep where
  | lock
  | unlock
  | rlock
  | runlock
  | readTree
  | writeTree
deriving DecidableEq

/-- The public methods of `BTree`. -/
inductive Method where
  | Put
  | Get
  | Delete
  | Size
  | Ascend
  | Descend
  | AscendRange
  | DescendRange
  | AscendGreaterOrEqual
  | DescendLessOrEqual
  | Iterator
deriving DecidableEq

/-- The lock calls and tree accesses of each method, in the order they run; a deferred
unlock runs last.  `Iterator` first compares the field `mt.tree` with nil, which is not
an access to the tree; under the read lock `newBTreeIterator` then reads the tree
(`Len`, then `Min` or `Max`) and calls `tree.Clone()`, which replaces the copy-on-write
context of the tree it is called on: a write of the tree. -/
def Method.steps : Method → List LockStep
  | .Put => [.lock, .writeTree, .unlock]
  | .Get => [.rlock, .readTree, .runlock]
  | .Delete => [.lock, .writeTree, .unlock]
  | .Size => [.readTree]
  | .Ascend => [.rlock, .readTree, .runlock]
  | .Descend => [.rlock, .readTree, .runlock]
  | .AscendRange => [.rlock, .readTree, .runlock]
  | .DescendRange => [.rlock, .readTree, .runlock]
  | .AscendGreaterOrEqual => [.rlock, .readTree, .runlock]
  | .DescendLessOrEqual => [.rlock, .readTree, .runlock]
  | .Iterator => [.rlock, .readTree, .readTree, .writeTree, .runlock]

/-- What a goroutine holds of the `RWMutex`. -/
inductive Held where
  | nothing
  | read
  | write
deriving DecidableEq

/-- Whether every read of the tree in a run of steps happens with the read or the write
lock held and every write with the write lock held, starting from `held`. -/
def guarded : Held → List LockStep → Bool
  | _, [] => true
  | _, .lock :: rest => guarded .write rest
  | _, .unlock :: rest => guarded .nothing rest
  | _, .rlock :: rest => guarded .read rest
  | _, .runlock :: rest => guarded .nothing rest
  | held, .readTree :: rest => decide (held ≠ .nothing) && guarded held rest
  | held, .writeTree :: rest => decide (held = .write) && guarded held rest

/-- An example of a `LessFunc` that is not an ordering of keys,
`func(a, b []byte) bool { return len(a) > 0 && len(b) > 0 && a[0] <= b[0] }`: a non-empty
key is less than itself, and the empty key is ordered against no key. -/
def firstByteLE : Bytes → Bytes → Bool
  | some (x :: _), some (y :: _) => decide (x.toNat ≤ y.toNat)
  | _, _ => false

/-- The mutation of an action, if it is one. -/
def Action.op? : Action → Option Op
  | .mutate op => some op
  | .position _ => none

/-- What an iterator shows after each call of a sequence of positioning calls. -/
def BTreeIterator.observations (it : BTreeIterator) :
    List ItOp → List (Bool × Except Panic Bytes × Except Panic (Option ChunkPosition))
  | [] => []
  | call :: calls => (it.apply call).observe :: BTreeIterator.observations (it.apply call) calls

/-! ### Tree objects behind pointers

`BTree.tree` and `BTreeIterator.tree` are pointers to tree objects: `Put` and `Delete`
change the object `mt.tree` points to in place, and an iterator reads the object its own
`tree` points to.  Here the tree objects live in a store and the two structures hold
addresses, so that which calls can affect which depends on the addresses alone.  What a
call does to the tree it reaches is taken from the first layer: the methods below read
the object at the address, apply the operation of `BTreeG` to it and write the result
back to the same address. -/

/-- The tree objects of a program: a `*btree.BTreeG[*btreeItem]` is an address, `obj`
gives the tree at each address and `next` is the first address not yet allocated. -/
structure Store where
  obj : Nat → BTreeG (Option btreeItem)
  next : Nat

/-- The store before any tree is allocated. -/
def Store.empty : Store :=
  { obj := fun _ => BTreeG.NewG (fun _ _ => false), next := 0 }

/-- Allocation of a tree object: its address, and the store with it. -/
def Store.alloc (st : Store) (t : BTreeG (Option btreeItem)) : Nat × Store :=
  (st.next, { obj := fun p => if p = st.next then t else st.obj p, next := st.next + 1 })

/-- A write to the tree object at an address. -/
def Store.write (st : Store) (p : Nat) (t : BTreeG (Option btreeItem)) : Store :=
  { st with obj := fun q => if q = p then t else st.obj q }

/-- The struct `BTree` with its field `tree` as the pointer it is in the source. -/
structure Ptr.BTree where
  tree : Nat
  less : Option btreeItem → Option btreeItem → Bool

/-- The struct `BTreeIterator` with its field `tree` as the pointer it is in the source;
`none` is nil. -/
structure Ptr.BTreeIterator where
  tree : Option Nat
  reverse : Bool
  current : Option btreeItem
  valid : Bool
  less : Option btreeItem → Option btreeItem → Bool

/-- `newBTree(lessFunc)`: `btree.NewG` allocates the tree. -/
def Ptr.newBTree (lessFunc : Option (Bytes → Bytes → Bool)) (st : Store) :
    Ptr.BTree × Store :=
  let r := st.alloc (BTreeG.NewG (Memdb.newBTree.less lessFunc))
  ({ tree := r.1, less := Memdb.newBTree.less lessFunc }, r.2)

/-- The index a `Ptr.BTree` stands for: its tree as it is in the store. -/
def Ptr.BTree.load (mt : Ptr.BTree) (st : Store) : Memdb.BTree :=
  { tree := st.obj mt.tree, less := mt.less }

/-- `Put`: `mt.tree.ReplaceOrInsert` changes the tree `mt.tree` points to. -/
def Ptr.BTree.Put (mt : Ptr.BTree) (key : Bytes) (position : Option ChunkPosition)
    (st : Store) : Option ChunkPosition × Store :=
  let r := (st.obj mt.tree).ReplaceOrInsert (some { key := key, pos := position })
  let oldValue : Option btreeItem := r.1.join
  let st1 := st.write mt.tree r.2
  match oldValue with
  | some old => (old.pos, st1)
  | none => (none, st1)

/-- `Delete`: `mt.tree.Delete` changes the tree `mt.tree` points to. -/
def Ptr.BTree.Delete (mt : Ptr.BTree) (key : Bytes) (st : Store) :
    (Option ChunkPosition × Bool) × Store :=
  let r := (st.obj mt.tree).Delete (some { key := key, pos := none })
  let value : Option btreeItem := r.1.join
  let st1 := st.write mt.tree r.2
  match value with
  | some v => ((v.pos, true), st1)
  | none => ((none, false), st1)

/-- The store after one mutation of the index. -/
def Ptr.BTree.apply (mt : Ptr.BTree) (st : Store) : Op → Store
  | .put key position => (mt.Put key position st).2
  | .delete key => (mt.Delete key st).2

/-- `newBTreeIterator(tree, reverse, less)`: `current` and `valid` are read off the tree it
is given, and `tree.Clone()` allocates the tree the iterator keeps. -/
def Ptr.newBTreeIterator (tree : Nat) (reverse : Bool)
    (less : Option btreeItem → Option btreeItem → Bool) (st : Store) :
    Ptr.BTreeIterator × Store :=
  let cv : Option btreeItem × Bool :=
    if (st.obj tree).Len > 0 then
      (if reverse then (st.obj tree).Max.join else (st.obj tree).Min.join, true)
    else (none, false)
  let r := st.alloc (st.obj tree).Clone
  ({ tree := some r.1, reverse := reverse, current := cv.1, valid := cv.2, less := less }, r.2)

/-- `BTree.Iterator(reverse)`. -/
def Ptr.BTree.Iterator (mt : Ptr.BTree) (reverse : Bool) (st : Store) :
    Ptr.BTreeIterator × Store :=
  Ptr.newBTreeIterator mt.tree reverse mt.less st

/-- The iterator a `Ptr.BTreeIterator` stands for: its tree as it is in the store. -/
def Ptr.BTreeIterator.load (it : Ptr.BTreeIterator) (st : Store) : Memdb.BTreeIterator :=
  { tree := it.tree.map st.obj, reverse := it.reverse, current := it.current,
    valid := it.valid, less := it.less }

/-- `Rewind`, `Seek` and `Next`: the call reads the tree `it.tree` points to and assigns
`it.current` and `it.valid`. -/
def Ptr.BTreeIterator.apply (it : Ptr.BTreeIterator) (st : Store) (call : ItOp) :
    Ptr.BTreeIterator :=
  let r := (it.load st).apply call
  { it with current := r.current, valid := r.valid }

/-- `Close`: `it.tree.Clear(true)` empties the tree `it.tree` points to, then the fields
are reset. -/
def Ptr.BTreeIterator.Close (it : Ptr.BTreeIterator) (st : Store) :
    Except Panic (Ptr.BTreeIterator × Store) :=
  match it.tree with
  | none => .error Panic.nilDereference
  | some p =>
    .ok ({ it with tree := none, current := none, valid := false },
      st.write p ((st.obj p).Clear true))

/-- A program state: the tree objects, an index and an iterator. -/
structure Machine where
  store : Store
  index : Ptr.BTree
  it : Ptr.BTreeIterator

/-- The state after one action: a mutation is a call on the index, a positioning call a
call on the iterator. -/
def Machine.step (m : Machine) : Action → Machine
  | .mutate op => { m with store := m.index.apply m.store op }
  | .position call => { m with it := m.it.apply m.store call }

/-- The state after a sequence of actions. -/
def Machine.run (m : Machine) (actions : List Action) : Machine :=
  actions.foldl Machine.step m

/-- What `Valid()`, `Key()` and `Value()` of the iterator give after each positioning call
of a sequence of actions. -/
def Machine.observations (m : Machine) :
    List Action → List (Bool × Except Panic Bytes × Except Panic (Option ChunkPosition))
  | [] => []
  | .mutate op :: actions => Machine.observations (m.step (.mutate op)) actions
  | .position call :: actions =>
    ((m.step (.position call)).it.load (m.step (.position call)).store).observe ::
      Machine.observations (m.step (.position call)) actions

/-- `Close` of the iterator of a state. -/
def Machine.close (m : Machine) : Except Panic Machine :=
  match m.it.Close m.store with
  | .ok r => .ok { m with store := r.2, it := r.1 }
  | .error e => .error e

/-- The state of the program that makes an index with `newBTree(lessFunc)`, applies the
mutations `ops` to it and then calls `Iterator(reverse)` on it. -/
def Machine.start (lessFunc : Option (Bytes → Bytes → Bool)) (ops : List Op)
    (reverse : Bool) : Machine :=
  let r := Ptr.newBTree lessFunc Store.empty
  let st := ops.foldl r.1.apply r.2
  let i := r.1.Iterator reverse st
  { store := i.2, index := r.1, it := i.1 }

/-- A state in which the iterator holds the address of the index's own tree: what
`newBTreeIterator` would make of `tree: tree` in place of `tree: tree.Clone()`. -/
def Machine.aliased (m : Machine) : Machine :=
  { m with it := { m.it with tree := some m.index.tree } }

/-- The index of a state: the struct with its tree read from the store. -/
def Machine.indexNow (m : Machine) : Memdb.BTree :=
  m.index.load m.store

/-- The iterator of a state: the struct with its tree read from the store. -/
def Machine.itNow (m : Machine) : Memdb.BTreeIterator :=
  m.it.load m.store

/-- The iterator of a state reads a tree of its own: it holds an address, and not the
address of the index's tree. -/
def Machine.Separate (m : Machine) : Prop :=
  ∃ q, m.it.tree = some q ∧ q ≠ m.index.tree

/-! ## Ordered lists: insertion, search and removal -/

namespace BTreeG
variable {T : Type} {σ : Type}

theorem insertItem_fst (lt : T → T → Bool) (k : T) (l : List T) :
    (insertItem lt k l).1 = findItem lt k l := by
  induction l with
  | nil => rfl
  | cons x xs ih =>
    simp only [insertItem, findItem]
    split
    · exact ih
    · split <;> rfl

theorem deleteItem_fst (lt : T → T → Bool) (k : T) (l : List T) :
    (deleteItem lt k l).1 = findItem lt k l := by
  induction l with
  | nil => rfl
  | cons x xs ih =>
    simp only [deleteItem, findItem]
    split
    · exact ih
    · split <;> rfl

theorem findItem_insertItem_self (lt : T → T → Bool) (k : T) (hk : lt k k = false)
    (l : List T) : findItem lt k (insertItem lt k l).2 = some k := by
  induction l with
  | nil => simp [insertItem, findItem, hk]
  | cons x xs ih =>
    simp only [insertItem]
    split
    · rename_i h
      simp [findItem, h, ih]
    · split <;> simp [findItem, hk]

theorem findItem_some (lt : T → T → Bool) (k : T) (l : List T) (x : T)
    (h : findItem lt k l = some x) : x ∈ l ∧ lt x k = false ∧ lt k x = false := by
  induction l with
  | nil => simp [findItem] at h
  | cons y ys ih =>
    simp only [findItem] at h
    split at h
    · obtain ⟨h1, h2⟩ := ih h
      exact ⟨List.mem_cons_of_mem _ h1, h2⟩
    · split at h
      · cases h
      · rename_i h1 h2
        cases h
        exact ⟨List.mem_cons_self _ _, by simpa using h1, by simpa using h2⟩

theorem Ascending.tail {lt : T → T → Bool} {x : T} {xs : List T}
    (h : Ascending lt (x :: xs)) : Ascending lt xs :=
  ⟨(List.pairwise_cons.mp h.1).2, fun y hy => h.2 y (List.mem_cons_of_mem _ hy)⟩

theorem Ascending.head_lt {lt : T → T → Bool} {x : T} {xs : List T}
    (h : Ascending lt (x :: xs)) : ∀ y ∈ xs, lt x y = true :=
  (List.pairwise_cons.mp h.1).1

theorem WeakOrder.asymm {lt : T → T → Bool} (hw : WeakOrder lt) {a b : T}
    (ha : lt a a = false) (hab : lt a b = true) : lt b a = false := by
  cases hba : lt b a
  · rfl
  · have := hw.trans a b a hab hba
    rw [ha] at this; cases this

theorem findItem_none {lt : T → T → Bool} (hw : WeakOrder lt) (k : T) (l : List T)
    (hl : Ascending lt l) (h : findItem lt k l = none) :
    ∀ x ∈ l, lt x k = true ∨ lt k x = true := by
  induction l with
  | nil => simp
  | cons y ys ih =>
    intro x hx
    simp only [findItem] at h
    split at h
    · rename_i hy
      rcases List.mem_cons.mp hx with rfl | hx
      · exact Or.inl hy
      · exact ih hl.tail h x hx
    · split at h
      · rename_i hy
        rcases List.mem_cons.mp hx with rfl | hx
        · exact Or.inr hy
        · exact Or.inr (hw.trans _ _ _ hy (hl.head_lt x hx))
      · cases h

theorem findItem_of_mem {lt : T → T → Bool} (hw : WeakOrder lt) (k : T) (l : List T)
    (hl : Ascending lt l) (x : T) (hx : x ∈ l) (h1 : lt x k = false) (h2 : lt k x = false) :
    findItem lt k l = some x := by
  induction l with
  | nil => cases hx
  | cons y ys ih =>
    simp only [findItem]
    rcases List.mem_cons.mp hx with rfl | hx
    · simp [h1, h2]
    · have hyx := hl.head_lt x hx
      have hyk : lt y k = true := by
        rcases hw.negTrans _ _ k hyx with h | h
        · exact h
        · rw [h2] at h; cases h
      simp [hyk, ih hl.tail hx]

theorem mem_insertItem {lt : T → T → Bool} (hw : WeakOrder lt) (k : T) (l : List T)
    (hl : Ascending lt l) (y : T) :
    y ∈ (insertItem lt k l).2 ↔ y = k ∨ (y ∈ l ∧ (lt y k = true ∨ lt k y = true)) := by
  induction l with
  | nil => simp [insertItem]
  | cons x xs ih =>
    simp only [insertItem]
    split
    · rename_i hx
      simp only [List.mem_cons, ih hl.tail]
      constructor
      · rintro (rfl | rfl | ⟨h1, h2⟩)
        · exact Or.inr ⟨Or.inl rfl, Or.inl hx⟩
        · exact Or.inl rfl
        · exact Or.inr ⟨Or.inr h1, h2⟩
      · rintro (rfl | ⟨rfl | h1, h2⟩)
        · exact Or.inr (Or.inl rfl)
        · exact Or.inl rfl
        · exact Or.inr (Or.inr ⟨h1, h2⟩)
    · rename_i hx
      split
      · rename_i hkx
        simp only [List.mem_cons]
        constructor
        · rintro (rfl | rfl | h1)
          · exact Or.inl rfl
          · exact Or.inr ⟨Or.inl rfl, Or.inr hkx⟩
          · exact Or.inr ⟨Or.inr h1, Or.inr (hw.trans _ _ _ hkx (hl.head_lt y h1))⟩
        · rintro (rfl | ⟨rfl | h1, _⟩)
          · exact Or.inl rfl
          · exact Or.inr (Or.inl rfl)
          · exact Or.inr (Or.inr h1)
      · rename_i hkx
        simp only [List.mem_cons]
        constructor
        · rintro (rfl | h1)
          · exact Or.inl rfl
          · refine Or.inr ⟨Or.inr h1, Or.inr ?_⟩
            rcases hw.negTrans _ _ k (hl.head_lt y h1) with h | h
            · exact absurd h hx
            · exact h
        · rintro (rfl | ⟨rfl | h1, h2⟩)
          · exact Or.inl rfl
          · rcases h2 with h | h
            · exact absurd h hx
            · exact absurd h hkx
          · exact Or.inr h1

theorem ascending_insertItem {lt : T → T → Bool} (hw : WeakOrder lt) (k : T)
    (hk : lt k k = false) (l : List T) (hl : Ascending lt l) :
    Ascending lt (insertItem lt k l).2 := by
  induction l with
  | nil => exact ⟨by simp [insertItem], by simp [insertItem, hk]⟩
  | cons x xs ih =>
    have iht := ih hl.tail
    have hxx := hl.2 x (List.mem_cons_self _ _)
    simp only [insertItem]
    split
    · rename_i hx
      refine ⟨List.pairwise_cons.mpr ⟨?_, iht.1⟩, ?_⟩
      · intro y hy
        rcases (mem_insertItem hw k xs hl.tail y).mp hy with rfl | ⟨h1, _⟩
        · exact hx
        · exact hl.head_lt y h1
      · intro y hy
        rcases List.mem_cons.mp hy with rfl | hy
        · exact hxx
        · exact iht.2 y hy
    · rename_i hx
      split
      · rename_i hkx
        refine ⟨List.pairwise_cons.mpr ⟨?_, hl.1⟩, ?_⟩
        · intro y hy
          rcases List.mem_cons.mp hy with rfl | hy
          · exact hkx
          · exact hw.trans _ _ _ hkx (hl.head_lt y hy)
        · intro y hy
          rcases List.mem_cons.mp hy with rfl | hy
          · exact hk
          · exact hl.2 y hy
      · rename_i hkx
        refine ⟨List.pairwise_cons.mpr ⟨?_, hl.tail.1⟩, ?_⟩
        · intro y hy
          rcases hw.negTrans _ _ k (hl.head_lt y hy) with h | h
          · exact absurd h hx
          · exact h
        · intro y hy
          rcases List.mem_cons.mp hy with rfl | hy
          · exact hk
          · exact hl.tail.2 y hy

end BTreeG

/-! ## Ordered lists: removal, lengths and ranges -/

namespace BTreeG
variable {T : Type} {σ : Type}

theorem deleteItem_of_none (lt : T → T → Bool) (k : T) (l : List T)
    (h : findItem lt k l = none) : (deleteItem lt k l).2 = l := by
  induction l with
  | nil => rfl
  | cons x xs ih =>
    simp only [findItem] at h
    simp only [deleteItem]
    split
    · rename_i hx
      simp only [hx, if_true] at h
      simp [ih h]
    · rename_i hx
      simp only [hx] at h
      split
      · rfl
      · rename_i hkx
        simp [hkx] at h

theorem deleteItem_sublist (lt : T → T → Bool) (k : T) (l : List T) :
    List.Sublist (deleteItem lt k l).2 l := by
  induction l with
  | nil => exact List.Sublist.refl _
  | cons x xs ih =>
    simp only [deleteItem]
    split
    · exact ih.cons₂ x
    · split
      · exact List.Sublist.refl _
      · exact List.sublist_cons_self x xs

theorem ascending_deleteItem {lt : T → T → Bool} (k : T) (l : List T)
    (hl : Ascending lt l) : Ascending lt (deleteItem lt k l).2 :=
  ⟨hl.1.sublist (deleteItem_sublist lt k l),
    fun y hy => hl.2 y ((deleteItem_sublist lt k l).subset hy)⟩

theorem findItem_deleteItem_self {lt : T → T → Bool} (hw : WeakOrder lt) (k : T)
    (l : List T) (hl : Ascending lt l) : findItem lt k (deleteItem lt k l).2 = none := by
  induction l with
  | nil => rfl
  | cons x xs ih =>
    simp only [deleteItem]
    split
    · rename_i hx
      simp [findItem, hx, ih hl.tail]
    · rename_i hx
      split
      · rename_i hkx
        simp [findItem, hx, hkx]
      · rename_i hkx
        cases xs with
        | nil => rfl
        | cons y ys =>
          have hxy := hl.head_lt y (List.mem_cons_self _ _)
          have hky : lt k y = true := by
            rcases hw.negTrans _ _ k hxy with h | h
            · exact absurd h hx
            · exact h
          have hyk : lt y k = false := by
            cases hyk : lt y k
            · rfl
            · exact absurd (hw.trans _ _ _ hxy hyk) hx
          simp [findItem, hky, hyk]

theorem length_insertItem (lt : T → T → Bool) (k : T) (l : List T) :
    (insertItem lt k l).2.length =
      if (findItem lt k l).isSome then l.length else l.length + 1 := by
  induction l with
  | nil => rfl
  | cons x xs ih =>
    simp only [insertItem, findItem]
    split
    · simp only [List.length_cons, ih]
      split <;> rfl
    · split <;> simp

theorem length_deleteItem (lt : T → T → Bool) (k : T) (l : List T) :
    (deleteItem lt k l).2.length =
      if (findItem lt k l).isSome then l.length - 1 else l.length := by
  induction l with
  | nil => rfl
  | cons x xs ih =>
    simp only [deleteItem, findItem]
    split
    · simp only [List.length_cons, ih]
      split
      · rename_i h
        have : xs ≠ [] := by
          rintro rfl
          simp [findItem] at h
        have := List.length_pos.mpr this
        omega
      · rfl
    · split <;> simp

theorem filter_same_insertItem {lt : T → T → Bool} (hw : WeakOrder lt) (k : T)
    (hk : lt k k = false) (l : List T) (hl : Ascending lt l) :
    (insertItem lt k l).2.filter (fun x => !lt x k && !lt k x) = [k] := by
  induction l with
  | nil => simp [insertItem, hk]
  | cons x xs ih =>
    simp only [insertItem]
    split
    · rename_i hx
      simp [List.filter_cons, hx, ih hl.tail]
    · rename_i hx
      split
      · rename_i hkx
        have : ∀ y ∈ x :: xs, lt k y = true := by
          intro y hy
          rcases List.mem_cons.mp hy with rfl | hy
          · exact hkx
          · exact hw.trans _ _ _ hkx (hl.head_lt y hy)
        rw [List.filter_cons_of_pos (by simp [hk])]
        congr 1
        apply List.filter_eq_nil_iff.mpr
        intro y hy
        simp [this y hy]
      · rename_i hkx
        have : ∀ y ∈ xs, lt k y = true := by
          intro y hy
          rcases hw.negTrans _ _ k (hl.head_lt y hy) with h | h
          · exact absurd h hx
          · exact h
        rw [List.filter_cons_of_pos (by simp [hk])]
        congr 1
        apply List.filter_eq_nil_iff.mpr
        intro y hy
        simp [this y hy]

theorem takeWhile_eq_filter {R : T → T → Prop} {p : T → Bool} (l : List T)
    (hl : l.Pairwise R) (hp : ∀ x y, R x y → p y = true → p x = true) :
    l.takeWhile p = l.filter p := by
  induction l with
  | nil => rfl
  | cons x xs ih =>
    have hx := List.pairwise_cons.mp hl
    cases hpx : p x
    · rw [List.takeWhile_cons_of_neg (by simp [hpx]), List.filter_cons_of_neg (by simp [hpx])]
      symm
      apply List.filter_eq_nil_iff.mpr
      intro y hy hpy
      have := hp x y (hx.1 y hy) hpy
      rw [hpx] at this; cases this
    · rw [List.takeWhile_cons_of_pos hpx, List.filter_cons_of_pos hpx, ih hx.2]

theorem dropWhile_eq_filter {R : T → T → Prop} {p : T → Bool} (l : List T)
    (hl : l.Pairwise R) (hp : ∀ x y, R x y → p y = true → p x = true) :
    l.dropWhile p = l.filter (fun x => !p x) := by
  induction l with
  | nil => rfl
  | cons x xs ih =>
    have hx := List.pairwise_cons.mp hl
    cases hpx : p x
    · rw [List.dropWhile_cons_of_neg (by simp [hpx]), List.filter_cons_of_pos (by simp [hpx])]
      congr 1
      symm
      apply List.filter_eq_self.mpr
      intro y hy
      cases hpy : p y
      · rfl
      · have := hp x y (hx.1 y hy) hpy
        rw [hpx] at this; cases this
    · rw [List.dropWhile_cons_of_pos hpx, List.filter_cons_of_neg (by simp [hpx]), ih hx.2]

theorem dropWhile_pivot {R : T → T → Bool} (pre : List T) (x : T) (post : List T)
    (h : (pre ++ x :: post).Pairwise (fun a b => R a b = true)) (p : T → Bool)
    (hpre : ∀ y ∈ pre, p y = true) (hx : p x = false) :
    (pre ++ x :: post).dropWhile p = x :: post := by
  induction pre with
  | nil => simp [List.dropWhile_cons, hx]
  | cons y ys ih =>
    rw [List.cons_append, List.dropWhile_cons_of_pos (hpre y (List.mem_cons_self _ _))]
    exact ih (List.pairwise_cons.mp h).2 (fun z hz => hpre z (List.mem_cons_of_mem _ hz))

end BTreeG

/-! ## The orderings of keys and items -/

theorem uint8_lt_trichotomy (x y : UInt8) : x < y ∨ x = y ∨ y < x := by
  rcases lt_trichotomy x.toNat y.toNat with h | h | h
  · exact Or.inl h
  · exact Or.inr (Or.inl (UInt8.ext h))
  · exact Or.inr (Or.inr h)

theorem uint8_lt_trans {x y z : UInt8} (h1 : x < y) (h2 : y < z) : x < z := by
  have a : x.toNat < y.toNat := h1
  have b : y.toNat < z.toNat := h2
  exact (lt_trans a b : x.toNat < z.toNat)

theorem uint8_lt_irrefl (x : UInt8) : ¬ x < x := by
  intro h
  have a : x.toNat < x.toNat := h
  exact lt_irrefl _ a

theorem uint8_lt_asymm {x y : UInt8} (h : x < y) : ¬ y < x :=
  fun h2 => uint8_lt_irrefl x (uint8_lt_trans h h2)

theorem bytesCompareList_self (a : List UInt8) : bytesCompareList a a = 0 := by
  induction a with
  | nil => rfl
  | cons x xs ih => simp [bytesCompareList, ih, uint8_lt_irrefl]

theorem bytesCompareList_lt_cons (x y : UInt8) (xs ys : List UInt8) :
    bytesCompareList (x :: xs) (y :: ys) < 0 ↔ x < y ∨ (x = y ∧ bytesCompareList xs ys < 0) := by
  simp only [bytesCompareList]
  rcases uint8_lt_trichotomy x y with h | h | h
  · simp [h]
  · subst h; simp [uint8_lt_irrefl]
  · have h1 : ¬ x < y := uint8_lt_asymm h
    have h2 : x ≠ y := by
      rintro rfl
      exact uint8_lt_irrefl x h
    simp [h, h1, h2]

theorem bytesCompareList_trans (a b c : List UInt8) (h1 : bytesCompareList a b < 0)
    (h2 : bytesCompareList b c < 0) : bytesCompareList a c < 0 := by
  induction a generalizing b c with
  | nil =>
    cases b with
    | nil => simp [bytesCompareList] at h1
    | cons y ys =>
      cases c with
      | nil => simp [bytesCompareList] at h2
      | cons z zs => simp [bytesCompareList]
  | cons x xs ih =>
    cases b with
    | nil => simp [bytesCompareList] at h1
    | cons y ys =>
      cases c with
      | nil => simp [bytesCompareList] at h2
      | cons z zs =>
        rw [bytesCompareList_lt_cons] at h1 h2 ⊢
        rcases h1 with h1 | ⟨rfl, h1⟩
        · rcases h2 with h2 | ⟨rfl, _⟩
          · exact Or.inl (uint8_lt_trans h1 h2)
          · exact Or.inl h1
        · rcases h2 with h2 | ⟨rfl, h2⟩
          · exact Or.inl h2
          · exact Or.inr ⟨rfl, ih _ _ h1 h2⟩

theorem bytesCompareList_negTrans (a b c : List UInt8) (h1 : bytesCompareList a b < 0) :
    bytesCompareList a c < 0 ∨ bytesCompareList c b < 0 := by
  induction a generalizing b c with
  | nil =>
    cases b with
    | nil => simp [bytesCompareList] at h1
    | cons y ys =>
      cases c with
      | nil => right; simp [bytesCompareList]
      | cons z zs => left; simp [bytesCompareList]
  | cons x xs ih =>
    cases b with
    | nil => simp [bytesCompareList] at h1
    | cons y ys =>
      cases c with
      | nil => right; simp [bytesCompareList]
      | cons z zs =>
        rw [bytesCompareList_lt_cons] at h1
        rw [bytesCompareList_lt_cons, bytesCompareList_lt_cons]
        rcases h1 with h1 | ⟨rfl, h1⟩
        · rcases uint8_lt_trichotomy x z with h | rfl | h
          · exact Or.inl (Or.inl h)
          · exact Or.inr (Or.inl h1)
          · exact Or.inr (Or.inl (uint8_lt_trans h h1))
        · rcases uint8_lt_trichotomy x z with h | rfl | h
          · exact Or.inl (Or.inl h)
          · rcases ih _ zs h1 with h | h
            · exact Or.inl (Or.inr ⟨rfl, h⟩)
            · exact Or.inr (Or.inr ⟨rfl, h⟩)
          · exact Or.inr (Or.inl h)

theorem keyLess_none (a b : Bytes) : keyLess none a b = decide (bytesCompare a b < 0) := rfl

theorem keyLess_default_isStrictWeakOrder : IsStrictWeakOrder (keyLess none) where
  irrefl a := by simp [keyLess_none, bytesCompare, bytesCompareList_self]
  trans a b c h1 h2 := by
    simp only [keyLess_none, bytesCompare, decide_eq_true_eq] at *
    exact bytesCompareList_trans _ _ _ h1 h2
  negTrans a b c h1 := by
    simp only [keyLess_none, bytesCompare, decide_eq_true_eq] at *
    exact bytesCompareList_negTrans _ _ _ h1

theorem less_some_some (lf : Option (Bytes → Bytes → Bool)) (a b : btreeItem) :
    newBTree.less lf (some a) (some b) = keyLess lf a.key b.key := by
  cases lf <;> rfl

theorem less_none_left (lf : Option (Bytes → Bytes → Bool)) (b : Option btreeItem) :
    newBTree.less lf none b = true := rfl

theorem less_none_right (lf : Option (Bytes → Bytes → Bool)) (a : btreeItem) :
    newBTree.less lf (some a) none = false := rfl

theorem less_weakOrder (lf : Option (Bytes → Bytes → Bool))
    (h : IsStrictWeakOrder (keyLess lf)) : BTreeG.WeakOrder (newBTree.less lf) where
  trans a b c h1 h2 := by
    cases a with
    | none => rfl
    | some a =>
      cases b with
      | none => simp [less_none_right] at h1
      | some b =>
        cases c with
        | none => simp [less_none_right] at h2
        | some c =>
          rw [less_some_some] at *
          exact h.trans _ _ _ h1 h2
  negTrans a b c h1 := by
    cases a with
    | none => exact Or.inl rfl
    | some a =>
      cases b with
      | none => simp [less_none_right] at h1
      | some b =>
        cases c with
        | none => exact Or.inr rfl
        | some c =>
          rw [less_some_some] at *
          exact h.negTrans _ _ _ h1

theorem less_irrefl_some (lf : Option (Bytes → Bytes → Bool))
    (h : IsStrictWeakOrder (keyLess lf)) (a : btreeItem) :
    newBTree.less lf (some a) (some a) = false := by
  rw [less_some_some]; exact h.irrefl _

theorem ne_none_of_less_self (lf : Option (Bytes → Bytes → Bool)) (x : Option btreeItem)
    (h : newBTree.less lf x x = false) : x ≠ none := by
  rintro rfl
  simp [less_none_left] at h

/-! ## The index: invariant, lookups and entries -/

theorem BTreeG.findItem_congr {T : Type} (lt : T → T → Bool) (k k' : T) (l : List T)
    (h1 : ∀ x, lt x k = lt x k') (h2 : ∀ x, lt k x = lt k' x) :
    BTreeG.findItem lt k l = BTreeG.findItem lt k' l := by
  induction l with
  | nil => rfl
  | cons x xs ih => simp only [BTreeG.findItem, h1, h2, ih]

theorem less_key_left (lf : Option (Bytes → Bytes → Bool)) (k : Bytes)
    (p q : Option ChunkPosition) (x : Option btreeItem) :
    newBTree.less lf (some { key := k, pos := p }) x =
      newBTree.less lf (some { key := k, pos := q }) x := by
  cases x with
  | none => rfl
  | some x => rw [less_some_some, less_some_some]

theorem less_key_right (lf : Option (Bytes → Bytes → Bool)) (k : Bytes)
    (p q : Option ChunkPosition) (x : Option btreeItem) :
    newBTree.less lf x (some { key := k, pos := p }) =
      newBTree.less lf x (some { key := k, pos := q }) := by
  cases x with
  | none => rfl
  | some x => rw [less_some_some, less_some_some]

theorem findItem_key (lf : Option (Bytes → Bytes → Bool)) (k : Bytes)
    (p q : Option ChunkPosition) (l : List (Option btreeItem)) :
    BTreeG.findItem (newBTree.less lf) (some { key := k, pos := p }) l =
      BTreeG.findItem (newBTree.less lf) (some { key := k, pos := q }) l :=
  BTreeG.findItem_congr _ _ _ _ (fun x => less_key_right lf k p q x)
    (fun x => less_key_left lf k p q x)

theorem mem_entriesOf (l : List (Option btreeItem)) (e : Entry) :
    e ∈ entriesOf l ↔ some { key := e.1, pos := e.2 } ∈ l := by
  simp only [entriesOf, List.mem_filterMap]
  constructor
  · rintro ⟨a, ha, h⟩
    cases a with
    | none => simp at h
    | some a =>
      simp only [Option.map_some', Option.some.injEq] at h
      subst h
      exact ha
  · intro h
    exact ⟨_, h, rfl⟩

theorem BTree.inv_new (lf : Option (Bytes → Bytes → Bool)) : (newBTree lf).Inv lf :=
  ⟨rfl, rfl, List.Pairwise.nil, by simp [newBTree, BTreeG.NewG]⟩

theorem BTree.Put_tree (mt : BTree) (k : Bytes) (p : Option ChunkPosition) :
    (mt.Put k p).2 =
      { mt with tree := { mt.tree with items :=
          (BTreeG.insertItem mt.tree.less (some { key := k, pos := p }) mt.tree.items).2 } } := by
  simp only [BTree.Put, BTreeG.ReplaceOrInsert]
  split <;> rfl

theorem BTree.Delete_tree (mt : BTree) (k : Bytes) :
    (mt.Delete k).2 =
      { mt with tree := { mt.tree with items :=
          (BTreeG.deleteItem mt.tree.less (some { key := k, pos := none }) mt.tree.items).2 } } := by
  simp only [BTree.Delete, BTreeG.Delete]
  split <;> rfl

theorem BTree.inv_put (lf : Option (Bytes → Bytes → Bool))
    (h : IsStrictWeakOrder (keyLess lf)) (mt : BTree) (hi : mt.Inv lf) (k : Bytes)
    (p : Option ChunkPosition) : (mt.Put k p).2.Inv lf := by
  rw [BTree.Put_tree]
  obtain ⟨h1, h2, h3⟩ := hi
  refine ⟨h1, h2, ?_⟩
  simp only [h1]
  exact BTreeG.ascending_insertItem (less_weakOrder lf h) _ (less_irrefl_some lf h _) _ h3

theorem BTree.inv_delete (lf : Option (Bytes → Bytes → Bool)) (mt : BTree)
    (hi : mt.Inv lf) (k : Bytes) : (mt.Delete k).2.Inv lf := by
  rw [BTree.Delete_tree]
  obtain ⟨h1, h2, h3⟩ := hi
  refine ⟨h1, h2, ?_⟩
  simp only [h1]
  exact BTreeG.ascending_deleteItem _ _ h3

theorem BTree.inv_run (lf : Option (Bytes → Bytes → Bool))
    (h : IsStrictWeakOrder (keyLess lf)) (ops : List Op) (mt : BTree) (hi : mt.Inv lf) :
    (mt.run ops).Inv lf := by
  induction ops generalizing mt with
  | nil => exact hi
  | cons op ops ih =>
    simp only [BTree.run, List.foldl_cons]
    apply ih
    cases op with
    | put k p => exact BTree.inv_put lf h mt hi k p
    | delete k => exact BTree.inv_delete lf mt hi k

theorem BTree.inv_reachable (lf : Option (Bytes → Bytes → Bool))
    (h : IsStrictWeakOrder (keyLess lf)) (ops : List Op) :
    ((newBTree lf).run ops).Inv lf :=
  BTree.inv_run lf h ops _ (BTree.inv_new lf)

theorem BTree.Get_eq (lf : Option (Bytes → Bytes → Bool)) (mt : BTree) (hi : mt.Inv lf)
    (k : Bytes) (p : Option ChunkPosition) :
    mt.Get k =
      ((BTreeG.findItem (newBTree.less lf) (some { key := k, pos := p }) mt.tree.items).join).bind
        (fun v => v.pos) := by
  simp only [BTree.Get, BTreeG.Get, hi.1]
  rw [findItem_key lf k none p]
  cases (BTreeG.findItem (newBTree.less lf) (some { key := k, pos := p }) mt.tree.items).join <;> rfl

theorem BTree.Put_fst (lf : Option (Bytes → Bytes → Bool)) (mt : BTree) (hi : mt.Inv lf)
    (k : Bytes) (p : Option ChunkPosition) : (mt.Put k p).1 = mt.Get k := by
  rw [BTree.Get_eq lf mt hi k p]
  simp only [BTree.Put, BTreeG.ReplaceOrInsert, hi.1, BTreeG.insertItem_fst]
  cases (BTreeG.findItem (newBTree.less lf) (some { key := k, pos := p }) mt.tree.items).join <;> rfl

theorem BTree.Get_of_mem (lf : Option (Bytes → Bytes → Bool))
    (h : IsStrictWeakOrder (keyLess lf)) (mt : BTree) (hi : mt.Inv lf) (k : Bytes)
    (e : Entry) (he : e ∈ mt.entries) (hk : sameKey lf e.1 k = true) : mt.Get k = e.2 := by
  rw [BTree.Get_eq lf mt hi k none]
  have hm := (mem_entriesOf _ e).mp he
  simp only [sameKey, Bool.and_eq_true, Bool.not_eq_true'] at hk
  rw [BTreeG.findItem_of_mem (less_weakOrder lf h) _ _ hi.2.2 _ hm
    (by rw [less_some_some]; exact hk.1) (by rw [less_some_some]; exact hk.2)]
  rfl

theorem BTree.Get_of_not_mem (lf : Option (Bytes → Bytes → Bool)) (mt : BTree)
    (hi : mt.Inv lf) (k : Bytes)
    (hk : ∀ e ∈ mt.entries, sameKey lf e.1 k = false) : mt.Get k = none := by
  rw [BTree.Get_eq lf mt hi k none]
  cases hf : BTreeG.findItem (newBTree.less lf) (some { key := k, pos := none }) mt.tree.items with
  | none => rfl
  | some x =>
    obtain ⟨hx, h1, h2⟩ := BTreeG.findItem_some _ _ _ _ hf
    cases x with
    | none => rfl
    | some x =>
      exfalso
      have := hk (x.key, x.pos) ((mem_entriesOf _ _).mpr hx)
      rw [less_some_some] at h1 h2
      simp [sameKey, h1, h2] at this

theorem BTree.items_some (lf : Option (Bytes → Bytes → Bool)) (mt : BTree) (hi : mt.Inv lf) :
    ∀ x ∈ mt.tree.items, x ≠ none :=
  fun x hx => ne_none_of_less_self lf x (hi.2.2.2 x hx)

theorem map_some_of_ne_none {α : Type} (l : List (Option α)) (h : ∀ x ∈ l, x ≠ none) :
    ∃ l' : List α, l = l'.map some := by
  induction l with
  | nil => exact ⟨[], rfl⟩
  | cons x xs ih =>
    obtain ⟨l', hl'⟩ := ih (fun y hy => h y (List.mem_cons_of_mem _ hy))
    cases x with
    | none => exact absurd rfl (h none (List.mem_cons_self _ _))
    | some a => exact ⟨a :: l', by simp [hl']⟩

theorem entriesOf_map_some (l : List btreeItem) :
    entriesOf (l.map some) = l.map btreeItem.entry := by
  induction l with
  | nil => rfl
  | cons x xs ih =>
    simp only [entriesOf, List.map_cons, List.filterMap_cons, Option.map_some'] at ih ⊢
    rw [ih]

theorem entriesOf_filter (l : List (Option btreeItem)) (h : ∀ x ∈ l, x ≠ none)
    (p : Option btreeItem → Bool) (q : Entry → Bool)
    (hpq : ∀ i : btreeItem, p (some i) = q i.entry) :
    entriesOf (l.filter p) = (entriesOf l).filter q := by
  obtain ⟨l', rfl⟩ := map_some_of_ne_none l h
  rw [List.filter_map, entriesOf_map_some, entriesOf_map_some, List.filter_map]
  congr 1
  apply List.filter_congr
  intro x _
  exact hpq x

theorem entriesOf_reverse (l : List (Option btreeItem)) :
    entriesOf l.reverse = (entriesOf l).reverse := by
  simp [entriesOf, List.filterMap_reverse]

theorem entriesOf_length (l : List (Option btreeItem)) (h : ∀ x ∈ l, x ≠ none) :
    (entriesOf l).length = l.length := by
  obtain ⟨l', rfl⟩ := map_some_of_ne_none l h
  simp [entriesOf_map_some]

theorem BTree.Put_entries_same (lf : Option (Bytes → Bytes → Bool))
    (h : IsStrictWeakOrder (keyLess lf)) (mt : BTree) (hi : mt.Inv lf) (k : Bytes)
    (p : Option ChunkPosition) :
    (mt.Put k p).2.entries.filter (fun e => sameKey lf e.1 k) = [(k, p)] := by
  have hi' := BTree.inv_put lf h mt hi k p
  have hs := BTree.items_some lf _ hi'
  rw [BTree.entries,
    ← entriesOf_filter _ hs
      (fun x => !newBTree.less lf x (some { key := k, pos := p }) &&
        !newBTree.less lf (some { key := k, pos := p }) x)
      (fun e => sameKey lf e.1 k)
      (fun i => by simp only [less_some_some]; rfl)]
  rw [BTree.Put_tree]
  simp only [hi.1]
  rw [BTreeG.filter_same_insertItem (less_weakOrder lf h) _ (less_irrefl_some lf h _) _ hi.2.2]
  rfl

theorem BTree.Get_Put_same (lf : Option (Bytes → Bytes → Bool))
    (h : IsStrictWeakOrder (keyLess lf)) (mt : BTree) (hi : mt.Inv lf) (k : Bytes)
    (p : Option ChunkPosition) : (mt.Put k p).2.Get k = p := by
  rw [BTree.Get_eq lf _ (BTree.inv_put lf h mt hi k p) k p, BTree.Put_tree]
  simp only [hi.1]
  rw [BTreeG.findItem_insertItem_self _ _ (less_irrefl_some lf h _)]
  rfl

/-! ## The index: entries after a mutation -/

theorem BTreeG.mem_deleteItem {T : Type} {lt : T → T → Bool} (hw : BTreeG.WeakOrder lt)
    (k : T) (l : List T) (hl : BTreeG.Ascending lt l) (y : T) :
    y ∈ (BTreeG.deleteItem lt k l).2 ↔ y ∈ l ∧ (lt y k = true ∨ lt k y = true) := by
  induction l with
  | nil => simp [BTreeG.deleteItem]
  | cons x xs ih =>
    simp only [BTreeG.deleteItem]
    split
    · rename_i hx
      simp only [List.mem_cons, ih hl.tail]
      constructor
      · rintro (rfl | ⟨h1, h2⟩)
        · exact ⟨Or.inl rfl, Or.inl hx⟩
        · exact ⟨Or.inr h1, h2⟩
      · rintro ⟨rfl | h1, h2⟩
        · exact Or.inl rfl
        · exact Or.inr ⟨h1, h2⟩
    · rename_i hx
      split
      · rename_i hkx
        constructor
        · intro hy
          refine ⟨hy, Or.inr ?_⟩
          rcases List.mem_cons.mp hy with rfl | hy
          · exact hkx
          · exact hw.trans _ _ _ hkx (hl.head_lt y hy)
        · exact fun h => h.1
      · rename_i hkx
        constructor
        · intro hy
          refine ⟨List.mem_cons_of_mem _ hy, Or.inr ?_⟩
          rcases hw.negTrans _ _ k (hl.head_lt y hy) with h | h
          · exact absurd h hx
          · exact h
        · rintro ⟨hy, h2⟩
          rcases List.mem_cons.mp hy with rfl | hy
          · rcases h2 with h | h
            · exact absurd h hx
            · exact absurd h hkx
          · exact hy

theorem sameKey_symm (lf : Option (Bytes → Bytes → Bool)) (a b : Bytes) :
    sameKey lf a b = sameKey lf b a := by
  simp only [sameKey, Bool.and_comm]

theorem sameKey_trans (lf : Option (Bytes → Bytes → Bool))
    (h : IsStrictWeakOrder (keyLess lf)) (a b c : Bytes) (h1 : sameKey lf a b = true)
    (h2 : sameKey lf b c = true) : sameKey lf a c = true := by
  simp only [sameKey, Bool.and_eq_true, Bool.not_eq_true'] at *
  constructor
  · cases hac : keyLess lf a c
    · rfl
    · rcases h.negTrans _ _ b hac with h3 | h3
      · rw [h1.1] at h3; cases h3
      · rw [h2.1] at h3; cases h3
  · cases hca : keyLess lf c a
    · rfl
    · rcases h.negTrans _ _ b hca with h3 | h3
      · rw [h2.2] at h3; cases h3
      · rw [h1.2] at h3; cases h3

theorem sameKey_refl (lf : Option (Bytes → Bytes → Bool))
    (h : IsStrictWeakOrder (keyLess lf)) (a : Bytes) : sameKey lf a a = true := by
  simp [sameKey, h.irrefl]

theorem BTree.mem_entries_put (lf : Option (Bytes → Bytes → Bool))
    (h : IsStrictWeakOrder (keyLess lf)) (mt : BTree) (hi : mt.Inv lf) (k : Bytes)
    (p : Option ChunkPosition) (e : Entry) :
    e ∈ (mt.Put k p).2.entries ↔ e = (k, p) ∨ (e ∈ mt.entries ∧ sameKey lf e.1 k = false) := by
  rw [BTree.entries, BTree.entries, mem_entriesOf, mem_entriesOf, BTree.Put_tree]
  simp only [hi.1]
  rw [BTreeG.mem_insertItem (less_weakOrder lf h) _ _ hi.2.2]
  simp only [less_some_some, sameKey]
  constructor
  · rintro (h1 | ⟨h1, h2⟩)
    · left
      simp only [Option.some.injEq, btreeItem.mk.injEq] at h1
      exact Prod.ext h1.1 h1.2
    · right
      refine ⟨h1, ?_⟩
      rcases h2 with h2 | h2 <;> simp [h2]
  · rintro (rfl | ⟨h1, h2⟩)
    · exact Or.inl rfl
    · right
      refine ⟨h1, ?_⟩
      cases h3 : keyLess lf e.1 k
      · simp [h3] at h2
        exact Or.inr h2
      · exact Or.inl rfl

theorem BTree.mem_entries_delete (lf : Option (Bytes → Bytes → Bool))
    (h : IsStrictWeakOrder (keyLess lf)) (mt : BTree) (hi : mt.Inv lf) (k : Bytes)
    (e : Entry) :
    e ∈ (mt.Delete k).2.entries ↔ e ∈ mt.entries ∧ sameKey lf e.1 k = false := by
  rw [BTree.entries, BTree.entries, mem_entriesOf, mem_entriesOf, BTree.Delete_tree]
  simp only [hi.1]
  rw [BTreeG.mem_deleteItem (less_weakOrder lf h) _ _ hi.2.2]
  simp only [less_some_some, sameKey]
  constructor
  · rintro ⟨h1, h2⟩
    refine ⟨h1, ?_⟩
    rcases h2 with h2 | h2 <;> simp [h2]
  · rintro ⟨h1, h2⟩
    refine ⟨h1, ?_⟩
    cases h3 : keyLess lf e.1 k
    · simp [h3] at h2
      exact Or.inr h2
    · exact Or.inl rfl

theorem BTree.any_entries_put (lf : Option (Bytes → Bytes → Bool))
    (h : IsStrictWeakOrder (keyLess lf)) (mt : BTree) (hi : mt.Inv lf) (k' : Bytes)
    (p : Option ChunkPosition) (k : Bytes) :
    (mt.Put k' p).2.entries.any (fun e => sameKey lf e.1 k) =
      (sameKey lf k' k || mt.entries.any (fun e => sameKey lf e.1 k)) := by
  rw [Bool.eq_iff_iff]
  simp only [List.any_eq_true, Bool.or_eq_true, BTree.mem_entries_put lf h mt hi]
  constructor
  · rintro ⟨e, (rfl | ⟨h1, _⟩), h3⟩
    · exact Or.inl h3
    · exact Or.inr ⟨e, h1, h3⟩
  · rintro (h1 | ⟨e, h1, h3⟩)
    · exact ⟨(k', p), Or.inl rfl, h1⟩
    · cases h4 : sameKey lf e.1 k'
      · exact ⟨e, Or.inr ⟨h1, h4⟩, h3⟩
      · refine ⟨(k', p), Or.inl rfl, ?_⟩
        rw [sameKey_symm] at h4
        exact sameKey_trans lf h _ _ _ h4 h3

theorem BTree.any_entries_delete (lf : Option (Bytes → Bytes → Bool))
    (h : IsStrictWeakOrder (keyLess lf)) (mt : BTree) (hi : mt.Inv lf) (k' k : Bytes) :
    (mt.Delete k').2.entries.any (fun e => sameKey lf e.1 k) =
      (!sameKey lf k' k && mt.entries.any (fun e => sameKey lf e.1 k)) := by
  rw [Bool.eq_iff_iff]
  simp only [List.any_eq_true, Bool.and_eq_true, Bool.not_eq_true',
    BTree.mem_entries_delete lf h mt hi]
  constructor
  · rintro ⟨e, ⟨h1, h2⟩, h3⟩
    refine ⟨?_, e, h1, h3⟩
    cases h4 : sameKey lf k' k
    · rfl
    · rw [sameKey_symm lf k' k] at h4
      rw [sameKey_trans lf h _ _ _ h3 h4] at h2
      cases h2
  · rintro ⟨h0, e, h1, h3⟩
    refine ⟨e, ⟨h1, ?_⟩, h3⟩
    cases h4 : sameKey lf e.1 k'
    · rfl
    · rw [sameKey_symm] at h4
      rw [sameKey_trans lf h _ _ _ h4 h3] at h0
      cases h0

theorem BTree.any_entries_run (lf : Option (Bytes → Bytes → Bool))
    (h : IsStrictWeakOrder (keyLess lf)) (k : Bytes) (ops : List Op) (mt : BTree)
    (hi : mt.Inv lf) :
    (mt.run ops).entries.any (fun e => sameKey lf e.1 k) =
      liveAfter lf k (mt.entries.any (fun e => sameKey lf e.1 k)) ops := by
  induction ops generalizing mt with
  | nil => rfl
  | cons op ops ih =>
    cases op with
    | put k' p =>
      simp only [BTree.run, List.foldl_cons, liveAfter] at ih ⊢
      rw [← BTree.any_entries_put lf h mt hi k' p k]
      exact ih _ (BTree.inv_put lf h mt hi k' p)
    | delete k' =>
      simp only [BTree.run, List.foldl_cons, liveAfter] at ih ⊢
      rw [← BTree.any_entries_delete lf h mt hi k' k]
      exact ih _ (BTree.inv_delete lf mt hi k')

theorem BTree.Get_run_puts (lf : Option (Bytes → Bytes → Bool))
    (h : IsStrictWeakOrder (keyLess lf)) (k : Bytes) (ps : List (Option ChunkPosition))
    (hne : ps ≠ []) (mt : BTree) (hi : mt.Inv lf) :
    (mt.run (ps.map (Op.put k))).Get k = ps.getLast hne := by
  induction ps generalizing mt with
  | nil => exact absurd rfl hne
  | cons p ps ih =>
    cases ps with
    | nil =>
      simp only [List.map_cons, List.map_nil, BTree.run, List.foldl_cons, List.foldl_nil,
        BTree.apply, List.getLast_singleton]
      exact BTree.Get_Put_same lf h mt hi k p
    | cons q qs =>
      have := ih (List.cons_ne_nil q qs) (mt.Put k p).2 (BTree.inv_put lf h mt hi k p)
      rw [List.getLast_cons (List.cons_ne_nil q qs)]
      rw [← this]
      rfl

/-! ## Claims C1 to C3: Put, Get and Delete -/

theorem BTree.Delete_fst (lf : Option (Bytes → Bytes → Bool)) (mt : BTree) (hi : mt.Inv lf)
    (k : Bytes) :
    (mt.Delete k).1 =
      match (BTreeG.findItem (newBTree.less lf) (some { key := k, pos := none })
          mt.tree.items).join with
      | some v => (v.pos, true)
      | none => (none, false) := by
  simp only [BTree.Delete, BTreeG.Delete, hi.1, BTreeG.deleteItem_fst]
  cases (BTreeG.findItem (newBTree.less lf) (some { key := k, pos := none })
    mt.tree.items).join <;> rfl

theorem BTree.Delete_of_mem (lf : Option (Bytes → Bytes → Bool))
    (h : IsStrictWeakOrder (keyLess lf)) (mt : BTree) (hi : mt.Inv lf) (k : Bytes)
    (e : Entry) (he : e ∈ mt.entries) (hk : sameKey lf e.1 k = true) :
    (mt.Delete k).1 = (e.2, true) := by
  rw [BTree.Delete_fst lf mt hi k]
  have hm := (mem_entriesOf _ e).mp he
  simp only [sameKey, Bool.and_eq_true, Bool.not_eq_true'] at hk
  rw [BTreeG.findItem_of_mem (less_weakOrder lf h) _ _ hi.2.2 _ hm
    (by rw [less_some_some]; exact hk.1) (by rw [less_some_some]; exact hk.2)]
  rfl

theorem BTree.Delete_of_not_mem (lf : Option (Bytes → Bytes → Bool)) (mt : BTree)
    (hi : mt.Inv lf) (k : Bytes) (hk : ∀ e ∈ mt.entries, sameKey lf e.1 k = false) :
    mt.Delete k = ((none, false), mt) := by
  have hf : BTreeG.findItem (newBTree.less lf) (some { key := k, pos := none })
      mt.tree.items = none := by
    cases hf : BTreeG.findItem (newBTree.less lf) (some { key := k, pos := none })
        mt.tree.items with
    | none => rfl
    | some x =>
      obtain ⟨hx, h1, h2⟩ := BTreeG.findItem_some _ _ _ _ hf
      cases x with
      | none => exact absurd rfl (BTree.items_some lf mt hi _ hx)
      | some x =>
        exfalso
        have := hk (x.key, x.pos) ((mem_entriesOf _ _).mpr hx)
        rw [less_some_some] at h1 h2
        simp [sameKey, h1, h2] at this
  refine Prod.ext ?_ ?_
  · rw [BTree.Delete_fst lf mt hi k, hf]
    rfl
  · rw [BTree.Delete_tree]
    have hf2 := hf
    rw [← hi.1] at hf2
    rw [BTreeG.deleteItem_of_none _ _ _ hf2]

theorem BTree.not_mem_after_delete (lf : Option (Bytes → Bytes → Bool))
    (h : IsStrictWeakOrder (keyLess lf)) (mt : BTree) (hi : mt.Inv lf) (k : Bytes) :
    ∀ e ∈ (mt.Delete k).2.entries, sameKey lf e.1 k = false :=
  fun e he => ((BTree.mem_entries_delete lf h mt hi k e).mp he).2

/-- C1. `Put(k, p)` with a non-nil `p`, on any index reached from `newBTree lessFunc` by
puts and deletes (`lessFunc` ordering the keys): it returns nil when no entry has the
key `k`, it returns the position stored for `k` when an entry has the key, and afterwards
the entries with key `k` are exactly the one entry `(k, p)`. -/
theorem put_insert_or_replace (lessFunc : Option (Bytes → Bytes → Bool))
    (hlf : IsStrictWeakOrder (keyLess lessFunc)) (ops : List Op) (k : Bytes)
    (p : ChunkPosition) :
    ((∀ e ∈ ((newBTree lessFunc).run ops).entries, sameKey lessFunc e.1 k = false) →
        (((newBTree lessFunc).run ops).Put k (some p)).1 = none) ∧
      (∀ e ∈ ((newBTree lessFunc).run ops).entries, sameKey lessFunc e.1 k = true →
        (((newBTree lessFunc).run ops).Put k (some p)).1 = e.2) ∧
      (((newBTree lessFunc).run ops).Put k (some p)).2.entries.filter
        (fun e => sameKey lessFunc e.1 k) = [(k, some p)] := by
  have hi := BTree.inv_reachable lessFunc hlf ops
  refine ⟨fun hk => ?_, fun e he hk => ?_, ?_⟩
  · rw [BTree.Put_fst lessFunc _ hi]
    exact BTree.Get_of_not_mem lessFunc _ hi k hk
  · rw [BTree.Put_fst lessFunc _ hi]
    exact BTree.Get_of_mem lessFunc hlf _ hi k e he hk
  · exact BTree.Put_entries_same lessFunc hlf _ hi k (some p)

/-- C1, on the index of the iteration example: replacing `key13` returns the position
it had, and putting a new key returns nil. -/
theorem put_insert_or_replace_witness :
    IsStrictWeakOrder (keyLess none) ∧
      (((newBTree none).run exampleOps).Put key13 (some (posAt 80))).1 = some (posAt 0) ∧
      (((newBTree none).run exampleOps).Put key13 (some (posAt 80))).2.entries.filter
        (fun e => sameKey none e.1 key13) = [(key13, some (posAt 80))] :=
  ⟨keyLess_default_isStrictWeakOrder,
    (put_insert_or_replace none keyLess_default_isStrictWeakOrder exampleOps key13
      (posAt 80)).2.1 (key13, some (posAt 0)) (by decide) (by decide),
    (put_insert_or_replace none keyLess_default_isStrictWeakOrder exampleOps key13
      (posAt 80)).2.2⟩

/-- C2. Last write wins: on any index reached from `newBTree lessFunc`, after
`Put(k, p_1), ..., Put(k, p_n)` with `n ≥ 1`, `Get(k)` returns `p_n`; and `Get(k)` returns
nil when no entry has the key `k`, which is the case when `k` was never put or was
deleted after its last put. -/
theorem get_last_write_wins (lessFunc : Option (Bytes → Bytes → Bool))
    (hlf : IsStrictWeakOrder (keyLess lessFunc)) (ops : List Op) (k : Bytes) :
    (∀ (ps : List (Option ChunkPosition)) (hne : ps ≠ []),
        (((newBTree lessFunc).run ops).run (ps.map (Op.put k))).Get k = ps.getLast hne) ∧
      ((∀ e ∈ ((newBTree lessFunc).run ops).entries, sameKey lessFunc e.1 k = false) →
        ((newBTree lessFunc).run ops).Get k = none) ∧
      (liveAfter lessFunc k false ops = false →
        ((newBTree lessFunc).run ops).Get k = none) := by
  have hi := BTree.inv_reachable lessFunc hlf ops
  refine ⟨fun ps hne => ?_, fun hk => ?_, fun hl => ?_⟩
  · exact BTree.Get_run_puts lessFunc hlf k ps hne _ hi
  · exact BTree.Get_of_not_mem lessFunc _ hi k hk
  · apply BTree.Get_of_not_mem lessFunc _ hi k
    have := BTree.any_entries_run lessFunc hlf k ops _ (BTree.inv_new lessFunc)
    rw [show (newBTree lessFunc).entries = [] from rfl, List.any_nil, hl] at this
    intro e he
    cases hs : sameKey lessFunc e.1 k
    · rfl
    · have h2 : ((newBTree lessFunc).run ops).entries.any (fun e => sameKey lessFunc e.1 k)
          = true := List.any_eq_true.mpr ⟨e, he, hs⟩
      rw [this] at h2
      cases h2

/-- C2, on concrete inputs: three puts of `key13` leave the last position, and a key
deleted after its put reads as nil. -/
theorem get_last_write_wins_witness :
    IsStrictWeakOrder (keyLess none) ∧
      (((newBTree none).run exampleOps).run
        ([some (posAt 80), none, some (posAt 96)].map (Op.put key13))).Get key13 =
          some (posAt 96) ∧
      ((newBTree none).run (exampleOps ++ [Op.delete key27])).Get key27 = none :=
  ⟨keyLess_default_isStrictWeakOrder,
    (get_last_write_wins none keyLess_default_isStrictWeakOrder exampleOps key13).1
      [some (posAt 80), none, some (posAt 96)] (by simp),
    (get_last_write_wins none keyLess_default_isStrictWeakOrder
      (exampleOps ++ [Op.delete key27]) key27).2.2 (by decide)⟩

/-- C3. `Delete(k)` on any index reached from `newBTree lessFunc`: it returns `(p, true)`
when an entry with key `k` holds `p` and `(nil, false)` when no entry has the key; after
it `Get(k)` is nil; a second `Delete(k)` returns `(nil, false)` and leaves the index, its
entries and its `Size` as they were. -/
theorem delete_idempotent (lessFunc : Option (Bytes → Bytes → Bool))
    (hlf : IsStrictWeakOrder (keyLess lessFunc)) (ops : List Op) (k : Bytes) :
    (∀ e ∈ ((newBTree lessFunc).run ops).entries, sameKey lessFunc e.1 k = true →
        (((newBTree lessFunc).run ops).Delete k).1 = (e.2, true)) ∧
      ((∀ e ∈ ((newBTree lessFunc).run ops).entries, sameKey lessFunc e.1 k = false) →
        (((newBTree lessFunc).run ops).Delete k).1 = (none, false)) ∧
      (((newBTree lessFunc).run ops).Delete k).2.Get k = none ∧
      ((((newBTree lessFunc).run ops).Delete k).2.Delete k).1 = (none, false) ∧
      ((((newBTree lessFunc).run ops).Delete k).2.Delete k).2.entries =
        (((newBTree lessFunc).run ops).Delete k).2.entries ∧
      ((((newBTree lessFunc).run ops).Delete k).2.Delete k).2.Size =
        (((newBTree lessFunc).run ops).Delete k).2.Size := by
  have hi := BTree.inv_reachable lessFunc hlf ops
  have hi2 := BTree.inv_delete lessFunc _ hi k
  have hnm := BTree.not_mem_after_delete lessFunc hlf _ hi k
  have h2 := BTree.Delete_of_not_mem lessFunc _ hi2 k hnm
  refine ⟨fun e he hk => ?_, fun hk => ?_, ?_, ?_, ?_, ?_⟩
  · exact BTree.Delete_of_mem lessFunc hlf _ hi k e he hk
  · rw [BTree.Delete_of_not_mem lessFunc _ hi k hk]
  · exact BTree.Get_of_not_mem lessFunc _ hi2 k hnm
  · rw [h2]
  · rw [h2]
  · rw [h2]

/-- C3, on the index of the iteration example: deleting `key27` returns its position. -/
theorem delete_idempotent_witness :
    IsStrictWeakOrder (keyLess none) ∧
      (((newBTree none).run exampleOps).Delete key27).1 = (some (posAt 48), true) :=
  ⟨keyLess_default_isStrictWeakOrder,
    (delete_idempotent none keyLess_default_isStrictWeakOrder exampleOps key27).1
      (key27, some (posAt 48)) (by decide) (by decide)⟩

/-! ## Claim C4: Ascend and Descend -/

theorem iterate_record (l : List btreeItem) (acc : List Entry) :
    BTreeG.iterate (BTree.itemHandler record) (l.map some) (.ok acc) =
      .ok (acc ++ l.map btreeItem.entry) := by
  induction l generalizing acc with
  | nil => simp [BTreeG.iterate]
  | cons x xs ih =>
    simp only [List.map_cons, BTreeG.iterate, BTree.itemHandler, record, ne_eq,
      not_true_eq_false, if_false, if_true]
    rw [ih]
    simp [btreeItem.entry]

theorem iterate_record_items (l : List (Option btreeItem)) (h : ∀ x ∈ l, x ≠ none) :
    BTreeG.iterate (BTree.itemHandler record) l (.ok []) = .ok (entriesOf l) := by
  obtain ⟨l', rfl⟩ := map_some_of_ne_none l h
  rw [iterate_record, entriesOf_map_some, List.nil_append]

theorem BTree.entries_pairwise (lf : Option (Bytes → Bytes → Bool)) (mt : BTree)
    (hi : mt.Inv lf) : mt.entries.Pairwise (fun a b => keyLess lf a.1 b.1 = true) := by
  obtain ⟨l', hl'⟩ := map_some_of_ne_none _ (BTree.items_some lf mt hi)
  have hp := hi.2.2.1
  rw [BTree.entries, hl', entriesOf_map_some]
  rw [hl'] at hp
  rw [List.pairwise_map] at hp ⊢
  exact hp.imp (fun {a b} hab => by rw [less_some_some] at hab; exact hab)

theorem BTree.Ascend_record (lf : Option (Bytes → Bytes → Bool)) (mt : BTree)
    (hi : mt.Inv lf) : mt.Ascend record [] = .ok mt.entries :=
  iterate_record_items _ (BTree.items_some lf mt hi)

theorem BTree.Descend_record (lf : Option (Bytes → Bytes → Bool)) (mt : BTree)
    (hi : mt.Inv lf) : mt.Descend record [] = .ok mt.entries.reverse := by
  rw [BTree.entries, ← entriesOf_reverse]
  exact iterate_record_items _
    (fun x hx => BTree.items_some lf mt hi x (List.mem_reverse.mp hx))

theorem BTree.entries_length (lf : Option (Bytes → Bytes → Bool)) (mt : BTree)
    (hi : mt.Inv lf) : mt.entries.length = mt.Size :=
  entriesOf_length _ (BTree.items_some lf mt hi)

/-- C4. With the default comparator, on any index built by puts and deletes, `Ascend`
with a handler that always continues calls it on the entries of the index, once each,
in strictly increasing byte order of the keys and with the position `Get` returns for
the key; `Descend` calls it on the same entries in the reverse order.  On the five puts
of the iteration example the keys come out as key11, key13, key27, key35, key41 and in
the reverse. -/
theorem ascend_descend_ordered (ops : List Op) :
    ((newBTree none).run ops).Ascend record [] = .ok ((newBTree none).run ops).entries ∧
      ((newBTree none).run ops).Descend record [] =
        .ok ((newBTree none).run ops).entries.reverse ∧
      ((newBTree none).run ops).entries.Pairwise (fun a b => bytesCompare a.1 b.1 < 0) ∧
      ((newBTree none).run ops).entries.length = ((newBTree none).run ops).Size ∧
      (∀ e ∈ ((newBTree none).run ops).entries, ((newBTree none).run ops).Get e.1 = e.2) ∧
      ((newBTree none).run exampleOps).Ascend record [] =
        .ok [(key11, some (posAt 16)), (key13, some (posAt 0)), (key27, some (posAt 48)),
          (key35, some (posAt 32)), (key41, some (posAt 64))] ∧
      ((newBTree none).run exampleOps).Descend record [] =
        .ok [(key41, some (posAt 64)), (key35, some (posAt 32)), (key27, some (posAt 48)),
          (key13, some (posAt 0)), (key11, some (posAt 16))] := by
  have hlf := keyLess_default_isStrictWeakOrder
  have hi := BTree.inv_reachable none hlf ops
  refine ⟨BTree.Ascend_record none _ hi, BTree.Descend_record none _ hi, ?_,
    BTree.entries_length none _ hi, ?_, ?_, ?_⟩
  · exact (BTree.entries_pairwise none _ hi).imp
      (fun {a b} hab => by rw [keyLess_none] at hab; exact of_decide_eq_true hab)
  · intro e he
    exact BTree.Get_of_mem none hlf _ hi e.1 e he (sameKey_refl none hlf e.1)
  · rfl
  · rfl

/-! ## Claims C7 and C8: range traversals -/

theorem BTreeG.range_eq_filter {T : Type} {R : T → T → Prop} (l : List T)
    (hl : l.Pairwise R) (p q : T → Bool)
    (hp : ∀ x y, R x y → p y = true → p x = true)
    (hq : ∀ x y, R x y → q y = true → q x = true) :
    (l.dropWhile p).takeWhile q = l.filter (fun x => !p x && q x) := by
  rw [BTreeG.dropWhile_eq_filter l hl hp,
    BTreeG.takeWhile_eq_filter _ (hl.sublist (List.filter_sublist l)) hq, List.filter_filter]
  apply List.filter_congr
  intro x _
  exact Bool.and_comm _ _

theorem BTree.less_trans_left (lf : Option (Bytes → Bytes → Bool))
    (h : IsStrictWeakOrder (keyLess lf)) (c : Option btreeItem) :
    ∀ x y, newBTree.less lf x y = true → newBTree.less lf y c = true →
      newBTree.less lf x c = true :=
  fun x y h1 h2 => (less_weakOrder lf h).trans x y c h1 h2

theorem BTree.less_trans_right (lf : Option (Bytes → Bytes → Bool))
    (h : IsStrictWeakOrder (keyLess lf)) (c : Option btreeItem) :
    ∀ x y, newBTree.less lf y x = true → newBTree.less lf c y = true →
      newBTree.less lf c x = true :=
  fun x y h1 h2 => (less_weakOrder lf h).trans c y x h2 h1

theorem BTree.AscendRange_record (lf : Option (Bytes → Bytes → Bool))
    (h : IsStrictWeakOrder (keyLess lf)) (mt : BTree) (hi : mt.Inv lf)
    (startKey endKey : Bytes) :
    mt.AscendRange startKey endKey record [] =
      .ok (mt.entries.filter
        (fun e => !keyLess lf e.1 startKey && keyLess lf e.1 endKey)) := by
  have hs := BTree.items_some lf mt hi
  simp only [BTree.AscendRange, BTreeG.AscendRange, hi.1]
  rw [BTreeG.range_eq_filter _ hi.2.2.1 _ _ (BTree.less_trans_left lf h _)
    (BTree.less_trans_left lf h _)]
  rw [iterate_record_items _ (fun x hx => hs x (List.mem_filter.mp hx).1)]
  rw [BTree.entries, entriesOf_filter _ hs _
    (fun e => !keyLess lf e.1 startKey && keyLess lf e.1 endKey)
    (fun i => by simp only [less_some_some]; rfl)]

theorem BTree.DescendRange_record (lf : Option (Bytes → Bytes → Bool))
    (h : IsStrictWeakOrder (keyLess lf)) (mt : BTree) (hi : mt.Inv lf)
    (startKey endKey : Bytes) :
    mt.DescendRange startKey endKey record [] =
      .ok (mt.entries.filter
        (fun e => !keyLess lf startKey e.1 && keyLess lf endKey e.1)).reverse := by
  have hs := BTree.items_some lf mt hi
  have hs' : ∀ x ∈ mt.tree.items.reverse, x ≠ none :=
    fun x hx => hs x (List.mem_reverse.mp hx)
  simp only [BTree.DescendRange, BTreeG.DescendRange, hi.1]
  rw [BTreeG.range_eq_filter _ (List.pairwise_reverse.mpr hi.2.2.1) _ _
    (BTree.less_trans_right lf h _) (BTree.less_trans_right lf h _)]
  rw [iterate_record_items _ (fun x hx => hs' x (List.mem_filter.mp hx).1)]
  rw [entriesOf_filter _ hs' _
    (fun e => !keyLess lf startKey e.1 && keyLess lf endKey e.1)
    (fun i => by simp only [less_some_some]; rfl)]
  rw [entriesOf_reverse, List.filter_reverse]
  rfl

/-- C7. `AscendRange(start, end, h)` with a handler that always continues, on any index
reached from `newBTree lessFunc`: `h` is called, in ascending order, on exactly the
entries whose key is not less than `start` and less than `end`.  An entry with the key
`start` is visited when `start < end`, an entry with the key `end` is never visited, and
nothing is visited when `start` is not less than `end`. -/
theorem ascendRange_closed_open (lessFunc : Option (Bytes → Bytes → Bool))
    (hlf : IsStrictWeakOrder (keyLess lessFunc)) (ops : List Op) (startKey endKey : Bytes) :
    ((newBTree lessFunc).run ops).AscendRange startKey endKey record [] =
        .ok (((newBTree lessFunc).run ops).entries.filter
          (fun e => !keyLess lessFunc e.1 startKey && keyLess lessFunc e.1 endKey)) ∧
      ((newBTree lessFunc).run ops).entries.Pairwise
        (fun a b => keyLess lessFunc a.1 b.1 = true) ∧
      (∀ e ∈ ((newBTree lessFunc).run ops).entries, sameKey lessFunc e.1 startKey = true →
        keyLess lessFunc startKey endKey = true →
        e ∈ ((newBTree lessFunc).run ops).entries.filter
          (fun e => !keyLess lessFunc e.1 startKey && keyLess lessFunc e.1 endKey)) ∧
      (∀ e ∈ ((newBTree lessFunc).run ops).entries, sameKey lessFunc e.1 endKey = true →
        e ∉ ((newBTree lessFunc).run ops).entries.filter
          (fun e => !keyLess lessFunc e.1 startKey && keyLess lessFunc e.1 endKey)) ∧
      (keyLess lessFunc startKey endKey = false →
        ((newBTree lessFunc).run ops).AscendRange startKey endKey record [] = .ok []) := by
  have hi := BTree.inv_reachable lessFunc hlf ops
  have hr := BTree.AscendRange_record lessFunc hlf _ hi startKey endKey
  refine ⟨hr, BTree.entries_pairwise lessFunc _ hi, ?_, ?_, ?_⟩
  · intro e he hs hse
    simp only [sameKey, Bool.and_eq_true, Bool.not_eq_true'] at hs
    refine List.mem_filter.mpr ⟨he, ?_⟩
    have : keyLess lessFunc e.1 endKey = true := by
      rcases hlf.negTrans _ _ e.1 hse with h1 | h1
      · rw [hs.2] at h1; cases h1
      · exact h1
    simp [hs.1, this]
  · intro e _ hs hm
    simp only [sameKey, Bool.and_eq_true, Bool.not_eq_true'] at hs
    have := (List.mem_filter.mp hm).2
    simp [hs.1] at this
  · intro hse
    rw [hr]
    congr 1
    apply List.filter_eq_nil_iff.mpr
    intro e _ he
    simp only [Bool.and_eq_true, Bool.not_eq_true'] at he
    rcases hlf.negTrans _ _ startKey he.2 with h1 | h1
    · rw [he.1] at h1; cases h1
    · rw [hse] at h1; cases h1

/-- C7, on the index of the iteration example: the range from key13 to key35 visits
key13 and key27, and not key35. -/
theorem ascendRange_closed_open_witness :
    IsStrictWeakOrder (keyLess none) ∧
      ((newBTree none).run exampleOps).AscendRange key13 key35 record [] =
        .ok [(key13, some (posAt 0)), (key27, some (posAt 48))] :=
  ⟨keyLess_default_isStrictWeakOrder,
    ((ascendRange_closed_open none keyLess_default_isStrictWeakOrder exampleOps key13
      key35).1).trans rfl⟩

/-- C8, where the code departs from its doc comment ("within [startKey, endKey]"): on the
index of the iteration example, with `startKey = key11 ≤ endKey = key41`, all five
entries have their key within `[startKey, endKey]`, and `DescendRange(key11, key41, h)`
calls `h` on none of them; with the bounds the other way round,
`DescendRange(key41, key11, h)` calls `h` on key41, key35, key27 and key13 and leaves
out the entry of the bound key11. -/
theorem descendRange_closed_counterexample :
    keyLess none key41 key11 = false ∧
      (((newBTree none).run exampleOps).entries.filter
        (fun e => !keyLess none e.1 key11 && !keyLess none key41 e.1)).reverse =
          [(key41, some (posAt 64)), (key35, some (posAt 32)), (key27, some (posAt 48)),
            (key13, some (posAt 0)), (key11, some (posAt 16))] ∧
      ((newBTree none).run exampleOps).DescendRange key11 key41 record [] = .ok [] ∧
      ((newBTree none).run exampleOps).DescendRange key11 key41 record [] ≠
        .ok (((newBTree none).run exampleOps).entries.filter
          (fun e => !keyLess none e.1 key11 && !keyLess none key41 e.1)).reverse ∧
      ((newBTree none).run exampleOps).DescendRange key41 key11 record [] =
        .ok [(key41, some (posAt 64)), (key35, some (posAt 32)), (key27, some (posAt 48)),
          (key13, some (posAt 0))] ∧
      ((newBTree none).run exampleOps).Get key11 = some (posAt 16) := by
  refine ⟨by decide, by decide, rfl, ?_, rfl, by decide⟩
  intro h
  have h2 : ((newBTree none).run exampleOps).DescendRange key11 key41 record [] = .ok [] :=
    rfl
  rw [h2] at h
  have h3 := Except.ok.inj h
  revert h3
  decide

/-- What `DescendRange(startKey, endKey, h)` does with a handler that always continues,
on any index reached from `newBTree lessFunc`: `h` is called, in descending order, on
exactly the entries whose key is not greater than `startKey` and greater than `endKey`;
an entry with the key `endKey` is never visited and nothing is visited when `endKey` is
not less than `startKey`. -/
theorem descendRange_closed_open (lessFunc : Option (Bytes → Bytes → Bool))
    (hlf : IsStrictWeakOrder (keyLess lessFunc)) (ops : List Op) (startKey endKey : Bytes) :
    ((newBTree lessFunc).run ops).DescendRange startKey endKey record [] =
        .ok (((newBTree lessFunc).run ops).entries.filter
          (fun e => !keyLess lessFunc startKey e.1 && keyLess lessFunc endKey e.1)).reverse ∧
      ((newBTree lessFunc).run ops).entries.Pairwise
        (fun a b => keyLess lessFunc a.1 b.1 = true) ∧
      (∀ e ∈ ((newBTree lessFunc).run ops).entries, sameKey lessFunc e.1 startKey = true →
        keyLess lessFunc endKey startKey = true →
        e ∈ ((newBTree lessFunc).run ops).entries.filter
          (fun e => !keyLess lessFunc startKey e.1 && keyLess lessFunc endKey e.1)) ∧
      (∀ e ∈ ((newBTree lessFunc).run ops).entries, sameKey lessFunc e.1 endKey = true →
        e ∉ ((newBTree lessFunc).run ops).entries.filter
          (fun e => !keyLess lessFunc startKey e.1 && keyLess lessFunc endKey e.1)) ∧
      (keyLess lessFunc endKey startKey = false →
        ((newBTree lessFunc).run ops).DescendRange startKey endKey record [] = .ok []) := by
  have hi := BTree.inv_reachable lessFunc hlf ops
  have hr := BTree.DescendRange_record lessFunc hlf _ hi startKey endKey
  refine ⟨hr, BTree.entries_pairwise lessFunc _ hi, ?_, ?_, ?_⟩
  · intro e he hs hes
    simp only [sameKey, Bool.and_eq_true, Bool.not_eq_true'] at hs
    refine List.mem_filter.mpr ⟨he, ?_⟩
    have : keyLess lessFunc endKey e.1 = true := by
      rcases hlf.negTrans _ _ e.1 hes with h1 | h1
      · exact h1
      · rw [hs.1] at h1; cases h1
    simp [hs.2, this]
  · intro e _ hs hm
    simp only [sameKey, Bool.and_eq_true, Bool.not_eq_true'] at hs
    have := (List.mem_filter.mp hm).2
    simp [hs.2] at this
  · intro hes
    rw [hr]
    congr 1
    rw [List.reverse_eq_nil_iff]
    apply List.filter_eq_nil_iff.mpr
    intro e _ he
    simp only [Bool.and_eq_true, Bool.not_eq_true'] at he
    rcases hlf.negTrans _ _ startKey he.2 with h1 | h1
    · rw [hes] at h1; cases h1
    · rw [he.1] at h1; cases h1

/-- `DescendRange` on the index of the iteration example: from key35 down to key13 the
handler sees key35 and key27, and not key13. -/
theorem descendRange_closed_open_witness :
    IsStrictWeakOrder (keyLess none) ∧
      ((newBTree none).run exampleOps).DescendRange key35 key13 record [] =
        .ok [(key35, some (posAt 32)), (key27, some (posAt 48))] :=
  ⟨keyLess_default_isStrictWeakOrder,
    ((descendRange_closed_open none keyLess_default_isStrictWeakOrder exampleOps key35
      key13).1).trans rfl⟩

/-! ## Early exit of traversals -/

theorem earlyExit_cons {σ : Type}
    (h : σ → Bytes → Option ChunkPosition → σ × (Bool × Option GoError)) (s : σ)
    (e : Entry) (es : List Entry) (calls : List Call)
    (hc : stops (h s e.1 e.2).2 = false) (ih : EarlyExit h (h s e.1 e.2).1 es calls) :
    EarlyExit h s (e :: es) ((e, (h s e.1 e.2).2) :: calls) := by
  obtain ⟨h1, h2, h3⟩ := ih
  refine ⟨?_, ?_, ?_⟩
  · simp only [replay]
    exact (List.prefix_cons_inj _).mpr h1
  · intro c hc'
    cases calls with
    | nil => simp at hc'
    | cons d ds =>
      rw [List.dropLast_cons₂] at hc'
      rcases List.mem_cons.mp hc' with rfl | hc'
      · exact hc
      · exact h2 c hc'
  · cases calls with
    | nil =>
      left
      rcases h3 with h3 | ⟨c, h3, _⟩
      · simp only [List.length_nil] at h3
        simp only [List.length_cons, List.length_nil, ← h3]
      · simp at h3
    | cons d ds =>
      rcases h3 with h3 | ⟨c, h3, h4⟩
      · left
        simp only [List.length_cons] at h3 ⊢
        omega
      · right
        exact ⟨c, by rw [List.getLast?_cons_cons]; exact h3, h4⟩

theorem iterate_logged {σ : Type}
    (h : σ → Bytes → Option ChunkPosition → σ × (Bool × Option GoError))
    (l : List btreeItem) (s : σ) (log : List Call) :
    ∃ s' calls, BTreeG.iterate (BTree.itemHandler (logged h)) (l.map some) (.ok (s, log)) =
        .ok (s', log ++ calls) ∧ EarlyExit h s (l.map btreeItem.entry) calls := by
  induction l generalizing s log with
  | nil =>
    refine ⟨s, [], by simp [BTreeG.iterate], List.prefix_refl _, by simp, Or.inl rfl⟩
  | cons x xs ih =>
    cases hst : stops (h s x.key x.pos).2
    · obtain ⟨s', calls, h1, h2⟩ :=
        ih (h s x.key x.pos).1 (log ++ [((x.key, x.pos), (h s x.key x.pos).2)])
      refine ⟨s', ((x.key, x.pos), (h s x.key x.pos).2) :: calls, ?_, ?_⟩
      · simp only [stops, Bool.or_eq_false_iff, Bool.not_eq_false'] at hst
        have he : (h s x.key x.pos).2.2 = none := by
          cases hv : (h s x.key x.pos).2.2 with
          | none => rfl
          | some v => rw [hv] at hst; simp at hst
        simp only [List.map_cons, BTreeG.iterate, BTree.itemHandler, logged, hst.1, he,
          ne_eq, not_true_eq_false, if_false, if_true]
        rw [h1]
        simp
      · exact earlyExit_cons h s x.entry _ calls hst h2
    · refine ⟨(h s x.key x.pos).1, [((x.key, x.pos), (h s x.key x.pos).2)], ?_, ?_, ?_, ?_⟩
      · simp only [stops, Bool.or_eq_true, Bool.not_eq_true', Option.isSome_iff_ne_none] at hst
        simp only [List.map_cons, BTreeG.iterate, BTree.itemHandler, logged]
        by_cases he : (h s x.key x.pos).2.2 = none
        · have hc : (h s x.key x.pos).2.1 = false := by
            rcases hst with h1 | h1
            · exact h1
            · exact absurd he h1
          simp [he, hc]
        · simp [he]
      · simp only [List.map_cons, replay]
        exact (List.prefix_cons_inj _).mpr (List.nil_prefix)
      · simp
      · exact Or.inr ⟨_, rfl, hst⟩

theorem traversal_earlyExit {σ : Type}
    (h : σ → Bytes → Option ChunkPosition → σ × (Bool × Option GoError)) (s : σ)
    (L : List (Option btreeItem)) (hL : ∀ x ∈ L, x ≠ none) :
    ∃ full s' calls,
      BTreeG.iterate (BTree.itemHandler record) L (.ok []) = .ok full ∧
      BTreeG.iterate (BTree.itemHandler (logged h)) L (.ok (s, [])) = .ok (s', calls) ∧
      EarlyExit h s full calls := by
  obtain ⟨l, rfl⟩ := map_some_of_ne_none L hL
  obtain ⟨s', calls, h1, h2⟩ := iterate_logged h l s []
  refine ⟨l.map btreeItem.entry, s', calls, ?_, ?_, h2⟩
  · rw [iterate_record, List.nil_append]
  · rw [h1, List.nil_append]

theorem earlyExit_full {σ : Type}
    (h : σ → Bytes → Option ChunkPosition → σ × (Bool × Option GoError)) (s : σ)
    (full : List Entry) (calls : List Call) (he : EarlyExit h s full calls)
    (hn : ∀ c ∈ calls, stops c.2 = false) : calls.map Prod.fst = full := by
  have replay_fst : ∀ (es : List Entry) (s : σ), (replay h s es).map Prod.fst = es := by
    intro es
    induction es with
    | nil => intro s; rfl
    | cons e es ih => intro s; simp [replay, ih]
  have replay_len : (replay h s full).length = full.length := by
    rw [← List.length_map (replay h s full) Prod.fst, replay_fst]
  obtain ⟨h1, _, h3⟩ := he
  rcases h3 with h3 | ⟨c, h3, h4⟩
  · have := List.IsPrefix.eq_of_length h1 (by rw [h3, replay_len])
    rw [this, replay_fst]
  · have := hn c (List.mem_of_getLast?_eq_some h3)
    rw [this] at h4; cases h4

/-! ## The iterator: Next and Rewind by position -/

namespace BTreeIterator

theorem Over.dirItems_eq {lf : Option (Bytes → Bytes → Bool)}
    {items : List (Option btreeItem)} {it : BTreeIterator} (ho : it.Over lf items) :
    it.dirItems = if it.reverse then items.reverse else items := by
  simp [dirItems, ho.1]

theorem Next_at (lf : Option (Bytes → Bytes → Bool)) (items : List (Option btreeItem))
    (it : BTreeIterator) (ho : it.Over lf items) (pre post : List (Option btreeItem))
    (x : Option btreeItem) (hD : it.dirItems = pre ++ x :: post) (hc : it.current = x)
    (hv : it.valid = true) : it.Next = it.moveTo post := by
  rw [Over.dirItems_eq ho] at hD
  obtain ⟨ht, hl, ha⟩ := ho
  obtain ⟨tree, reverse, current, valid, less⟩ := it
  simp only at ht hl hc hv hD
  subst ht hl hc hv
  have hxmem : current ∈ items := by
    have : current ∈ pre ++ current :: post := by simp
    rw [← hD] at this
    split at this
    · exact List.mem_reverse.mp this
    · exact this
  have hxx : newBTree.less lf current current = false := ha.2 _ hxmem
  cases reverse
  · simp only [Bool.false_eq_true, if_false] at hD
    have hp := ha.1
    rw [hD, List.pairwise_append] at hp
    have hpre : ∀ y ∈ pre, newBTree.less lf y current = true :=
      fun y hy => hp.2.2 y hy _ (List.mem_cons_self _ _)
    have hpost : ∀ y ∈ post, newBTree.less lf current y = true :=
      (List.pairwise_cons.mp hp.2.1).1
    have hdw : items.dropWhile (fun y => newBTree.less lf y current) = current :: post := by
      rw [hD]
      exact BTreeG.dropWhile_pivot (R := newBTree.less lf) pre _ post (hD ▸ ha.1) _ hpre hxx
    cases post with
    | nil =>
      simp [Next, BTreeG.AscendGreaterOrEqual, hdw, BTreeG.iterate, nextStepForward, hxx,
        moveTo]
    | cons y ys =>
      have hy := hpost y (List.mem_cons_self _ _)
      simp [Next, BTreeG.AscendGreaterOrEqual, hdw, BTreeG.iterate, nextStepForward, hxx, hy,
        moveTo]
  · simp only [if_true] at hD
    have hp := List.pairwise_reverse.mpr ha.1
    rw [hD, List.pairwise_append] at hp
    have hpre : ∀ y ∈ pre, newBTree.less lf current y = true :=
      fun y hy => hp.2.2 y hy _ (List.mem_cons_self _ _)
    have hpost : ∀ y ∈ post, newBTree.less lf y current = true :=
      (List.pairwise_cons.mp hp.2.1).1
    have hdw : items.reverse.dropWhile (fun y => newBTree.less lf current y) =
        current :: post := by
      rw [hD]
      exact BTreeG.dropWhile_pivot (R := fun a b => newBTree.less lf b a) pre _ post
        (hD ▸ List.pairwise_reverse.mpr ha.1) _ hpre hxx
    cases post with
    | nil =>
      simp [Next, BTreeG.DescendLessOrEqual, hdw, BTreeG.iterate, nextStepReverse, hxx,
        moveTo]
    | cons y ys =>
      have hy := hpost y (List.mem_cons_self _ _)
      simp [Next, BTreeG.DescendLessOrEqual, hdw, BTreeG.iterate, nextStepReverse, hxx, hy,
        moveTo]

theorem moveTo_over {lf : Option (Bytes → Bytes → Bool)} {items : List (Option btreeItem)}
    {it : BTreeIterator} (ho : it.Over lf items) (l : List (Option btreeItem)) :
    (it.moveTo l).Over lf items := by
  cases l <;> exact ho

theorem moveTo_dirItems (it : BTreeIterator) (l : List (Option btreeItem)) :
    (it.moveTo l).dirItems = it.dirItems := by
  cases l <;> rfl

theorem moveTo_moveTo (it : BTreeIterator) (l l' : List (Option btreeItem)) :
    (it.moveTo l).moveTo l' = it.moveTo l' := by
  cases l <;> cases l' <;> rfl

theorem Next_atPos (lf : Option (Bytes → Bytes → Bool)) (items : List (Option btreeItem))
    (it : BTreeIterator) (ho : it.Over lf items) (n : Nat) :
    (it.atPos n).Next = it.atPos (n + 1) := by
  unfold atPos
  cases hd : it.dirItems.drop n with
  | nil =>
    have : it.dirItems.drop (n + 1) = [] := by
      rw [← List.drop_drop, hd]; rfl
    rw [this]
    simp [moveTo, Next, ho.1]
  | cons x post =>
    have h1 : it.dirItems.drop (n + 1) = post := by
      rw [← List.drop_drop, hd]; rfl
    have h2 : it.dirItems = it.dirItems.take n ++ x :: post := by
      rw [← hd, List.take_append_drop]
    rw [h1]
    rw [Next_at lf items (it.moveTo (x :: post)) (moveTo_over ho _) (it.dirItems.take n) post x
      (by rw [moveTo_dirItems]; exact h2) rfl rfl]
    exact moveTo_moveTo _ _ _

theorem Rewind_fresh (lf : Option (Bytes → Bytes → Bool)) (mt : BTree) (hi : mt.Inv lf)
    (reverse : Bool) :
    (mt.Iterator reverse).Over lf mt.tree.items ∧
      (mt.Iterator reverse).Rewind = (mt.Iterator reverse).atPos 0 ∧
      mt.Iterator reverse = (mt.Iterator reverse).atPos 0 := by
  obtain ⟨h1, h2, h3⟩ := hi
  have ho : (mt.Iterator reverse).Over lf mt.tree.items := by
    refine ⟨?_, h2, h3⟩
    simp only [BTree.Iterator, newBTreeIterator, BTreeG.Clone]
    rw [← h1]
  refine ⟨ho, ?_, ?_⟩
  · cases hitems : mt.tree.items with
    | nil =>
      simp [atPos, dirItems, moveTo, Rewind, BTree.Iterator, newBTreeIterator, BTreeG.Clone,
        BTreeG.Len, hitems]
    | cons a as =>
      cases reverse
      · simp [atPos, dirItems, moveTo, Rewind, BTree.Iterator, newBTreeIterator, BTreeG.Clone,
          BTreeG.Len, BTreeG.Min, hitems]
      · simp only [atPos, dirItems, Rewind, BTree.Iterator, newBTreeIterator, BTreeG.Clone,
          BTreeG.Len, BTreeG.Max, hitems, List.drop_zero, if_true]
        cases hr : (a :: as).reverse with
        | nil => simp at hr
        | cons b bs =>
          have : (a :: as).getLast? = some b := by
            rw [← List.head?_reverse, hr]; rfl
          simp [moveTo, this]
  · cases hitems : mt.tree.items with
    | nil =>
      simp [atPos, dirItems, moveTo, BTree.Iterator, newBTreeIterator, BTreeG.Clone,
        BTreeG.Len, hitems]
    | cons a as =>
      cases reverse
      · simp [atPos, dirItems, moveTo, BTree.Iterator, newBTreeIterator, BTreeG.Clone,
          BTreeG.Len, BTreeG.Min, hitems]
      · simp only [atPos, dirItems, BTree.Iterator, newBTreeIterator, BTreeG.Clone,
          BTreeG.Len, BTreeG.Max, hitems, List.drop_zero, if_true]
        cases hr : (a :: as).reverse with
        | nil => simp at hr
        | cons b bs =>
          have : (a :: as).getLast? = some b := by
            rw [← List.head?_reverse, hr]; rfl
          simp [moveTo, this]

end BTreeIterator

/-! ## Claim C5: the iterator loop -/

namespace BTreeIterator

theorem Over.dirItems_some {lf : Option (Bytes → Bytes → Bool)}
    {items : List (Option btreeItem)} {it : BTreeIterator} (ho : it.Over lf items) :
    ∀ x ∈ it.dirItems, x ≠ none := by
  intro x hx
  rw [Over.dirItems_eq ho] at hx
  apply ne_none_of_less_self lf x
  apply ho.2.2.2
  split at hx
  · exact List.mem_reverse.mp hx
  · exact hx

theorem observe_moveTo (it : BTreeIterator) (l : List (Option btreeItem))
    (hl : ∀ x ∈ l, x ≠ none) : (it.moveTo l).observe = observed (entriesOf l).head? := by
  cases l with
  | nil => rfl
  | cons x xs =>
    cases x with
    | none => exact absurd rfl (hl none (List.mem_cons_self _ _))
    | some i => rfl

theorem entriesOf_drop (l : List (Option btreeItem)) (hl : ∀ x ∈ l, x ≠ none) (n : Nat) :
    entriesOf (l.drop n) = (entriesOf l).drop n := by
  obtain ⟨l', rfl⟩ := map_some_of_ne_none l hl
  rw [← List.map_drop, entriesOf_map_some, entriesOf_map_some, List.map_drop]

theorem observe_atPos {lf : Option (Bytes → Bytes → Bool)}
    {items : List (Option btreeItem)} {it : BTreeIterator} (ho : it.Over lf items) (n : Nat) :
    (it.atPos n).observe = observed (entriesOf it.dirItems)[n]? := by
  have hs := ho.dirItems_some
  rw [atPos, observe_moveTo _ _ (fun x hx => hs x (List.mem_of_mem_drop hx)),
    entriesOf_drop _ hs, List.head?_drop]

theorem iterate_Next_atPos (lf : Option (Bytes → Bytes → Bool))
    (items : List (Option btreeItem)) (it : BTreeIterator) (ho : it.Over lf items) (n : Nat) :
    Next^[n] (it.atPos 0) = it.atPos n := by
  induction n with
  | zero => rfl
  | succ n ih => rw [Function.iterate_succ_apply', ih, Next_atPos lf items it ho]

theorem scanLoop_atPos (lf : Option (Bytes → Bytes → Bool))
    (items : List (Option btreeItem)) (it : BTreeIterator) (ho : it.Over lf items)
    (fuel n : Nat) (seen : List (Except Panic Bytes × Except Panic (Option ChunkPosition)))
    (hfuel : it.dirItems.length - n < fuel) :
    scanLoop fuel (it.atPos n) seen =
      some (seen ++ (entriesOf (it.dirItems.drop n)).map Entry.read) := by
  induction fuel generalizing n seen with
  | zero => omega
  | succ fuel ih =>
    have hs := ho.dirItems_some
    cases hd : it.dirItems.drop n with
    | nil => simp [scanLoop, atPos, hd, moveTo, Valid, entriesOf]
    | cons x post =>
      have hlen : (it.dirItems.drop n).length = post.length + 1 := by rw [hd]; rfl
      rw [List.length_drop] at hlen
      have h1 : it.dirItems.drop (n + 1) = post := by
        rw [← List.drop_drop, hd]; rfl
      have hx : x ∈ it.dirItems := List.mem_of_mem_drop (hd ▸ List.mem_cons_self _ _)
      cases x with
      | none => exact absurd rfl (hs none hx)
      | some i =>
        have hv : (it.atPos n).Valid = true := by simp [atPos, hd, moveTo, Valid]
        have hk : (it.atPos n).Key = .ok i.key := by simp [atPos, hd, moveTo, Key]
        have hp : (it.atPos n).Value = .ok i.pos := by simp [atPos, hd, moveTo, Value]
        rw [scanLoop, hv, if_pos rfl, Next_atPos lf items it ho, ih (n + 1) _ (by omega), h1,
          hk, hp]
        simp [entriesOf, Entry.read, btreeItem.entry]

theorem scan_fresh (lf : Option (Bytes → Bytes → Bool)) (mt : BTree) (hi : mt.Inv lf)
    (reverse : Bool) (fuel : Nat) (hfuel : mt.Size < fuel) :
    (mt.Iterator reverse).scan fuel = some ((mt.dirEntries reverse).map Entry.read) := by
  obtain ⟨ho, hr, _⟩ := Rewind_fresh lf mt hi reverse
  have hD : (mt.Iterator reverse).dirItems =
      if reverse then mt.tree.items.reverse else mt.tree.items := Over.dirItems_eq ho
  have hlen : (mt.Iterator reverse).dirItems.length = mt.Size := by
    rw [hD]; split <;> simp [BTree.Size, BTreeG.Len]
  rw [scan, hr, scanLoop_atPos lf _ _ ho fuel 0 [] (by omega), List.drop_zero, List.nil_append,
    hD]
  congr 2
  cases reverse
  · rfl
  · simp only [if_true, BTree.dirEntries, BTree.entries, entriesOf_reverse]

theorem entriesOf_dirItems_fresh (lf : Option (Bytes → Bytes → Bool)) (mt : BTree)
    (hi : mt.Inv lf) (reverse : Bool) :
    entriesOf (mt.Iterator reverse).dirItems = mt.dirEntries reverse := by
  have hD : (mt.Iterator reverse).dirItems =
      if reverse then mt.tree.items.reverse else mt.tree.items :=
    Over.dirItems_eq (Rewind_fresh lf mt hi reverse).1
  rw [hD]
  cases reverse
  · rfl
  · simp only [if_true, BTree.dirEntries, BTree.entries, entriesOf_reverse]

end BTreeIterator

/-- C5. On any index reached from `newBTree lessFunc` and in both directions, the loop
`for it.Rewind(); it.Valid(); it.Next()` over `it := Iterator(reverse)` ends, given fuel
for more than `Size()` tests of `Valid()`, after `Size()` iterations; the pairs of `Key()`
and `Value()` it reads are the entries of the index, each once, ascending when `reverse`
is false and descending when it is true; and after `n` calls of `Next` the iterator is on
the `n`-th entry of that order, the nearest one beyond the previous, or invalid when
there is none. -/
theorem iterator_loop_visits_all (lessFunc : Option (Bytes → Bytes → Bool))
    (hlf : IsStrictWeakOrder (keyLess lessFunc)) (ops : List Op) (reverse : Bool)
    (fuel : Nat) (hfuel : ((newBTree lessFunc).run ops).Size < fuel) :
    (((newBTree lessFunc).run ops).Iterator reverse).scan fuel =
        some ((((newBTree lessFunc).run ops).dirEntries reverse).map Entry.read) ∧
      ((((newBTree lessFunc).run ops).dirEntries reverse).map Entry.read).length =
        ((newBTree lessFunc).run ops).Size ∧
      ((newBTree lessFunc).run ops).dirEntries false = ((newBTree lessFunc).run ops).entries ∧
      ((newBTree lessFunc).run ops).dirEntries true =
        ((newBTree lessFunc).run ops).entries.reverse ∧
      ((newBTree lessFunc).run ops).entries.Pairwise
        (fun a b => keyLess lessFunc a.1 b.1 = true) ∧
      (∀ n : Nat,
        (BTreeIterator.Next^[n] (((newBTree lessFunc).run ops).Iterator reverse).Rewind).observe =
          observed (((newBTree lessFunc).run ops).dirEntries reverse)[n]?) := by
  have hi := BTree.inv_reachable lessFunc hlf ops
  obtain ⟨ho, hr, _⟩ := BTreeIterator.Rewind_fresh lessFunc _ hi reverse
  refine ⟨BTreeIterator.scan_fresh lessFunc _ hi reverse fuel hfuel, ?_, rfl, rfl,
    BTree.entries_pairwise lessFunc _ hi, ?_⟩
  · rw [List.length_map, ← BTree.entries_length lessFunc _ hi]
    cases reverse <;> simp [BTree.dirEntries]
  · intro n
    rw [hr, BTreeIterator.iterate_Next_atPos lessFunc _ _ ho, BTreeIterator.observe_atPos ho,
      BTreeIterator.entriesOf_dirItems_fresh lessFunc _ hi]

/-- C5, on the index of the iteration example with a reverse iterator and fuel 6: the loop
reads the five entries from key41 down to key11. -/
theorem iterator_loop_visits_all_witness :
    IsStrictWeakOrder (keyLess none) ∧ ((newBTree none).run exampleOps).Size < 6 ∧
      (((newBTree none).run exampleOps).Iterator true).scan 6 =
        some [(.ok key41, .ok (some (posAt 64))), (.ok key35, .ok (some (posAt 32))),
          (.ok key27, .ok (some (posAt 48))), (.ok key13, .ok (some (posAt 0))),
          (.ok key11, .ok (some (posAt 16)))] :=
  ⟨keyLess_default_isStrictWeakOrder, by decide,
    ((iterator_loop_visits_all none keyLess_default_isStrictWeakOrder exampleOps true 6
      (by decide)).1).trans rfl⟩

/-! ## Claim C10: Seek -/

namespace BTreeIterator

theorem iterate_frame {T σ : Type} (f : σ → T → σ × Bool) (P : σ → Prop)
    (hf : ∀ s x, P s → P (f s x).1) (L : List T) (s : σ) (hs : P s) :
    P (BTreeG.iterate f L s) := by
  induction L generalizing s with
  | nil => exact hs
  | cons x xs ih =>
    simp only [BTreeG.iterate]
    split
    · exact ih _ (hf s x hs)
    · exact hf s x hs

theorem Rewind_frame (it : BTreeIterator) :
    it.Rewind.tree = it.tree ∧ it.Rewind.reverse = it.reverse ∧ it.Rewind.less = it.less := by
  unfold Rewind
  split
  · exact ⟨rfl, rfl, rfl⟩
  · split <;> exact ⟨rfl, rfl, rfl⟩

theorem Seek_frame (it : BTreeIterator) (key : Bytes) :
    (it.Seek key).tree = it.tree ∧ (it.Seek key).reverse = it.reverse ∧
      (it.Seek key).less = it.less := by
  obtain ⟨tree, reverse, current, valid, less⟩ := it
  cases tree with
  | none => exact ⟨rfl, rfl, rfl⟩
  | some t =>
    cases valid
    · exact ⟨rfl, rfl, rfl⟩
    · cases reverse
      · exact iterate_frame seekStep
          (fun s => s.tree = some t ∧ s.reverse = false ∧ s.less = less)
          (fun s x hs => hs) _ _ ⟨rfl, rfl, rfl⟩
      · exact iterate_frame seekStep
          (fun s => s.tree = some t ∧ s.reverse = true ∧ s.less = less)
          (fun s x hs => hs) _ _ ⟨rfl, rfl, rfl⟩

theorem clear_frame (it : BTreeIterator) :
    (if !it.valid then { it with current := none } else it).tree = it.tree ∧
      (if !it.valid then { it with current := none } else it).reverse = it.reverse ∧
      (if !it.valid then { it with current := none } else it).less = it.less := by
  split <;> exact ⟨rfl, rfl, rfl⟩

theorem Next_frame (it : BTreeIterator) :
    it.Next.tree = it.tree ∧ it.Next.reverse = it.reverse ∧ it.Next.less = it.less := by
  obtain ⟨tree, reverse, current, valid, less⟩ := it
  cases tree with
  | none => exact ⟨rfl, rfl, rfl⟩
  | some t =>
    cases valid
    · exact ⟨rfl, rfl, rfl⟩
    · cases reverse
      · have h1 := iterate_frame nextStepForward
          (fun s => s.tree = some t ∧ s.reverse = false ∧ s.less = less)
          (fun s x hs => by unfold nextStepForward; split <;> exact hs)
          (t.items.dropWhile (fun x => t.less x current))
          { tree := some t, reverse := false, current := current, valid := false, less := less }
          ⟨rfl, rfl, rfl⟩
        have h2 := clear_frame (BTreeG.iterate nextStepForward
          (t.items.dropWhile (fun x => t.less x current))
          { tree := some t, reverse := false, current := current, valid := false, less := less })
        exact ⟨h2.1.trans h1.1, h2.2.1.trans h1.2.1, h2.2.2.trans h1.2.2⟩
      · have h1 := iterate_frame nextStepReverse
          (fun s => s.tree = some t ∧ s.reverse = true ∧ s.less = less)
          (fun s x hs => by unfold nextStepReverse; split <;> exact hs)
          (t.items.reverse.dropWhile (fun x => t.less current x))
          { tree := some t, reverse := true, current := current, valid := false, less := less }
          ⟨rfl, rfl, rfl⟩
        have h2 := clear_frame (BTreeG.iterate nextStepReverse
          (t.items.reverse.dropWhile (fun x => t.less current x))
          { tree := some t, reverse := true, current := current, valid := false, less := less })
        exact ⟨h2.1.trans h1.1, h2.2.1.trans h1.2.1, h2.2.2.trans h1.2.2⟩

theorem run_frame (it : BTreeIterator) (calls : List ItOp) :
    (it.run calls).tree = it.tree ∧ (it.run calls).reverse = it.reverse ∧
      (it.run calls).less = it.less := by
  induction calls generalizing it with
  | nil => exact ⟨rfl, rfl, rfl⟩
  | cons c cs ih =>
    have h1 := ih (it.apply c)
    have h2 : (it.apply c).tree = it.tree ∧ (it.apply c).reverse = it.reverse ∧
        (it.apply c).less = it.less := by
      cases c with
      | rewind => exact Rewind_frame it
      | seek key => exact Seek_frame it key
      | next => exact Next_frame it
    simp only [run, List.foldl_cons] at h1 ⊢
    exact ⟨h1.1.trans h2.1, h1.2.1.trans h2.2.1, h1.2.2.trans h2.2.2⟩

theorem Over.of_frame {lf : Option (Bytes → Bytes → Bool)} {items : List (Option btreeItem)}
    {it it' : BTreeIterator} (ho : it.Over lf items) (ht : it'.tree = it.tree)
    (hl : it'.less = it.less) : it'.Over lf items :=
  ⟨ht.trans ho.1, hl.trans ho.2.1, ho.2.2⟩

theorem dirItems_of_frame {it it' : BTreeIterator} (ht : it'.tree = it.tree)
    (hr : it'.reverse = it.reverse) : it'.dirItems = it.dirItems := by
  simp only [dirItems, ht, hr]

theorem Seek_at (lf : Option (Bytes → Bytes → Bool)) (h : IsStrictWeakOrder (keyLess lf))
    (items : List (Option btreeItem)) (it : BTreeIterator) (ho : it.Over lf items)
    (hv : it.valid = true) (k : Bytes) (i : btreeItem) (hi : some i ∈ items)
    (hk : sameKey lf i.key k = true) :
    it.Seek k = { it with current := some i, valid := true } := by
  have hw := less_weakOrder lf h
  obtain ⟨ht, hl, ha⟩ := ho
  obtain ⟨tree, reverse, current, valid, less⟩ := it
  simp only at ht hl hv
  subst ht hl hv
  simp only [sameKey, Bool.and_eq_true, Bool.not_eq_true'] at hk
  have h1 : newBTree.less lf (some i) (some { key := k, pos := none }) = false := by
    rw [less_some_some]; exact hk.1
  have h2 : newBTree.less lf (some { key := k, pos := none }) (some i) = false := by
    rw [less_some_some]; exact hk.2
  cases reverse
  · obtain ⟨pre, post, hD⟩ := List.append_of_mem hi
    have hp := ha.1
    rw [hD, List.pairwise_append] at hp
    have hpre : ∀ y ∈ pre, newBTree.less lf y (some { key := k, pos := none }) = true := by
      intro y hy
      rcases hw.negTrans _ _ (some { key := k, pos := none })
        (hp.2.2 y hy _ (List.mem_cons_self _ _)) with h3 | h3
      · exact h3
      · rw [h2] at h3; cases h3
    have hdw : items.dropWhile (fun y => newBTree.less lf y (some { key := k, pos := none })) =
        some i :: post := by
      rw [hD]
      exact BTreeG.dropWhile_pivot (R := newBTree.less lf) pre _ post (hD ▸ ha.1) _ hpre h1
    simp [Seek, BTreeG.AscendGreaterOrEqual, hdw, BTreeG.iterate, seekStep]
  · obtain ⟨pre, post, hD⟩ := List.append_of_mem (List.mem_reverse.mpr hi)
    have hp := List.pairwise_reverse.mpr ha.1
    rw [hD, List.pairwise_append] at hp
    have hpre : ∀ y ∈ pre, newBTree.less lf (some { key := k, pos := none }) y = true := by
      intro y hy
      rcases hw.negTrans _ _ (some { key := k, pos := none })
        (hp.2.2 y hy _ (List.mem_cons_self _ _)) with h3 | h3
      · rw [h1] at h3; cases h3
      · exact h3
    have hdw : items.reverse.dropWhile
        (fun y => newBTree.less lf (some { key := k, pos := none }) y) = some i :: post := by
      rw [hD]
      exact BTreeG.dropWhile_pivot (R := fun a b => newBTree.less lf b a) pre _ post
        (hD ▸ List.pairwise_reverse.mpr ha.1) _ hpre h2
    simp [Seek, BTreeG.DescendLessOrEqual, hdw, BTreeG.iterate, seekStep]

end BTreeIterator

/-- C10, refuted as stated: on the index of the iteration example a forward iterator that
ran past the last entry is invalid, key13 has an entry in its snapshot, and after
`Seek(key13)` the iterator is still invalid, with `Key()` and `Value()` nil. -/
theorem seek_on_invalid_counterexample :
    (key13, some (posAt 0)) ∈ ((newBTree none).run exampleOps).entries ∧
      ((((newBTree none).run exampleOps).Iterator false).run
        [.next, .next, .next, .next, .next]).tree.isSome = true ∧
      ((((newBTree none).run exampleOps).Iterator false).run
        [.next, .next, .next, .next, .next]).Valid = false ∧
      (((((newBTree none).run exampleOps).Iterator false).run
        [.next, .next, .next, .next, .next]).Seek key13).observe =
          (false, .ok none, .ok none) := by
  refine ⟨by decide, rfl, rfl, rfl⟩

/-- C10, amended. On an iterator over any index reached from `newBTree lessFunc`, in either
direction and after any positioning calls, if the iterator is valid and the snapshot has
an entry with the key `k`, then after `Seek(k)` the iterator is valid, `Key()` is the key
of that entry and `Value()` its position. -/
theorem seek_finds_key_when_valid (lessFunc : Option (Bytes → Bytes → Bool))
    (hlf : IsStrictWeakOrder (keyLess lessFunc)) (ops : List Op) (reverse : Bool)
    (calls : List ItOp) (k : Bytes) (e : Entry)
    (he : e ∈ ((newBTree lessFunc).run ops).entries) (hk : sameKey lessFunc e.1 k = true)
    (hv : ((((newBTree lessFunc).run ops).Iterator reverse).run calls).Valid = true) :
    (((((newBTree lessFunc).run ops).Iterator reverse).run calls).Seek k).observe =
      (true, .ok e.1, .ok e.2) := by
  have hi := BTree.inv_reachable lessFunc hlf ops
  have ho := (BTreeIterator.Rewind_fresh lessFunc _ hi reverse).1
  have hf := BTreeIterator.run_frame (((newBTree lessFunc).run ops).Iterator reverse) calls
  have ho' := BTreeIterator.Over.of_frame ho hf.1 hf.2.2
  rw [BTreeIterator.Seek_at lessFunc hlf _ _ ho' hv k { key := e.1, pos := e.2 }
    ((mem_entriesOf _ e).mp he) hk]
  rfl

/-- C10 amended, on the index of the iteration example: a reverse iterator moved on by one
`Next` finds key35 again by `Seek`. -/
theorem seek_finds_key_when_valid_witness :
    IsStrictWeakOrder (keyLess none) ∧
      (key35, some (posAt 32)) ∈ ((newBTree none).run exampleOps).entries ∧
      sameKey none key35 key35 = true ∧
      ((((newBTree none).run exampleOps).Iterator true).run [.next, .next, .next]).Valid =
        true ∧
      (((((newBTree none).run exampleOps).Iterator true).run [.next, .next, .next]).Seek
        key35).observe = (true, .ok key35, .ok (some (posAt 32))) :=
  ⟨keyLess_default_isStrictWeakOrder, by decide, by decide, rfl,
    seek_finds_key_when_valid none keyLess_default_isStrictWeakOrder exampleOps true
      [.next, .next, .next] key35 (key35, some (posAt 32)) (by decide) (by decide) rfl⟩

/-! ## Claim C6: snapshot isolation -/

theorem filterMap_call_filter (actions : List Action) :
    (actions.filter Action.isPosition).filterMap Action.call? =
      actions.filterMap Action.call? := by
  induction actions with
  | nil => rfl
  | cons a as ih =>
    cases a with
    | mutate op => simpa [List.filter, Action.isPosition, Action.call?] using ih
    | position call => simpa [List.filter, Action.isPosition, Action.call?] using ih

namespace BTreeIterator

theorem run_fresh_empty (mt : BTree) (reverse : Bool) (hitems : mt.tree.items = [])
    (calls : List ItOp) : (mt.Iterator reverse).run calls = mt.Iterator reverse := by
  induction calls with
  | nil => rfl
  | cons c cs ih =>
    have : (mt.Iterator reverse).apply c = mt.Iterator reverse := by
      cases c with
      | rewind =>
        simp [BTreeIterator.apply, Rewind, BTree.Iterator, newBTreeIterator, BTreeG.Clone,
          BTreeG.Len, hitems]
      | seek key =>
        simp [BTreeIterator.apply, Seek, BTree.Iterator, newBTreeIterator, BTreeG.Clone,
          BTreeG.Len, hitems]
      | next =>
        simp [BTreeIterator.apply, Next, BTree.Iterator, newBTreeIterator, BTreeG.Clone,
          BTreeG.Len, hitems]
    simp only [run, List.foldl_cons] at ih ⊢
    rw [this]
    exact ih

theorem Rewind_of_frame (it it' : BTreeIterator) (t : BTreeG (Option btreeItem))
    (ht : it.tree = some t) (hne : t.Len ≠ 0) (h1 : it'.tree = it.tree)
    (h2 : it'.reverse = it.reverse) (h3 : it'.less = it.less) : it'.Rewind = it.Rewind := by
  obtain ⟨tree, reverse, current, valid, less⟩ := it
  obtain ⟨tree', reverse', current', valid', less'⟩ := it'
  simp only at ht h1 h2 h3
  subst h1 h2 h3 ht
  simp [Rewind, hne]

theorem Rewind_run_fresh (mt : BTree) (reverse : Bool) (calls : List ItOp) :
    ((mt.Iterator reverse).run calls).Rewind = (mt.Iterator reverse).Rewind := by
  cases hitems : mt.tree.items with
  | nil => rw [run_fresh_empty mt reverse hitems]
  | cons a as =>
    have hf := run_frame (mt.Iterator reverse) calls
    exact Rewind_of_frame _ _ mt.tree rfl (by simp [BTreeG.Len, hitems]) hf.1 hf.2.1 hf.2.2

end BTreeIterator

theorem Store.write_obj_same (st : Store) (p : Nat) (t : BTreeG (Option btreeItem)) :
    (st.write p t).obj p = t := by
  simp [Store.write]

theorem Store.write_obj_other (st : Store) (p q : Nat) (t : BTreeG (Option btreeItem))
    (h : q ≠ p) : (st.write p t).obj q = st.obj q := by
  simp [Store.write, h]

theorem Ptr.BTree.apply_eq_write (mt : Ptr.BTree) (st : Store) (op : Op) :
    mt.apply st op = st.write mt.tree ((mt.load st).apply op).tree := by
  cases op with
  | put key position =>
    simp only [Ptr.BTree.apply, Ptr.BTree.Put, Memdb.BTree.apply, Memdb.BTree.Put,
      Ptr.BTree.load]
    cases ((st.obj mt.tree).ReplaceOrInsert (some { key := key, pos := position })).1.join <;>
      rfl
  | delete key =>
    simp only [Ptr.BTree.apply, Ptr.BTree.Delete, Memdb.BTree.apply, Memdb.BTree.Delete,
      Ptr.BTree.load]
    cases ((st.obj mt.tree).Delete (some { key := key, pos := none })).1.join <;> rfl

theorem BTree.apply_less (mt : BTree) (op : Op) : (mt.apply op).less = mt.less := by
  cases op with
  | put key position =>
    simp only [BTree.apply, BTree.Put]
    split <;> rfl
  | delete key =>
    simp only [BTree.apply, BTree.Delete]
    split <;> rfl

theorem Ptr.BTree.load_apply (mt : Ptr.BTree) (st : Store) (op : Op) :
    mt.load (mt.apply st op) = (mt.load st).apply op := by
  rw [Ptr.BTree.apply_eq_write]
  have h := BTree.apply_less (mt.load st) op
  cases hr : (mt.load st).apply op with
  | mk tree less =>
    rw [hr] at h
    simp only [Ptr.BTree.load, Store.write_obj_same] at h ⊢
    rw [h]

theorem Ptr.BTree.apply_obj_other (mt : Ptr.BTree) (st : Store) (op : Op) (q : Nat)
    (h : q ≠ mt.tree) : (mt.apply st op).obj q = st.obj q := by
  rw [Ptr.BTree.apply_eq_write]
  exact Store.write_obj_other _ _ _ _ h

theorem Ptr.BTree.apply_next (mt : Ptr.BTree) (st : Store) (op : Op) :
    (mt.apply st op).next = st.next := by
  rw [Ptr.BTree.apply_eq_write]
  rfl

theorem Ptr.BTree.load_foldl (mt : Ptr.BTree) (ops : List Op) (st : Store) :
    mt.load (ops.foldl mt.apply st) = (mt.load st).run ops ∧
      (ops.foldl mt.apply st).next = st.next := by
  induction ops generalizing st with
  | nil => exact ⟨rfl, rfl⟩
  | cons op ops ih =>
    obtain ⟨h1, h2⟩ := ih (mt.apply st op)
    simp only [List.foldl_cons, BTree.run]
    refine ⟨?_, h2.trans (Ptr.BTree.apply_next mt st op)⟩
    rw [h1, Ptr.BTree.load_apply]
    rfl

theorem Ptr.BTreeIterator.load_positioned (it : Ptr.BTreeIterator) (st : Store) (call : ItOp) :
    (it.apply st call).load st = (it.load st).apply call := by
  have hf := BTreeIterator.run_frame (it.load st) [call]
  simp only [BTreeIterator.run, List.foldl_cons, List.foldl_nil] at hf
  obtain ⟨h1, h2, h3⟩ := hf
  show ({ tree := it.tree.map st.obj, reverse := it.reverse,
          current := ((it.load st).apply call).current,
          valid := ((it.load st).apply call).valid,
          less := it.less } : Memdb.BTreeIterator) = (it.load st).apply call
  cases hr : (it.load st).apply call with
  | mk tree reverse current valid less =>
    rw [hr] at h1 h2 h3
    simp only [Ptr.BTreeIterator.load] at h1 h2 h3
    rw [h1, h2, h3]

theorem Ptr.BTreeIterator.load_congr (it : Ptr.BTreeIterator) (st st' : Store) (q : Nat)
    (hq : it.tree = some q) (h : st'.obj q = st.obj q) : it.load st' = it.load st := by
  simp only [Ptr.BTreeIterator.load, hq, Option.map_some', h]

theorem Machine.step_separate (m : Machine) (hs : m.Separate) (a : Action) :
    (m.step a).Separate := by
  obtain ⟨q, h1, h2⟩ := hs
  cases a with
  | mutate op => exact ⟨q, h1, h2⟩
  | position call => exact ⟨q, h1, h2⟩

theorem Machine.step_mutate (m : Machine) (hs : m.Separate) (op : Op) :
    (m.step (.mutate op)).it.load (m.step (.mutate op)).store = m.it.load m.store ∧
      (m.step (.mutate op)).index.load (m.step (.mutate op)).store =
        (m.index.load m.store).apply op := by
  obtain ⟨q, h1, h2⟩ := hs
  refine ⟨?_, Ptr.BTree.load_apply _ _ _⟩
  exact Ptr.BTreeIterator.load_congr m.it _ _ q h1 (Ptr.BTree.apply_obj_other _ _ _ _ h2)

theorem Machine.step_position (m : Machine) (call : ItOp) :
    (m.step (.position call)).it.load (m.step (.position call)).store =
        (m.it.load m.store).apply call ∧
      (m.step (.position call)).index.load (m.step (.position call)).store =
        m.index.load m.store :=
  ⟨Ptr.BTreeIterator.load_positioned _ _ _, rfl⟩

theorem Machine.run_load (actions : List Action) (m : Machine) (hs : m.Separate) :
    (m.run actions).it.load (m.run actions).store =
        (m.it.load m.store).run (actions.filterMap Action.call?) ∧
      (m.run actions).index.load (m.run actions).store =
        (m.index.load m.store).run (actions.filterMap Action.op?) ∧
      (m.run actions).Separate := by
  induction actions generalizing m with
  | nil => exact ⟨rfl, rfl, hs⟩
  | cons a as ih =>
    obtain ⟨h1, h2, h3⟩ := ih (m.step a) (Machine.step_separate m hs a)
    simp only [Machine.run, List.foldl_cons] at h1 h2 h3 ⊢
    refine ⟨?_, ?_, h3⟩
    · rw [h1]
      cases a with
      | mutate op =>
        rw [(Machine.step_mutate m hs op).1]
        rfl
      | position call =>
        rw [(Machine.step_position m call).1]
        rfl
    · rw [h2]
      cases a with
      | mutate op =>
        rw [(Machine.step_mutate m hs op).2]
        rfl
      | position call =>
        rw [(Machine.step_position m call).2]
        rfl

theorem Machine.observations_eq (actions : List Action) (m : Machine) (hs : m.Separate) :
    m.observations actions =
      (m.it.load m.store).observations (actions.filterMap Action.call?) := by
  induction actions generalizing m with
  | nil => rfl
  | cons a as ih =>
    have ih' := ih (m.step a) (Machine.step_separate m hs a)
    cases a with
    | mutate op =>
      simp only [Machine.observations, List.filterMap_cons, Action.call?]
      rw [ih', (Machine.step_mutate m hs op).1]
    | position call =>
      simp only [Machine.observations, List.filterMap_cons, Action.call?,
        BTreeIterator.observations]
      rw [ih', (Machine.step_position m call).1]

theorem Store.alloc_obj_other (st : Store) (t : BTreeG (Option btreeItem)) (q : Nat)
    (h : q ≠ st.next) : (st.alloc t).2.obj q = st.obj q := by
  simp [Store.alloc, h]

theorem Store.alloc_obj_same (st : Store) (t : BTreeG (Option btreeItem)) :
    (st.alloc t).2.obj st.next = t := by
  simp [Store.alloc]

theorem Ptr.BTree.Iterator_spec (mt : Ptr.BTree) (reverse : Bool) (st : Store)
    (h : mt.tree < st.next) :
    (mt.Iterator reverse st).1.tree = some st.next ∧
      mt.load (mt.Iterator reverse st).2 = mt.load st ∧
      (mt.Iterator reverse st).1.load (mt.Iterator reverse st).2 =
        (mt.load st).Iterator reverse := by
  refine ⟨rfl, ?_, ?_⟩
  · simp only [Ptr.BTree.load, Ptr.BTree.Iterator, Ptr.newBTreeIterator]
    rw [Store.alloc_obj_other _ _ _ (Nat.ne_of_lt h)]
  · simp only [Ptr.BTreeIterator.load, Ptr.BTree.Iterator, Ptr.newBTreeIterator,
      Option.map_some', Memdb.BTree.Iterator, Memdb.newBTreeIterator, Ptr.BTree.load]
    rw [show (st.alloc (st.obj mt.tree).Clone).1 = st.next from rfl, Store.alloc_obj_same]

theorem Machine.start_spec (lessFunc : Option (Bytes → Bytes → Bool)) (ops : List Op)
    (reverse : Bool) :
    (Machine.start lessFunc ops reverse).Separate ∧
      (Machine.start lessFunc ops reverse).index.load
          (Machine.start lessFunc ops reverse).store = (newBTree lessFunc).run ops ∧
      (Machine.start lessFunc ops reverse).it.load
          (Machine.start lessFunc ops reverse).store =
        ((newBTree lessFunc).run ops).Iterator reverse := by
  obtain ⟨h1, h2⟩ := Ptr.BTree.load_foldl (Ptr.newBTree lessFunc Store.empty).1 ops
    (Ptr.newBTree lessFunc Store.empty).2
  have h0 : (Ptr.newBTree lessFunc Store.empty).1.load (Ptr.newBTree lessFunc Store.empty).2 =
      newBTree lessFunc := rfl
  rw [h0] at h1
  have h3 : (Ptr.newBTree lessFunc Store.empty).1.tree <
      (List.foldl (Ptr.newBTree lessFunc Store.empty).1.apply
        (Ptr.newBTree lessFunc Store.empty).2 ops).next := by
    rw [h2]
    exact Nat.zero_lt_one
  obtain ⟨h4, h5, h6⟩ := Ptr.BTree.Iterator_spec (Ptr.newBTree lessFunc Store.empty).1 reverse
    (List.foldl (Ptr.newBTree lessFunc Store.empty).1.apply
      (Ptr.newBTree lessFunc Store.empty).2 ops) h3
  refine ⟨⟨_, h4, ?_⟩, ?_, ?_⟩
  · exact Nat.ne_of_gt h3
  · exact h5.trans h1
  · rw [← h1]
    exact h6

theorem Machine.close_spec (m : Machine) (hs : m.Separate) :
    ∃ m1, m.close = .ok m1 ∧ m1.indexNow = m.indexNow ∧ m1.it.tree = none ∧
      m1.itNow.observe = (false, .ok none, .ok none) := by
  obtain ⟨q, h1, h2⟩ := hs
  refine ⟨{ m with store := m.store.write q ((m.store.obj q).Clear true),
                   it := { m.it with tree := none, current := none, valid := false } },
    ?_, ?_, rfl, rfl⟩
  · simp only [Machine.close, Ptr.BTreeIterator.Close, h1]
  · simp only [Machine.indexNow, Ptr.BTree.load]
    rw [Store.write_obj_other _ _ _ _ (Ne.symm h2)]

/-- C6. Snapshot isolation, with the trees behind pointers as in the source.  Let an index
be made by `newBTree(lessFunc)` and brought to the state `S` by puts and deletes, let
`it := Iterator(reverse)` be made on it, and let puts and deletes on the index then be
mixed with `Rewind`, `Seek` and `Next` on the iterator in any way.  The index goes
through the mutations as ever; what `Valid()`, `Key()` and `Value()` give after each
positioning call is what the same calls give on an iterator over `S` with no mutation at
all, and what they give when the mutations are left out of the run; the iterator is that
of `S` moved by the calls alone; a full loop over it afterwards reads exactly the
entries of `S`; and `Close` of the iterator returns, leaves the index as it is, and
leaves the iterator invalid. -/
theorem iterator_snapshot_isolation (lessFunc : Option (Bytes → Bytes → Bool))
    (hlf : IsStrictWeakOrder (keyLess lessFunc)) (ops : List Op) (reverse : Bool)
    (actions : List Action) (fuel : Nat)
    (hfuel : ((newBTree lessFunc).run ops).Size < fuel) :
    (Machine.start lessFunc ops reverse).indexNow = (newBTree lessFunc).run ops ∧
      ((Machine.start lessFunc ops reverse).run actions).indexNow =
        ((newBTree lessFunc).run ops).run (actions.filterMap Action.op?) ∧
      (Machine.start lessFunc ops reverse).observations actions =
        (((newBTree lessFunc).run ops).Iterator reverse).observations
          (actions.filterMap Action.call?) ∧
      (Machine.start lessFunc ops reverse).observations actions =
        (Machine.start lessFunc ops reverse).observations
          (actions.filter Action.isPosition) ∧
      ((Machine.start lessFunc ops reverse).run actions).itNow =
        (((newBTree lessFunc).run ops).Iterator reverse).run
          (actions.filterMap Action.call?) ∧
      ((Machine.start lessFunc ops reverse).run actions).itNow.scan fuel =
        some ((((newBTree lessFunc).run ops).dirEntries reverse).map Entry.read) ∧
      (∃ m, ((Machine.start lessFunc ops reverse).run actions).close = .ok m ∧
        m.indexNow = ((Machine.start lessFunc ops reverse).run actions).indexNow ∧
        m.it.tree = none ∧ m.itNow.observe = (false, .ok none, .ok none)) := by
  have hi := BTree.inv_reachable lessFunc hlf ops
  obtain ⟨hs, h1, h2⟩ := Machine.start_spec lessFunc ops reverse
  obtain ⟨h3, h4, h5⟩ := Machine.run_load actions _ hs
  have h6 := Machine.observations_eq actions _ hs
  have h7 := Machine.observations_eq (actions.filter Action.isPosition) _ hs
  rw [h2] at h3 h6 h7
  rw [h1] at h4
  rw [filterMap_call_filter] at h7
  refine ⟨h1, h4, h6, h6.trans h7.symm, h3, ?_, Machine.close_spec _ h5⟩
  simp only [Machine.itNow]
  rw [h3, BTreeIterator.scan, BTreeIterator.Rewind_run_fresh]
  exact BTreeIterator.scan_fresh lessFunc _ hi reverse fuel hfuel

/-- C6, on the index of the iteration example: after a forward iterator is made, key13 is
deleted, the iterator is moved on, key11 is overwritten and the iterator is sought back
to key11.  The index loses key13 and has the new position of key11; the iterator shows
key13 and then key11 with the positions of the snapshot, and a loop over it still reads
the five entries. -/
theorem iterator_snapshot_isolation_witness :
    IsStrictWeakOrder (keyLess none) ∧ ((newBTree none).run exampleOps).Size < 6 ∧
      ((Machine.start none exampleOps false).run
        [.mutate (.delete key13), .position .next, .mutate (.put key11 (some (posAt 80))),
          .position (.seek key11)]).indexNow.entries =
        [(key11, some (posAt 80)), (key27, some (posAt 48)), (key35, some (posAt 32)),
          (key41, some (posAt 64))] ∧
      (Machine.start none exampleOps false).observations
        [.mutate (.delete key13), .position .next, .mutate (.put key11 (some (posAt 80))),
          .position (.seek key11)] =
        [(true, .ok key13, .ok (some (posAt 0))), (true, .ok key11, .ok (some (posAt 16)))] ∧
      ((Machine.start none exampleOps false).run
        [.mutate (.delete key13), .position .next, .mutate (.put key11 (some (posAt 80))),
          .position (.seek key11)]).itNow.scan 6 =
        some [(.ok key11, .ok (some (posAt 16))), (.ok key13, .ok (some (posAt 0))),
          (.ok key27, .ok (some (posAt 48))), (.ok key35, .ok (some (posAt 32))),
          (.ok key41, .ok (some (posAt 64)))] :=
  ⟨keyLess_default_isStrictWeakOrder, by decide,
    (congrArg BTree.entries
      (iterator_snapshot_isolation none keyLess_default_isStrictWeakOrder exampleOps false
        [.mutate (.delete key13), .position .next, .mutate (.put key11 (some (posAt 80))),
          .position (.seek key11)] 6 (by decide)).2.1).trans (by decide),
    ((iterator_snapshot_isolation none keyLess_default_isStrictWeakOrder exampleOps false
      [.mutate (.delete key13), .position .next, .mutate (.put key11 (some (posAt 80))),
        .position (.seek key11)] 6 (by decide)).2.2.1).trans rfl,
    ((iterator_snapshot_isolation none keyLess_default_isStrictWeakOrder exampleOps false
      [.mutate (.delete key13), .position .next, .mutate (.put key11 (some (posAt 80))),
        .position (.seek key11)] 6 (by decide)).2.2.2.2.2.1).trans rfl⟩

/-- Isolation rests on `tree.Clone()`.  In a state whose iterator holds the address of
the index's own tree, a put made after the iterator shows in the iterator: on a new
index, after `Put(key11)` and `Rewind` the iterator is on key11, where the iterator of
`Iterator(false)` stays invalid; and `Close` of such an iterator empties the index. -/
theorem aliased_iterator_sees_mutations :
    ((Machine.start none [] false).aliased.run
        [.mutate (.put key11 (some (posAt 0))), .position .rewind]).itNow.observe =
        (true, .ok key11, .ok (some (posAt 0))) ∧
      ((Machine.start none [] false).run
        [.mutate (.put key11 (some (posAt 0))), .position .rewind]).itNow.observe =
        (false, .ok none, .ok none) ∧
      (Machine.start none exampleOps false).indexNow.Size = 5 ∧
      (∃ m, (Machine.start none exampleOps false).aliased.close = .ok m ∧
        m.indexNow.Size = 0) := by
  refine ⟨rfl, rfl, by decide, ⟨_, rfl, by decide⟩⟩

/-! ## Claim C11: Rewind -/

theorem BTree.dirEntries_head (mt : BTree) :
    (mt.dirEntries false).head? = mt.entries.head? ∧
      (mt.dirEntries true).head? = mt.entries.getLast? := by
  refine ⟨rfl, ?_⟩
  simp [BTree.dirEntries, List.head?_reverse]

theorem BTree.dirEntries_length (mt : BTree) (reverse : Bool) :
    (mt.dirEntries reverse).length = mt.entries.length := by
  cases reverse <;> simp [BTree.dirEntries]

/-- C11. On an iterator over a non-empty index reached from `newBTree lessFunc`, in any
state reached by `Rewind`, `Seek` and `Next` calls, `Rewind` gives exactly the freshly
constructed iterator: it is valid and on the first entry of the traversal, the entry
with the smallest key, or with the largest when `reverse`; a second `Rewind` changes
nothing. -/
theorem rewind_resets (lessFunc : Option (Bytes → Bytes → Bool))
    (hlf : IsStrictWeakOrder (keyLess lessFunc)) (ops : List Op) (reverse : Bool)
    (calls : List ItOp) (hne : 0 < ((newBTree lessFunc).run ops).Size) :
    ((((newBTree lessFunc).run ops).Iterator reverse).run calls).Rewind =
        ((newBTree lessFunc).run ops).Iterator reverse ∧
      ((((newBTree lessFunc).run ops).Iterator reverse).run calls).Rewind.Valid = true ∧
      ((((newBTree lessFunc).run ops).Iterator reverse).run calls).Rewind.observe =
        observed (((newBTree lessFunc).run ops).dirEntries reverse).head? ∧
      (((newBTree lessFunc).run ops).dirEntries false).head? =
        ((newBTree lessFunc).run ops).entries.head? ∧
      (((newBTree lessFunc).run ops).dirEntries true).head? =
        ((newBTree lessFunc).run ops).entries.getLast? ∧
      ((newBTree lessFunc).run ops).entries.Pairwise
        (fun a b => keyLess lessFunc a.1 b.1 = true) ∧
      ((((newBTree lessFunc).run ops).Iterator reverse).run calls).Rewind.Rewind =
        ((((newBTree lessFunc).run ops).Iterator reverse).run calls).Rewind := by
  have hi := BTree.inv_reachable lessFunc hlf ops
  obtain ⟨ho, hr, hf⟩ := BTreeIterator.Rewind_fresh lessFunc _ hi reverse
  have h1 : ((((newBTree lessFunc).run ops).Iterator reverse).run calls).Rewind =
      ((newBTree lessFunc).run ops).Iterator reverse := by
    rw [BTreeIterator.Rewind_run_fresh]
    exact hr.trans hf.symm
  have h2 : (((newBTree lessFunc).run ops).Iterator reverse).observe =
      observed (((newBTree lessFunc).run ops).dirEntries reverse).head? := by
    conv => lhs; rw [hf]
    rw [BTreeIterator.observe_atPos ho, BTreeIterator.entriesOf_dirItems_fresh lessFunc _ hi]
    cases (((newBTree lessFunc).run ops).dirEntries reverse) <;> simp
  have hlen : 0 < (((newBTree lessFunc).run ops).dirEntries reverse).length := by
    rw [BTree.dirEntries_length, BTree.entries_length lessFunc _ hi]; exact hne
  refine ⟨h1, ?_, ?_, (BTree.dirEntries_head _).1, (BTree.dirEntries_head _).2,
    BTree.entries_pairwise lessFunc _ hi, ?_⟩
  · rw [h1]
    show (((newBTree lessFunc).run ops).Iterator reverse).observe.1 = true
    rw [h2]
    cases hd : ((newBTree lessFunc).run ops).dirEntries reverse with
    | nil => rw [hd] at hlen; simp at hlen
    | cons e es => rfl
  · rw [h1, h2]
  · rw [h1]
    exact hr.trans hf.symm

/-- C11, on the index of the iteration example: a reverse iterator driven past its last
entry and then rewound is the fresh iterator, on key41. -/
theorem rewind_resets_witness :
    IsStrictWeakOrder (keyLess none) ∧ 0 < ((newBTree none).run exampleOps).Size ∧
      ((((newBTree none).run exampleOps).Iterator true).run
        [.next, .seek key13, .next, .next, .next]).Valid = false ∧
      ((((newBTree none).run exampleOps).Iterator true).run
        [.next, .seek key13, .next, .next, .next]).Rewind.observe =
        (true, .ok key41, .ok (some (posAt 64))) :=
  ⟨keyLess_default_isStrictWeakOrder, by decide, rfl,
    ((rewind_resets none keyLess_default_isStrictWeakOrder exampleOps true
      [.next, .seek key13, .next, .next, .next] (by decide)).2.2.1).trans rfl⟩

/-! ## Claim C12: Size -/

theorem BTree.findItem_isSome (lf : Option (Bytes → Bytes → Bool))
    (h : IsStrictWeakOrder (keyLess lf)) (mt : BTree) (hi : mt.Inv lf) (k : Bytes)
    (p : Option ChunkPosition) :
    (BTreeG.findItem (newBTree.less lf) (some { key := k, pos := p }) mt.tree.items).isSome =
      mt.hasEntry lf k := by
  rw [Bool.eq_iff_iff]
  simp only [BTree.hasEntry, List.any_eq_true, Option.isSome_iff_exists]
  constructor
  · rintro ⟨x, hx⟩
    obtain ⟨hm, h1, h2⟩ := BTreeG.findItem_some _ _ _ _ hx
    cases x with
    | none => exact absurd rfl (BTree.items_some lf mt hi _ hm)
    | some i =>
      rw [less_some_some] at h1 h2
      exact ⟨(i.key, i.pos), (mem_entriesOf _ _).mpr hm, by simp [sameKey, h1, h2]⟩
  · rintro ⟨e, he, hk⟩
    simp only [sameKey, Bool.and_eq_true, Bool.not_eq_true'] at hk
    exact ⟨_, BTreeG.findItem_of_mem (less_weakOrder lf h) _ _ hi.2.2 _
      ((mem_entriesOf _ e).mp he) (by rw [less_some_some]; exact hk.1)
      (by rw [less_some_some]; exact hk.2)⟩

theorem BTree.Size_put (lf : Option (Bytes → Bytes → Bool))
    (h : IsStrictWeakOrder (keyLess lf)) (mt : BTree) (hi : mt.Inv lf) (k : Bytes)
    (p : Option ChunkPosition) :
    (mt.Put k p).2.Size = if mt.hasEntry lf k then mt.Size else mt.Size + 1 := by
  rw [BTree.Put_tree]
  simp only [BTree.Size, BTreeG.Len, hi.1, BTreeG.length_insertItem,
    BTree.findItem_isSome lf h mt hi]

theorem BTree.Size_delete (lf : Option (Bytes → Bytes → Bool))
    (h : IsStrictWeakOrder (keyLess lf)) (mt : BTree) (hi : mt.Inv lf) (k : Bytes) :
    (mt.Delete k).2.Size = if mt.hasEntry lf k then mt.Size - 1 else mt.Size := by
  rw [BTree.Delete_tree]
  simp only [BTree.Size, BTreeG.Len, hi.1, BTreeG.length_deleteItem,
    BTree.findItem_isSome lf h mt hi]

theorem BTree.Size_pos_of_hasEntry (lf : Option (Bytes → Bytes → Bool)) (mt : BTree)
    (hi : mt.Inv lf) (k : Bytes) (hk : mt.hasEntry lf k = true) : 0 < mt.Size := by
  simp only [BTree.hasEntry, List.any_eq_true] at hk
  obtain ⟨e, he, _⟩ := hk
  rw [← BTree.entries_length lf mt hi]
  exact List.length_pos_of_mem he

theorem BTree.entries_from_puts (lf : Option (Bytes → Bytes → Bool))
    (h : IsStrictWeakOrder (keyLess lf)) (ops : List Op) (mt : BTree) (hi : mt.Inv lf)
    (e : Entry) (he : e ∈ (mt.run ops).entries) :
    e ∈ mt.entries ∨ Op.put e.1 e.2 ∈ ops := by
  induction ops generalizing mt with
  | nil => exact Or.inl he
  | cons op ops ih =>
    cases op with
    | put k p =>
      rcases ih (mt.Put k p).2 (BTree.inv_put lf h mt hi k p) he with h1 | h1
      · rcases (BTree.mem_entries_put lf h mt hi k p e).mp h1 with rfl | ⟨h2, _⟩
        · exact Or.inr (List.mem_cons_self _ _)
        · exact Or.inl h2
      · exact Or.inr (List.mem_cons_of_mem _ h1)
    | delete k =>
      rcases ih (mt.Delete k).2 (BTree.inv_delete lf mt hi k) he with h1 | h1
      · exact Or.inl ((BTree.mem_entries_delete lf h mt hi k e).mp h1).1
      · exact Or.inr (List.mem_cons_of_mem _ h1)

/-- C12. `Size()` counts the entries of the index: it is 0 for a new index; `Put` of a
key with no entry adds 1 and `Put` of a key with an entry leaves it; `Delete` of a key
with an entry takes 1 off and `Delete` of a key with no entry leaves it.  After any puts
and deletes `Size()` is the number of entries, whose keys are pairwise different for the
comparator; when every put carried a non-nil position, `Get(k)` is non-nil exactly for
the keys of those entries; and a full `Ascend` makes `Size()` handler calls. -/
theorem size_counts_keys (lessFunc : Option (Bytes → Bytes → Bool))
    (hlf : IsStrictWeakOrder (keyLess lessFunc)) (ops : List Op) (k : Bytes)
    (p : Option ChunkPosition) :
    (newBTree lessFunc).Size = 0 ∧
      (((newBTree lessFunc).run ops).hasEntry lessFunc k = false →
        (((newBTree lessFunc).run ops).Put k p).2.Size =
          ((newBTree lessFunc).run ops).Size + 1) ∧
      (((newBTree lessFunc).run ops).hasEntry lessFunc k = true →
        (((newBTree lessFunc).run ops).Put k p).2.Size = ((newBTree lessFunc).run ops).Size) ∧
      (((newBTree lessFunc).run ops).hasEntry lessFunc k = true →
        (((newBTree lessFunc).run ops).Delete k).2.Size + 1 =
          ((newBTree lessFunc).run ops).Size) ∧
      (((newBTree lessFunc).run ops).hasEntry lessFunc k = false →
        (((newBTree lessFunc).run ops).Delete k).2.Size = ((newBTree lessFunc).run ops).Size) ∧
      ((newBTree lessFunc).run ops).Size = ((newBTree lessFunc).run ops).entries.length ∧
      ((newBTree lessFunc).run ops).entries.Pairwise
        (fun a b => sameKey lessFunc a.1 b.1 = false) ∧
      (positionsNonNil ops →
        (((newBTree lessFunc).run ops).Get k ≠ none ↔
          ((newBTree lessFunc).run ops).hasEntry lessFunc k = true)) ∧
      (∃ calls, ((newBTree lessFunc).run ops).Ascend record [] = .ok calls ∧
        calls.length = ((newBTree lessFunc).run ops).Size) := by
  have hi := BTree.inv_reachable lessFunc hlf ops
  refine ⟨rfl, fun hk => ?_, fun hk => ?_, fun hk => ?_, fun hk => ?_,
    (BTree.entries_length lessFunc _ hi).symm, ?_, fun hp => ?_, ?_⟩
  · rw [BTree.Size_put lessFunc hlf _ hi, hk]; rfl
  · rw [BTree.Size_put lessFunc hlf _ hi, hk]; rfl
  · have := BTree.Size_pos_of_hasEntry lessFunc _ hi k hk
    rw [BTree.Size_delete lessFunc hlf _ hi, hk]
    simp only [if_true]
    omega
  · rw [BTree.Size_delete lessFunc hlf _ hi, hk]; rfl
  · exact (BTree.entries_pairwise lessFunc _ hi).imp
      (fun {a b} hab => by simp [sameKey, hab])
  · constructor
    · intro hg
      cases hh : ((newBTree lessFunc).run ops).hasEntry lessFunc k
      · exfalso
        apply hg
        apply BTree.Get_of_not_mem lessFunc _ hi k
        intro e he
        cases hs : sameKey lessFunc e.1 k
        · rfl
        · have : ((newBTree lessFunc).run ops).hasEntry lessFunc k = true :=
            List.any_eq_true.mpr ⟨e, he, hs⟩
          rw [hh] at this; cases this
      · rfl
    · intro hh
      simp only [BTree.hasEntry, List.any_eq_true] at hh
      obtain ⟨e, he, hs⟩ := hh
      rw [BTree.Get_of_mem lessFunc hlf _ hi k e he hs]
      rcases BTree.entries_from_puts lessFunc hlf ops _ (BTree.inv_new lessFunc) e he with h1 | h1
      · simp [newBTree, BTree.entries, entriesOf, BTreeG.NewG] at h1
      · exact hp e.1 e.2 h1
  · exact ⟨_, BTree.Ascend_record lessFunc _ hi, BTree.entries_length lessFunc _ hi⟩

/-- C12, on the index of the iteration example: its size is 5, a put of the new key
`"a"` makes it 6, a put of key13 leaves it 5 and a delete of key13 makes it 4. -/
theorem size_counts_keys_witness :
    IsStrictWeakOrder (keyLess none) ∧ ((newBTree none).run exampleOps).Size = 5 ∧
      (((newBTree none).run exampleOps).Put (some [97]) (some (posAt 80))).2.Size = 5 + 1 ∧
      (((newBTree none).run exampleOps).Put key13 (some (posAt 80))).2.Size = 5 ∧
      (((newBTree none).run exampleOps).Delete key13).2.Size + 1 = 5 :=
  ⟨keyLess_default_isStrictWeakOrder, rfl,
    (size_counts_keys none keyLess_default_isStrictWeakOrder exampleOps (some [97])
      (some (posAt 80))).2.1 (by decide),
    (size_counts_keys none keyLess_default_isStrictWeakOrder exampleOps key13
      (some (posAt 80))).2.2.1 (by decide),
    (size_counts_keys none keyLess_default_isStrictWeakOrder exampleOps key13
      none).2.2.2.1 (by decide)⟩

/-! ## Claim C13: traversals from a key -/

theorem BTree.AscendGreaterOrEqual_record (lf : Option (Bytes → Bytes → Bool))
    (h : IsStrictWeakOrder (keyLess lf)) (mt : BTree) (hi : mt.Inv lf) (key : Bytes) :
    mt.AscendGreaterOrEqual key record [] =
      .ok (mt.entries.filter (fun e => !keyLess lf e.1 key)) := by
  have hs := BTree.items_some lf mt hi
  simp only [BTree.AscendGreaterOrEqual, BTreeG.AscendGreaterOrEqual, hi.1]
  rw [BTreeG.dropWhile_eq_filter _ hi.2.2.1 (BTree.less_trans_left lf h _)]
  rw [iterate_record_items _ (fun x hx => hs x (List.mem_filter.mp hx).1)]
  rw [BTree.entries, entriesOf_filter _ hs _ (fun e => !keyLess lf e.1 key)
    (fun i => by simp only [less_some_some]; rfl)]

theorem BTree.DescendLessOrEqual_record (lf : Option (Bytes → Bytes → Bool))
    (h : IsStrictWeakOrder (keyLess lf)) (mt : BTree) (hi : mt.Inv lf) (key : Bytes) :
    mt.DescendLessOrEqual key record [] =
      .ok (mt.entries.filter (fun e => !keyLess lf key e.1)).reverse := by
  have hs := BTree.items_some lf mt hi
  have hs' : ∀ x ∈ mt.tree.items.reverse, x ≠ none :=
    fun x hx => hs x (List.mem_reverse.mp hx)
  simp only [BTree.DescendLessOrEqual, BTreeG.DescendLessOrEqual, hi.1]
  rw [BTreeG.dropWhile_eq_filter _ (List.pairwise_reverse.mpr hi.2.2.1)
    (BTree.less_trans_right lf h _)]
  rw [iterate_record_items _ (fun x hx => hs' x (List.mem_filter.mp hx).1)]
  rw [entriesOf_filter _ hs' _ (fun e => !keyLess lf key e.1)
    (fun i => by simp only [less_some_some]; rfl)]
  rw [entriesOf_reverse, List.filter_reverse]
  rfl

theorem head_of_pairwise {α : Type} {R : α → α → Prop} (l : List α) (hl : l.Pairwise R)
    (e : α) (he : e ∈ l) (hmin : ∀ x ∈ l, ¬ R x e) : l.head? = some e := by
  cases l with
  | nil => cases he
  | cons x xs =>
    rcases List.mem_cons.mp he with rfl | he
    · rfl
    · exact absurd ((List.pairwise_cons.mp hl).1 e he) (hmin x (List.mem_cons_self _ _))

/-- C13. On any index reached from `newBTree lessFunc` and for any key `q`, with or
without an entry: `AscendGreaterOrEqual(q, h)` with a handler that always continues calls
`h`, in ascending order, on exactly the entries whose key is not less than `q`, the
first of them being the entry of `q` when it has one; `DescendLessOrEqual(q, h)` calls
`h`, in descending order, on exactly the entries whose key is not greater than `q`. -/
theorem ascend_descend_from_key (lessFunc : Option (Bytes → Bytes → Bool))
    (hlf : IsStrictWeakOrder (keyLess lessFunc)) (ops : List Op) (q : Bytes) :
    ((newBTree lessFunc).run ops).AscendGreaterOrEqual q record [] =
        .ok (((newBTree lessFunc).run ops).entries.filter
          (fun e => !keyLess lessFunc e.1 q)) ∧
      ((newBTree lessFunc).run ops).DescendLessOrEqual q record [] =
        .ok (((newBTree lessFunc).run ops).entries.filter
          (fun e => !keyLess lessFunc q e.1)).reverse ∧
      ((newBTree lessFunc).run ops).entries.Pairwise
        (fun a b => keyLess lessFunc a.1 b.1 = true) ∧
      (∀ e ∈ ((newBTree lessFunc).run ops).entries, sameKey lessFunc e.1 q = true →
        (((newBTree lessFunc).run ops).entries.filter
          (fun e => !keyLess lessFunc e.1 q)).head? = some e ∧
        (((newBTree lessFunc).run ops).entries.filter
          (fun e => !keyLess lessFunc q e.1)).reverse.head? = some e) := by
  have hi := BTree.inv_reachable lessFunc hlf ops
  have hp := BTree.entries_pairwise lessFunc _ hi
  refine ⟨BTree.AscendGreaterOrEqual_record lessFunc hlf _ hi q,
    BTree.DescendLessOrEqual_record lessFunc hlf _ hi q, hp, ?_⟩
  intro e he hs
  simp only [sameKey, Bool.and_eq_true, Bool.not_eq_true'] at hs
  constructor
  · apply head_of_pairwise _ (hp.sublist (List.filter_sublist _)) e
      (List.mem_filter.mpr ⟨he, by simp [hs.1]⟩)
    intro x hx hxe
    have hxq := (List.mem_filter.mp hx).2
    rcases hlf.negTrans _ _ q hxe with h1 | h1
    · simp [h1] at hxq
    · rw [hs.2] at h1; cases h1
  · apply head_of_pairwise (R := fun a b => keyLess lessFunc b.1 a.1 = true) _
      (List.pairwise_reverse.mpr (hp.sublist (List.filter_sublist _))) e
      (List.mem_reverse.mpr (List.mem_filter.mpr ⟨he, by simp [hs.2]⟩))
    intro x hx hex
    have hqx := (List.mem_filter.mp (List.mem_reverse.mp hx)).2
    rcases hlf.negTrans _ _ q hex with h1 | h1
    · rw [hs.1] at h1; cases h1
    · simp [h1] at hqx

/-- C13, on the index of the iteration example with the key `"key2"`, which has no
entry: ascending from it visits key27, key35, key41 and descending from it visits key13,
key11. -/
theorem ascend_descend_from_key_witness :
    IsStrictWeakOrder (keyLess none) ∧
      ((newBTree none).run exampleOps).AscendGreaterOrEqual (some [107, 101, 121, 50])
        record [] =
        .ok [(key27, some (posAt 48)), (key35, some (posAt 32)), (key41, some (posAt 64))] ∧
      ((newBTree none).run exampleOps).DescendLessOrEqual (some [107, 101, 121, 50])
        record [] = .ok [(key13, some (posAt 0)), (key11, some (posAt 16))] :=
  ⟨keyLess_default_isStrictWeakOrder,
    ((ascend_descend_from_key none keyLess_default_isStrictWeakOrder exampleOps
      (some [107, 101, 121, 50])).1).trans rfl,
    ((ascend_descend_from_key none keyLess_default_isStrictWeakOrder exampleOps
      (some [107, 101, 121, 50])).2.1).trans rfl⟩

/-! ## Claim C9: early exit -/

theorem exitsEarly_iterate {σ : Type}
    (h : σ → Bytes → Option ChunkPosition → σ × (Bool × Option GoError)) (s : σ)
    (L : List (Option btreeItem)) (hL : ∀ x ∈ L, x ≠ none) (full : List Entry)
    (hfull : BTreeG.iterate (BTree.itemHandler record) L (.ok []) = .ok full) :
    ExitsEarly h s full (BTreeG.iterate (BTree.itemHandler (logged h)) L (.ok (s, []))) := by
  obtain ⟨full', s1, calls, h1, h2, h3⟩ := traversal_earlyExit h s L hL
  have he : full' = full := Except.ok.inj (h1.symm.trans hfull)
  subst he
  exact ⟨s1, calls, h2, h3, earlyExit_full h s full' calls h3⟩

theorem exitsEarly_first_call {σ : Type}
    (h : σ → Bytes → Option ChunkPosition → σ × (Bool × Option GoError)) (s : σ)
    (e : Entry) (es : List Entry) (run : Except Panic (σ × List Call))
    (hx : ExitsEarly h s (e :: es) run) :
    ∃ s1 calls, run = .ok (s1, (e, (h s e.1 e.2).2) :: calls) := by
  obtain ⟨s1, calls, hrun, ⟨hp, _, hl⟩, _⟩ := hx
  cases calls with
  | nil =>
    rcases hl with hl | ⟨c, hc, _⟩
    · simp at hl
    · simp at hc
  | cons c cs =>
    simp only [replay] at hp
    rw [List.cons_prefix_cons] at hp
    exact ⟨s1, cs, by rw [hrun, hp.1]⟩

/-- C9. Early exit: on any index reached from `newBTree lessFunc`, for every handler `h`
with its own state, each traversal calls `h` on the entries it is to visit, in order,
up to and including the first on which `h` returns false or an error, and on no entry
after it; a handler that never does so is called on every one of them.  The entries to
visit are: all entries in ascending order for `Ascend`, in descending order for
`Descend`; those with `startKey ≤ key < endKey`, ascending, for `AscendRange`; those with
`endKey < key ≤ startKey`, descending, for `DescendRange`; those with `key ≥ pivot`,
ascending, for `AscendGreaterOrEqual`; those with `key ≤ pivot`, descending, for
`DescendLessOrEqual`.  A traversal returns the handler state only, and none of the six
has a step that writes the tree. -/
theorem traversal_early_exit {σ : Type} (lessFunc : Option (Bytes → Bytes → Bool))
    (hlf : IsStrictWeakOrder (keyLess lessFunc)) (ops : List Op)
    (h : σ → Bytes → Option ChunkPosition → σ × (Bool × Option GoError)) (s : σ)
    (ascStart ascEnd descStart descEnd gePivot lePivot : Bytes) :
    ExitsEarly h s ((newBTree lessFunc).run ops).entries
        (((newBTree lessFunc).run ops).Ascend (logged h) (s, [])) ∧
      ExitsEarly h s ((newBTree lessFunc).run ops).entries.reverse
        (((newBTree lessFunc).run ops).Descend (logged h) (s, [])) ∧
      ExitsEarly h s
        (((newBTree lessFunc).run ops).entries.filter
          (fun e => !keyLess lessFunc e.1 ascStart && keyLess lessFunc e.1 ascEnd))
        (((newBTree lessFunc).run ops).AscendRange ascStart ascEnd (logged h) (s, [])) ∧
      ExitsEarly h s
        (((newBTree lessFunc).run ops).entries.filter
          (fun e => !keyLess lessFunc descStart e.1 && keyLess lessFunc descEnd e.1)).reverse
        (((newBTree lessFunc).run ops).DescendRange descStart descEnd (logged h) (s, [])) ∧
      ExitsEarly h s
        (((newBTree lessFunc).run ops).entries.filter
          (fun e => !keyLess lessFunc e.1 gePivot))
        (((newBTree lessFunc).run ops).AscendGreaterOrEqual gePivot (logged h) (s, [])) ∧
      ExitsEarly h s
        (((newBTree lessFunc).run ops).entries.filter
          (fun e => !keyLess lessFunc lePivot e.1)).reverse
        (((newBTree lessFunc).run ops).DescendLessOrEqual lePivot (logged h) (s, [])) ∧
      (∀ m ∈ [Method.Ascend, Method.Descend, Method.AscendRange, Method.DescendRange,
          Method.AscendGreaterOrEqual, Method.DescendLessOrEqual],
        LockStep.writeTree ∉ m.steps) := by
  have hi := BTree.inv_reachable lessFunc hlf ops
  have hs := BTree.items_some lessFunc _ hi
  have hr : ∀ x ∈ ((newBTree lessFunc).run ops).tree.items.reverse, x ≠ none :=
    fun x hx => hs x (List.mem_reverse.mp hx)
  refine ⟨?_, ?_, ?_, ?_, ?_, ?_, by decide⟩
  · exact exitsEarly_iterate h s _ hs _ (BTree.Ascend_record lessFunc _ hi)
  · exact exitsEarly_iterate h s _ hr _ (BTree.Descend_record lessFunc _ hi)
  · exact exitsEarly_iterate h s _
      (fun x hx => hs x ((List.dropWhile_sublist _).subset
        ((List.takeWhile_sublist _).subset hx))) _
      (BTree.AscendRange_record lessFunc hlf _ hi ascStart ascEnd)
  · exact exitsEarly_iterate h s _
      (fun x hx => hr x ((List.dropWhile_sublist _).subset
        ((List.takeWhile_sublist _).subset hx))) _
      (BTree.DescendRange_record lessFunc hlf _ hi descStart descEnd)
  · exact exitsEarly_iterate h s _ (fun x hx => hs x ((List.dropWhile_sublist _).subset hx)) _
      (BTree.AscendGreaterOrEqual_record lessFunc hlf _ hi gePivot)
  · exact exitsEarly_iterate h s _ (fun x hx => hr x ((List.dropWhile_sublist _).subset hx)) _
      (BTree.DescendLessOrEqual_record lessFunc hlf _ hi lePivot)

/-- C9, on the index of the iteration example with a handler that stops at key27.  Of
the entries each traversal is to visit, the handler is called on those down to key27
and on none after it: `Ascend` key11, key13, key27 of five; `Descend` key41, key35,
key27 of five; `AscendRange(key13, key41)` key13, key27 of three;
`DescendRange(key41, key11)` key41, key35, key27 of four; `AscendGreaterOrEqual(key13)`
key13, key27 of four; `DescendLessOrEqual(key35)` key35, key27 of four. -/
theorem traversal_early_exit_witness :
    IsStrictWeakOrder (keyLess none) ∧
      ExitsEarly (stopAt key27) 0
        [(key11, some (posAt 16)), (key13, some (posAt 0)), (key27, some (posAt 48)),
          (key35, some (posAt 32)), (key41, some (posAt 64))]
        (((newBTree none).run exampleOps).Ascend (logged (stopAt key27)) (0, [])) ∧
      ExitsEarly (stopAt key27) 0
        [(key13, some (posAt 0)), (key27, some (posAt 48)), (key35, some (posAt 32))]
        (((newBTree none).run exampleOps).AscendRange key13 key41 (logged (stopAt key27))
          (0, [])) ∧
      ExitsEarly (stopAt key27) 0
        [(key41, some (posAt 64)), (key35, some (posAt 32)), (key27, some (posAt 48)),
          (key13, some (posAt 0))]
        (((newBTree none).run exampleOps).DescendRange key41 key11 (logged (stopAt key27))
          (0, [])) ∧
      ((newBTree none).run exampleOps).Ascend (logged (stopAt key27)) (0, []) =
        .ok (3, [((key11, some (posAt 16)), (true, none)), ((key13, some (posAt 0)), (true, none)),
          ((key27, some (posAt 48)), (false, none))]) ∧
      ((newBTree none).run exampleOps).Descend (logged (stopAt key27)) (0, []) =
        .ok (3, [((key41, some (posAt 64)), (true, none)), ((key35, some (posAt 32)), (true, none)),
          ((key27, some (posAt 48)), (false, none))]) ∧
      ((newBTree none).run exampleOps).AscendRange key13 key41 (logged (stopAt key27))
          (0, []) =
        .ok (2, [((key13, some (posAt 0)), (true, none)),
          ((key27, some (posAt 48)), (false, none))]) ∧
      ((newBTree none).run exampleOps).DescendRange key41 key11 (logged (stopAt key27))
          (0, []) =
        .ok (3, [((key41, some (posAt 64)), (true, none)), ((key35, some (posAt 32)), (true, none)),
          ((key27, some (posAt 48)), (false, none))]) ∧
      ((newBTree none).run exampleOps).AscendGreaterOrEqual key13 (logged (stopAt key27))
          (0, []) =
        .ok (2, [((key13, some (posAt 0)), (true, none)),
          ((key27, some (posAt 48)), (false, none))]) ∧
      ((newBTree none).run exampleOps).DescendLessOrEqual key35 (logged (stopAt key27))
          (0, []) =
        .ok (2, [((key35, some (posAt 32)), (true, none)),
          ((key27, some (posAt 48)), (false, none))]) :=
  ⟨keyLess_default_isStrictWeakOrder,
    (traversal_early_exit none keyLess_default_isStrictWeakOrder exampleOps (stopAt key27) 0
      key13 key41 key41 key11 key13 key35).1,
    (traversal_early_exit none keyLess_default_isStrictWeakOrder exampleOps (stopAt key27) 0
      key13 key41 key41 key11 key13 key35).2.2.1,
    (traversal_early_exit none keyLess_default_isStrictWeakOrder exampleOps (stopAt key27) 0
      key13 key41 key41 key11 key13 key35).2.2.2.1,
    rfl, rfl, rfl, rfl, rfl, rfl⟩

/-! ## Claim C14: the injected comparator -/

theorem keyLess_some (f : Bytes → Bytes → Bool) : keyLess (some f) = f := rfl

theorem bytesCompareList_total (a b : List UInt8) (hne : a ≠ b) :
    bytesCompareList a b < 0 ∨ bytesCompareList b a < 0 := by
  induction a generalizing b with
  | nil =>
    cases b with
    | nil => exact absurd rfl hne
    | cons y ys => left; simp [bytesCompareList]
  | cons x xs ih =>
    cases b with
    | nil => right; simp [bytesCompareList]
    | cons y ys =>
      rw [bytesCompareList_lt_cons, bytesCompareList_lt_cons]
      rcases uint8_lt_trichotomy x y with h | rfl | h
      · exact Or.inl (Or.inl h)
      · have : xs ≠ ys := fun h => hne (by rw [h])
        rcases ih ys this with h1 | h1
        · exact Or.inl (Or.inr ⟨rfl, h1⟩)
        · exact Or.inr (Or.inr ⟨rfl, h1⟩)
      · exact Or.inr (Or.inl h)

theorem IsStrictTotalOrder.isStrictWeakOrder {lt : Bytes → Bytes → Bool}
    (h : IsStrictTotalOrder lt) : IsStrictWeakOrder lt where
  irrefl := h.irrefl
  trans := h.trans
  negTrans a b c hab := by
    by_cases hca : a.getD [] = c.getD []
    · right
      rw [h.bytes c b, ← hca, ← h.bytes a b]
      exact hab
    · rcases h.total a c hca with h1 | h1
      · exact Or.inl h1
      · exact Or.inr (h.trans _ _ _ h1 hab)

theorem descendingBytes_flip (a b : Bytes) : descendingBytes a b = keyLess none b a := rfl

theorem descendingBytes_isStrictTotalOrder : IsStrictTotalOrder descendingBytes where
  bytes a b := by cases a <;> cases b <;> rfl
  irrefl a := keyLess_default_isStrictWeakOrder.irrefl a
  trans a b c h1 h2 := keyLess_default_isStrictWeakOrder.trans c b a h2 h1
  total a b hne := by
    simp only [descendingBytes, bytesCompare, decide_eq_true_eq]
    rcases bytesCompareList_total (a.getD []) (b.getD []) hne with h | h
    · exact Or.inr h
    · exact Or.inl h

theorem keyLess_default_isStrictTotalOrder : IsStrictTotalOrder (keyLess none) where
  bytes a b := by cases a <;> cases b <;> rfl
  irrefl a := keyLess_default_isStrictWeakOrder.irrefl a
  trans a b c h1 h2 := keyLess_default_isStrictWeakOrder.trans a b c h1 h2
  total a b hne := by
    simp only [keyLess_none, bytesCompare, decide_eq_true_eq]
    exact bytesCompareList_total (a.getD []) (b.getD []) hne

/-- C14. The comparator is injected: for `newBTree(f)` with a non-nil `f` that orders the
keys (a strict weak order, which every strict total order on keys is), on any index
reached by puts and deletes, `Ascend` and the loop over a forward iterator visit the
entries in `f`-increasing order, `Descend` and the loop over a reverse iterator in the
reverse of it, whatever the byte order of the keys; for `newBTree(nil)` the entries are
in the increasing order of `bytes.Compare`. -/
theorem comparator_injected (f : Bytes → Bytes → Bool) (hf : IsStrictWeakOrder f)
    (ops : List Op) (fuel : Nat) (hfuel : ((newBTree (some f)).run ops).Size < fuel) :
    ((newBTree (some f)).run ops).entries.Pairwise (fun a b => f a.1 b.1 = true) ∧
      ((newBTree (some f)).run ops).Ascend record [] =
        .ok ((newBTree (some f)).run ops).entries ∧
      ((newBTree (some f)).run ops).Descend record [] =
        .ok ((newBTree (some f)).run ops).entries.reverse ∧
      (((newBTree (some f)).run ops).Iterator false).scan fuel =
        some (((newBTree (some f)).run ops).entries.map Entry.read) ∧
      (((newBTree (some f)).run ops).Iterator true).scan fuel =
        some (((newBTree (some f)).run ops).entries.reverse.map Entry.read) ∧
      ((newBTree none).run ops).entries.Pairwise (fun a b => bytesCompare a.1 b.1 < 0) ∧
      ((newBTree none).run ops).Ascend record [] = .ok ((newBTree none).run ops).entries ∧
      ((newBTree none).run ops).Descend record [] =
        .ok ((newBTree none).run ops).entries.reverse := by
  have hw : IsStrictWeakOrder (keyLess (some f)) := hf
  have hi := BTree.inv_reachable (some f) hw ops
  have hd := keyLess_default_isStrictWeakOrder
  have hi0 := BTree.inv_reachable none hd ops
  refine ⟨BTree.entries_pairwise (some f) _ hi, BTree.Ascend_record (some f) _ hi,
    BTree.Descend_record (some f) _ hi,
    BTreeIterator.scan_fresh (some f) _ hi false fuel hfuel,
    BTreeIterator.scan_fresh (some f) _ hi true fuel hfuel, ?_,
    BTree.Ascend_record none _ hi0, BTree.Descend_record none _ hi0⟩
  exact (BTree.entries_pairwise none _ hi0).imp
    (fun {a b} hab => by rw [keyLess_none] at hab; exact of_decide_eq_true hab)

/-- C14, on the puts of the iteration example with the comparator `descendingBytes`, a
strict total order on keys: `Ascend` and a forward iterator yield key41, key35, key27,
key13, key11, and `Descend` yields them in byte order. -/
theorem comparator_injected_witness :
    IsStrictTotalOrder descendingBytes ∧ IsStrictWeakOrder descendingBytes ∧
      ((newBTree (some descendingBytes)).run exampleOps).Size < 6 ∧
      ((newBTree (some descendingBytes)).run exampleOps).Ascend record [] =
        .ok [(key41, some (posAt 64)), (key35, some (posAt 32)), (key27, some (posAt 48)),
          (key13, some (posAt 0)), (key11, some (posAt 16))] ∧
      ((newBTree (some descendingBytes)).run exampleOps).Descend record [] =
        .ok [(key11, some (posAt 16)), (key13, some (posAt 0)), (key27, some (posAt 48)),
          (key35, some (posAt 32)), (key41, some (posAt 64))] ∧
      (((newBTree (some descendingBytes)).run exampleOps).Iterator false).scan 6 =
        some [(.ok key41, .ok (some (posAt 64))), (.ok key35, .ok (some (posAt 32))),
          (.ok key27, .ok (some (posAt 48))), (.ok key13, .ok (some (posAt 0))),
          (.ok key11, .ok (some (posAt 16)))] :=
  ⟨descendingBytes_isStrictTotalOrder, descendingBytes_isStrictTotalOrder.isStrictWeakOrder,
    by decide,
    ((comparator_injected descendingBytes
      descendingBytes_isStrictTotalOrder.isStrictWeakOrder exampleOps 6 (by decide)).2.1).trans
      rfl,
    ((comparator_injected descendingBytes
      descendingBytes_isStrictTotalOrder.isStrictWeakOrder exampleOps 6
      (by decide)).2.2.1).trans rfl,
    ((comparator_injected descendingBytes
      descendingBytes_isStrictTotalOrder.isStrictWeakOrder exampleOps 6
      (by decide)).2.2.2.1).trans rfl⟩

/-! ## Claims C16 and C17: nil keys and default options -/

/-- C17. The unit constants are `B = 1`, `KB = 2^10`, `MB = 2^20`, `GB = 2^30`;
`DefaultOptions.SegmentSize` is `1 * GB = 1073741824 = 2^30` bytes, which fits an `int64`;
the other defaults are `Sync = false`, `BytesPerSync = 0`, `WatchQueueSize = 0`, an empty
`AutoMergeCronExpr` and a nil `LessFunc`, with which `newBTree` orders keys by
`bytes.Compare`. -/
theorem defaultOptions_values (tempDBDir : String) :
    B = 1 ∧ KB = 2 ^ 10 ∧ MB = 2 ^ 20 ∧ GB = 2 ^ 30 ∧
      (DefaultOptions tempDBDir).SegmentSize = 1073741824 ∧
      (DefaultOptions tempDBDir).SegmentSize = 2 ^ 30 ∧
      (DefaultOptions tempDBDir).SegmentSize < 2 ^ 63 ∧
      (DefaultOptions tempDBDir).Sync = false ∧
      (DefaultOptions tempDBDir).BytesPerSync = 0 ∧
      (DefaultOptions tempDBDir).WatchQueueSize = 0 ∧
      (DefaultOptions tempDBDir).AutoMergeCronExpr = "" ∧
      (DefaultOptions tempDBDir).LessFunc.isNone = true ∧
      (∀ a b : Bytes, keyLess (DefaultOptions tempDBDir).LessFunc a b =
        decide (bytesCompare a b < 0)) := by
  refine ⟨rfl, by decide, by decide, by decide, ?_, ?_, ?_, rfl, rfl, rfl, rfl, rfl,
    fun a b => rfl⟩
  · simp only [DefaultOptions, GB, MB, KB, B]
    norm_num
  · simp only [DefaultOptions, GB, MB, KB, B]
    norm_num
  · simp only [DefaultOptions, GB, MB, KB, B]
    norm_num

theorem less_nil_item (lf : Option (Bytes → Bytes → Bool)) (x : Option btreeItem) :
    newBTree.less lf none x = true := rfl

theorem bytesCompareList_nil_lt (l : List UInt8) : bytesCompareList [] l < 0 ↔ l ≠ [] := by
  cases l <;> simp [bytesCompareList]

theorem bytesCompareList_lt_nil (l : List UInt8) : ¬ bytesCompareList l [] < 0 := by
  cases l <;> simp [bytesCompareList]

/-- C16, refuted as stated: `Put` with a nil key on a new index adds an entry whose key
is nil; `Size()` is then 1, `Ascend` hands the nil key to its handler, a valid iterator
returns it from `Key()`, and the nil key is not less than the empty key. -/
theorem nil_key_stored_counterexample :
    ((newBTree none).Put none (some (posAt 0))).1 = none ∧
      ((newBTree none).Put none (some (posAt 0))).2.entries = [(none, some (posAt 0))] ∧
      ((newBTree none).Put none (some (posAt 0))).2.Size = 1 ∧
      ((newBTree none).Put none (some (posAt 0))).2.Ascend record [] =
        .ok [(none, some (posAt 0))] ∧
      (((newBTree none).Put none (some (posAt 0))).2.Iterator false).observe =
        (true, .ok none, .ok (some (posAt 0))) ∧
      keyLess none none (some []) = false := by
  refine ⟨rfl, rfl, rfl, rfl, rfl, rfl⟩

/-- C16, amended. The ordering of `newBTree` puts a nil item, not a nil key, before every
item, and no item of an index reached by puts and deletes is nil.  A nil key is a key
like any other: `Put` with a nil key leaves an entry with the nil key and the position
put; under the default comparator the nil key is less than exactly the non-empty keys,
no key is less than it, and it is the same key as the empty key. -/
theorem nil_item_first_nil_key_stored (lessFunc : Option (Bytes → Bytes → Bool))
    (hlf : IsStrictWeakOrder (keyLess lessFunc)) (ops : List Op)
    (p : Option ChunkPosition) (k : Bytes) :
    (∀ x : Option btreeItem, newBTree.less lessFunc none x = true) ∧
      (∀ x ∈ ((newBTree lessFunc).run ops).tree.items, x ≠ none) ∧
      (((newBTree lessFunc).run ops).Put none p).2.entries.filter
        (fun e => sameKey lessFunc e.1 none) = [(none, p)] ∧
      (((newBTree lessFunc).run ops).Put none p).2.Get none = p ∧
      (keyLess none none k = true ↔ k.getD [] ≠ []) ∧
      keyLess none k none = false ∧
      sameKey none none (some []) = true := by
  have hi := BTree.inv_reachable lessFunc hlf ops
  refine ⟨fun x => rfl, BTree.items_some lessFunc _ hi,
    BTree.Put_entries_same lessFunc hlf _ hi none p,
    BTree.Get_Put_same lessFunc hlf _ hi none p, ?_, ?_, rfl⟩
  · rw [keyLess_none, decide_eq_true_eq]
    exact bytesCompareList_nil_lt _
  · rw [keyLess_none, decide_eq_false_iff_not]
    exact bytesCompareList_lt_nil _

/-- C16 amended, on the index of the iteration example: a put of the nil key is read back
by `Get`, and the nil key is less than key11. -/
theorem nil_item_first_nil_key_stored_witness :
    IsStrictWeakOrder (keyLess none) ∧
      (((newBTree none).run exampleOps).Put none (some (posAt 80))).2.Get none =
        some (posAt 80) ∧
      keyLess none none key11 = true :=
  ⟨keyLess_default_isStrictWeakOrder,
    (nil_item_first_nil_key_stored none keyLess_default_isStrictWeakOrder exampleOps
      (some (posAt 80)) key11).2.2.2.1,
    (nil_item_first_nil_key_stored none keyLess_default_isStrictWeakOrder exampleOps
      (some (posAt 80)) key11).2.2.2.2.1.mpr (by decide)⟩

/-! ## Claim C18: Seek as a lower-bound search -/

namespace BTreeIterator

theorem invalid_noop (it : BTreeIterator) (hv : it.valid = false) (q : Bytes) :
    it.Seek q = it ∧ it.Next = it := by
  obtain ⟨tree, reverse, current, valid, less⟩ := it
  simp only at hv
  subst hv
  cases tree <;> exact ⟨rfl, rfl⟩

theorem invalid_run (it : BTreeIterator) (hv : it.valid = false) (calls : List ItOp)
    (hc : ∀ c ∈ calls, c ≠ ItOp.rewind) : it.run calls = it := by
  induction calls with
  | nil => rfl
  | cons c cs ih =>
    have h1 : it.apply c = it := by
      cases c with
      | rewind => exact absurd rfl (hc _ (List.mem_cons_self _ _))
      | seek key => exact (invalid_noop it hv key).1
      | next => exact (invalid_noop it hv none).2
    simp only [run, List.foldl_cons, h1]
    exact ih (fun c hc' => hc c (List.mem_cons_of_mem _ hc'))

theorem iterate_seekStep (it : BTreeIterator) (l : List (Option btreeItem)) :
    BTreeG.iterate seekStep l { it with valid := false } = it.seekTo l := by
  cases l <;> rfl

theorem Seek_valid (lf : Option (Bytes → Bytes → Bool)) (h : IsStrictWeakOrder (keyLess lf))
    (items : List (Option btreeItem)) (it : BTreeIterator) (ho : it.Over lf items)
    (hv : it.valid = true) (q : Bytes) :
    it.Seek q = it.seekTo (if it.reverse
      then items.reverse.filter
        (fun x => !newBTree.less lf (some { key := q, pos := none }) x)
      else items.filter (fun x => !newBTree.less lf x (some { key := q, pos := none }))) := by
  obtain ⟨ht, hl, ha⟩ := ho
  obtain ⟨tree, reverse, current, valid, less⟩ := it
  simp only at ht hl hv
  subst ht hl hv
  cases reverse
  · simp only [Seek, BTreeG.AscendGreaterOrEqual, Bool.not_true, Bool.false_eq_true, if_false]
    rw [BTreeG.dropWhile_eq_filter _ ha.1 (BTree.less_trans_left lf h _)]
    exact iterate_seekStep ⟨some ⟨newBTree.less lf, items⟩, false, current, true,
      newBTree.less lf⟩ _
  · simp only [Seek, BTreeG.DescendLessOrEqual, Bool.not_true, Bool.false_eq_true, if_false,
      if_true]
    rw [BTreeG.dropWhile_eq_filter _ (List.pairwise_reverse.mpr ha.1)
      (BTree.less_trans_right lf h _)]
    exact iterate_seekStep ⟨some ⟨newBTree.less lf, items⟩, true, current, true,
      newBTree.less lf⟩ _

theorem observe_seekTo (it : BTreeIterator) (l : List (Option btreeItem))
    (hl : ∀ x ∈ l, x ≠ none) : (it.seekTo l).observe = observed (entriesOf l).head? := by
  cases l with
  | nil => rfl
  | cons x xs =>
    cases x with
    | none => exact absurd rfl (hl none (List.mem_cons_self _ _))
    | some i => rfl

end BTreeIterator

/-- C18. `Seek` is a lower-bound search on a valid iterator and does nothing on an invalid
one.  On an iterator over an index reached from `newBTree lessFunc`, after any positioning
calls: if it is valid then after `Seek(q)` a forward iterator is on the first of the
entries whose key is not less than `q`, a reverse iterator on the last of the entries
whose key is not greater than `q`, and it is invalid when there is no such entry; if it
is invalid then `Seek(q)` leaves it as it is, and so does every sequence of `Seek` and
`Next` calls. -/
theorem seek_lower_bound (lessFunc : Option (Bytes → Bytes → Bool))
    (hlf : IsStrictWeakOrder (keyLess lessFunc)) (ops : List Op) (reverse : Bool)
    (calls : List ItOp) (q : Bytes) :
    (((((newBTree lessFunc).run ops).Iterator reverse).run calls).Valid = true →
        (((((newBTree lessFunc).run ops).Iterator reverse).run calls).Seek q).observe =
          observed (if reverse
            then (((newBTree lessFunc).run ops).entries.filter
              (fun e => !keyLess lessFunc q e.1)).getLast?
            else (((newBTree lessFunc).run ops).entries.filter
              (fun e => !keyLess lessFunc e.1 q)).head?)) ∧
      ((newBTree lessFunc).run ops).entries.Pairwise
        (fun a b => keyLess lessFunc a.1 b.1 = true) ∧
      (((((newBTree lessFunc).run ops).Iterator reverse).run calls).Valid = false →
        ((((newBTree lessFunc).run ops).Iterator reverse).run calls).Seek q =
            (((newBTree lessFunc).run ops).Iterator reverse).run calls ∧
          ∀ more : List ItOp, (∀ c ∈ more, c ≠ ItOp.rewind) →
            ((((newBTree lessFunc).run ops).Iterator reverse).run calls).run more =
              (((newBTree lessFunc).run ops).Iterator reverse).run calls) := by
  have hi := BTree.inv_reachable lessFunc hlf ops
  have hs := BTree.items_some lessFunc _ hi
  have ho := (BTreeIterator.Rewind_fresh lessFunc _ hi reverse).1
  have hf := BTreeIterator.run_frame (((newBTree lessFunc).run ops).Iterator reverse) calls
  have ho' := BTreeIterator.Over.of_frame ho hf.1 hf.2.2
  refine ⟨fun hv => ?_, BTree.entries_pairwise lessFunc _ hi, fun hv => ?_⟩
  · rw [BTreeIterator.Seek_valid lessFunc hlf _ _ ho' hv q]
    have hr : ((((newBTree lessFunc).run ops).Iterator reverse).run calls).reverse = reverse :=
      hf.2.1
    rw [hr]
    cases reverse
    · simp only [Bool.false_eq_true, if_false]
      rw [BTreeIterator.observe_seekTo _ _ (fun x hx => hs x (List.mem_filter.mp hx).1),
        entriesOf_filter _ hs _ (fun e => !keyLess lessFunc e.1 q)
          (fun i => by simp only [less_some_some]; rfl)]
      rfl
    · simp only [if_true]
      have hs' : ∀ x ∈ ((newBTree lessFunc).run ops).tree.items.reverse, x ≠ none :=
        fun x hx => hs x (List.mem_reverse.mp hx)
      rw [BTreeIterator.observe_seekTo _ _ (fun x hx => hs' x (List.mem_filter.mp hx).1),
        entriesOf_filter _ hs' _ (fun e => !keyLess lessFunc q e.1)
          (fun i => by simp only [less_some_some]; rfl),
        entriesOf_reverse, List.filter_reverse, List.head?_reverse]
      rfl
  · exact ⟨(BTreeIterator.invalid_noop _ hv q).1,
      fun more hm => BTreeIterator.invalid_run _ hv more hm⟩

/-- C18, on the index of the iteration example with the key `"key2"`, which has no entry:
a valid forward iterator seeks to key27 and a valid reverse iterator to key13; an
iterator that ran past its last entry stays invalid under `Seek` and `Next`. -/
theorem seek_lower_bound_witness :
    IsStrictWeakOrder (keyLess none) ∧
      (((((newBTree none).run exampleOps).Iterator false).run [.next]).Seek
        (some [107, 101, 121, 50])).observe = (true, .ok key27, .ok (some (posAt 48))) ∧
      (((((newBTree none).run exampleOps).Iterator true).run [.next]).Seek
        (some [107, 101, 121, 50])).observe = (true, .ok key13, .ok (some (posAt 0))) ∧
      (((((newBTree none).run exampleOps).Iterator false).run
        [.next, .next, .next, .next, .next]).run [.seek key13, .next, .seek key41]).Valid =
        false :=
  ⟨keyLess_default_isStrictWeakOrder,
    ((seek_lower_bound none keyLess_default_isStrictWeakOrder exampleOps false [.next]
      (some [107, 101, 121, 50])).1 rfl).trans rfl,
    ((seek_lower_bound none keyLess_default_isStrictWeakOrder exampleOps true [.next]
      (some [107, 101, 121, 50])).1 rfl).trans rfl,
    (congrArg BTreeIterator.Valid
      (((seek_lower_bound none keyLess_default_isStrictWeakOrder exampleOps false
        [.next, .next, .next, .next, .next] none).2.2 rfl).2 [.seek key13, .next, .seek key41]
        (by intro c hc h; subst h; simp at hc))).trans rfl⟩

/-! ## Claim C19: the iterator state invariant -/

namespace BTreeIterator

theorem closed_run (it : BTreeIterator) (ht : it.tree = none) (calls : List ItOp) :
    it.run calls = it := by
  induction calls with
  | nil => rfl
  | cons c cs ih =>
    have h1 : it.apply c = it := by
      obtain ⟨tree, reverse, current, valid, less⟩ := it
      simp only at ht
      subst ht
      cases c <;> rfl
    simp only [run, List.foldl_cons, h1]
    exact ih

theorem mem_of_mem_dirItems {lf : Option (Bytes → Bytes → Bool)}
    {items : List (Option btreeItem)} {it : BTreeIterator} (ho : it.Over lf items)
    (x : Option btreeItem) : x ∈ it.dirItems ↔ x ∈ items := by
  rw [Over.dirItems_eq ho]
  split
  · exact List.mem_reverse
  · exact Iff.rfl

theorem good_moveTo (it : BTreeIterator) (items l : List (Option btreeItem))
    (hl : ∀ x ∈ l, x ∈ items) : (it.moveTo l).valid = true → (it.moveTo l).current ∈ items := by
  cases l with
  | nil => intro h; cases h
  | cons x xs => intro _; exact hl x (List.mem_cons_self _ _)

theorem good_seekTo (it : BTreeIterator) (items l : List (Option btreeItem))
    (hl : ∀ x ∈ l, x ∈ items) : (it.seekTo l).valid = true → (it.seekTo l).current ∈ items := by
  cases l with
  | nil => intro h; cases h
  | cons x xs => intro _; exact hl x (List.mem_cons_self _ _)

theorem good_Rewind (lf : Option (Bytes → Bytes → Bool)) (items : List (Option btreeItem))
    (it : BTreeIterator) (ho : it.Over lf items) (hg : it.valid = true → it.current ∈ items) :
    it.Rewind.valid = true → it.Rewind.current ∈ items := by
  obtain ⟨ht, hl, ha⟩ := ho
  obtain ⟨tree, reverse, current, valid, less⟩ := it
  simp only at ht hl hg
  subst ht hl
  cases items with
  | nil => exact hg
  | cons a as =>
    intro _
    cases reverse
    · simp [Rewind, BTreeG.Len, BTreeG.Min]
    · simp only [Rewind, BTreeG.Len, BTreeG.Max, List.length_cons, Nat.succ_ne_zero, if_false,
        if_true]
      cases hlast : (a :: as).getLast? with
      | none => simp at hlast
      | some b => exact List.mem_of_getLast?_eq_some hlast

theorem good_Seek (lf : Option (Bytes → Bytes → Bool)) (h : IsStrictWeakOrder (keyLess lf))
    (items : List (Option btreeItem)) (it : BTreeIterator) (ho : it.Over lf items)
    (q : Bytes) : (it.Seek q).valid = true → (it.Seek q).current ∈ items := by
  cases hv : it.valid
  · rw [(invalid_noop it hv q).1]
    intro h'; rw [hv] at h'; cases h'
  · rw [Seek_valid lf h items it ho hv q]
    apply good_seekTo
    intro x hx
    split at hx
    · exact List.mem_reverse.mp (List.mem_filter.mp hx).1
    · exact (List.mem_filter.mp hx).1

theorem good_Next (lf : Option (Bytes → Bytes → Bool)) (items : List (Option btreeItem))
    (it : BTreeIterator) (ho : it.Over lf items) (hg : it.valid = true → it.current ∈ items) :
    it.Next.valid = true → it.Next.current ∈ items := by
  cases hv : it.valid
  · rw [(invalid_noop it hv none).2]
    intro h'; rw [hv] at h'; cases h'
  · have hm := (mem_of_mem_dirItems ho _).mpr (hg hv)
    obtain ⟨pre, post, hD⟩ := List.append_of_mem hm
    rw [Next_at lf items it ho pre post _ hD rfl hv]
    apply good_moveTo
    intro x hx
    apply (mem_of_mem_dirItems ho x).mp
    rw [hD]
    exact List.mem_append_right _ (List.mem_cons_of_mem _ hx)

theorem good_run (lf : Option (Bytes → Bytes → Bool)) (h : IsStrictWeakOrder (keyLess lf))
    (items : List (Option btreeItem)) (calls : List ItOp) (it : BTreeIterator)
    (ho : it.Over lf items) (hg : it.valid = true → it.current ∈ items) :
    (it.run calls).Over lf items ∧
      ((it.run calls).valid = true → (it.run calls).current ∈ items) := by
  induction calls generalizing it with
  | nil => exact ⟨ho, hg⟩
  | cons c cs ih =>
    simp only [run, List.foldl_cons] at ih ⊢
    cases c with
    | rewind =>
      exact ih it.Rewind (Over.of_frame ho (Rewind_frame it).1 (Rewind_frame it).2.2)
        (good_Rewind lf items it ho hg)
    | seek key =>
      exact ih (it.Seek key) (Over.of_frame ho (Seek_frame it key).1 (Seek_frame it key).2.2)
        (good_Seek lf h items it ho key)
    | next =>
      exact ih it.Next (Over.of_frame ho (Next_frame it).1 (Next_frame it).2.2)
        (good_Next lf items it ho hg)

theorem good_fresh (lf : Option (Bytes → Bytes → Bool)) (mt : BTree) (hi : mt.Inv lf)
    (reverse : Bool) :
    (mt.Iterator reverse).valid = true → (mt.Iterator reverse).current ∈ mt.tree.items := by
  obtain ⟨ho, _, hf⟩ := Rewind_fresh lf mt hi reverse
  rw [hf]
  apply good_moveTo
  intro x hx
  exact (mem_of_mem_dirItems ho x).mp (List.mem_of_mem_drop hx)

end BTreeIterator

/-- C19, refuted as stated: a valid iterator returns nil from `Key()` when the entry it is
on has the nil key, and nil from `Value()` when that entry holds a nil position. -/
theorem key_nil_while_valid_counterexample :
    (((newBTree none).run [.put none (some (posAt 0))]).Iterator false).Valid = true ∧
      (((newBTree none).run [.put none (some (posAt 0))]).Iterator false).Key = .ok none ∧
      (((newBTree none).run [.put key11 none]).Iterator false).Valid = true ∧
      (((newBTree none).run [.put key11 none]).Iterator false).Value = .ok none := by
  refine ⟨rfl, rfl, rfl, rfl⟩

/-- C19, amended. Iterator state invariant: on an iterator made on an index reached from
`newBTree lessFunc`, after any `Rewind`, `Seek` and `Next` calls: if it is valid then its
tree is not nil and its cursor is a non-nil item of the snapshot; `Key()` and `Value()`
never fail: they return nil when the iterator is invalid and the key and the position
of the entry under the cursor when it is valid; `Close` then succeeds, and after it
every sequence of `Rewind`, `Seek` and `Next` leaves the iterator as it is, invalid and
with nil `Key()` and `Value()`. -/
theorem iterator_state_invariant (lessFunc : Option (Bytes → Bytes → Bool))
    (hlf : IsStrictWeakOrder (keyLess lessFunc)) (ops : List Op) (reverse : Bool)
    (calls more : List ItOp) :
    (((((newBTree lessFunc).run ops).Iterator reverse).run calls).Valid = true →
        ((((newBTree lessFunc).run ops).Iterator reverse).run calls).tree.isSome = true ∧
        ∃ e ∈ ((newBTree lessFunc).run ops).entries,
          ((((newBTree lessFunc).run ops).Iterator reverse).run calls).current =
            some { key := e.1, pos := e.2 } ∧
          ((((newBTree lessFunc).run ops).Iterator reverse).run calls).Key = .ok e.1 ∧
          ((((newBTree lessFunc).run ops).Iterator reverse).run calls).Value = .ok e.2) ∧
      (((((newBTree lessFunc).run ops).Iterator reverse).run calls).Valid = false →
        ((((newBTree lessFunc).run ops).Iterator reverse).run calls).Key = .ok none ∧
        ((((newBTree lessFunc).run ops).Iterator reverse).run calls).Value = .ok none) ∧
      (∃ closed,
        ((((newBTree lessFunc).run ops).Iterator reverse).run calls).Close = .ok closed ∧
        closed.run more = closed ∧ closed.observe = (false, .ok none, .ok none)) := by
  have hi := BTree.inv_reachable lessFunc hlf ops
  have ho := (BTreeIterator.Rewind_fresh lessFunc _ hi reverse).1
  obtain ⟨ho', hg⟩ := BTreeIterator.good_run lessFunc hlf _ calls _ ho
    (BTreeIterator.good_fresh lessFunc _ hi reverse)
  refine ⟨fun hv => ?_, fun hv => ?_, ?_⟩
  · have hm := hg hv
    cases hc : ((((newBTree lessFunc).run ops).Iterator reverse).run calls).current with
    | none =>
      rw [hc] at hm
      exact absurd rfl (BTree.items_some lessFunc _ hi _ hm)
    | some i =>
      rw [hc] at hm
      refine ⟨by rw [ho'.1]; rfl, (i.key, i.pos), (mem_entriesOf _ _).mpr hm, rfl, ?_, ?_⟩
      · simp only [BTreeIterator.Valid] at hv
        simp [BTreeIterator.Key, hv, hc]
      · simp only [BTreeIterator.Valid] at hv
        simp [BTreeIterator.Value, hv, hc]
  · simp only [BTreeIterator.Valid] at hv
    simp [BTreeIterator.Key, BTreeIterator.Value, hv]
  · refine ⟨⟨none, ((((newBTree lessFunc).run ops).Iterator reverse).run calls).reverse, none,
      false, ((((newBTree lessFunc).run ops).Iterator reverse).run calls).less⟩, ?_, ?_, rfl⟩
    · simp only [BTreeIterator.Close, ho'.1]
    · exact BTreeIterator.closed_run _ rfl more

/-- C19 amended, on the index of the iteration example: a forward iterator after `Next`
and `Seek(key35)` is valid with a non-nil tree and is on the entry of key35. -/
theorem iterator_state_invariant_witness :
    IsStrictWeakOrder (keyLess none) ∧
      ((((newBTree none).run exampleOps).Iterator false).run [.next, .seek key35]).Valid =
        true ∧
      ((((newBTree none).run exampleOps).Iterator false).run
        [.next, .seek key35]).tree.isSome = true ∧
      ((((newBTree none).run exampleOps).Iterator false).run [.next, .seek key35]).Key =
        .ok key35 :=
  ⟨keyLess_default_isStrictWeakOrder, rfl,
    ((iterator_state_invariant none keyLess_default_isStrictWeakOrder exampleOps false
      [.next, .seek key35] []).1 rfl).1, rfl⟩

/-! ## Claim C20: keys equivalent for the comparator -/

theorem sameKey_congr_right (lf : Option (Bytes → Bytes → Bool))
    (h : IsStrictWeakOrder (keyLess lf)) (a b : Bytes) (hab : sameKey lf a b = true)
    (k : Bytes) : sameKey lf k a = sameKey lf k b := by
  cases h1 : sameKey lf k b
  · cases h2 : sameKey lf k a
    · rfl
    · rw [sameKey_trans lf h _ _ _ h2 hab] at h1
      cases h1
  · rw [sameKey_symm lf a b] at hab
    exact sameKey_trans lf h _ _ _ h1 hab

/-- C20, refuted as stated for every comparator: `firstByteLE` orders neither of the
empty key and the key `[7]` before the other, and on a new index, after `Put([], p1)`,
the call `Put([7], p2)` returns `p1` and leaves one entry, `([7], p2)`, which `Get([])`
finds; but `Get([7])` returns nil, not `p2`, because the comparator puts `[7]` before
itself.  The tree holds one item at each search, where the search of a node in
`google/btree` (`sort.Search` for the first item above the key, then a test of the item
before it) and the search of the list model make the same comparisons. -/
theorem equivalent_keys_counterexample :
    keyLess (some firstByteLE) (some []) (some [7]) = false ∧
      keyLess (some firstByteLE) (some [7]) (some []) = false ∧
      (((newBTree (some firstByteLE)).Put (some []) (some (posAt 0))).2.Put (some [7])
        (some (posAt 16))).1 = some (posAt 0) ∧
      (((newBTree (some firstByteLE)).Put (some []) (some (posAt 0))).2.Put (some [7])
        (some (posAt 16))).2.entries = [(some [7], some (posAt 16))] ∧
      (((newBTree (some firstByteLE)).Put (some []) (some (posAt 0))).2.Put (some [7])
        (some (posAt 16))).2.Get (some []) = some (posAt 16) ∧
      (((newBTree (some firstByteLE)).Put (some []) (some (posAt 0))).2.Put (some [7])
        (some (posAt 16))).2.Get (some [7]) = none ∧
      (((newBTree (some firstByteLE)).Put (some []) (some (posAt 0))).2.Put (some [7])
        (some (posAt 16))).2.Get (some [7]) ≠ some (posAt 16) ∧
      ¬ IsStrictWeakOrder (keyLess (some firstByteLE)) := by
  refine ⟨by decide, by decide, by decide, by decide, by decide, by decide, by decide, ?_⟩
  intro h
  have := h.irrefl (some [7])
  revert this
  decide

/-- C20, amended to comparators that order the keys.  Entries are identified by the
comparator, not by their bytes: on any index reached from `newBTree lessFunc` with
`lessFunc` nil or a strict weak order, for keys `a` and `b` with neither less than the
other, after `Put(a, p1)` the call `Put(b, p2)` returns `p1` and leaves `Size()` as it
is; afterwards `Get(a)` and `Get(b)` both return `p2`, and the one entry of that key, in
the index and in what `Ascend` reports, is `(b, p2)`.  Under the default comparator the
nil key and the empty key are the same key. -/
theorem equivalent_keys_one_entry (lessFunc : Option (Bytes → Bytes → Bool))
    (hlf : IsStrictWeakOrder (keyLess lessFunc)) (ops : List Op) (a b : Bytes)
    (p1 p2 : Option ChunkPosition) (hab : keyLess lessFunc a b = false)
    (hba : keyLess lessFunc b a = false) :
    ((((newBTree lessFunc).run ops).Put a p1).2.Put b p2).1 = p1 ∧
      ((((newBTree lessFunc).run ops).Put a p1).2.Put b p2).2.Size =
        (((newBTree lessFunc).run ops).Put a p1).2.Size ∧
      ((((newBTree lessFunc).run ops).Put a p1).2.Put b p2).2.Get a = p2 ∧
      ((((newBTree lessFunc).run ops).Put a p1).2.Put b p2).2.Get b = p2 ∧
      ((((newBTree lessFunc).run ops).Put a p1).2.Put b p2).2.entries.filter
        (fun e => sameKey lessFunc e.1 a) = [(b, p2)] ∧
      (∃ calls, ((((newBTree lessFunc).run ops).Put a p1).2.Put b p2).2.Ascend record [] =
          .ok calls ∧
        calls.filter (fun e => sameKey lessFunc e.1 a) = [(b, p2)]) ∧
      sameKey none none (some []) = true := by
  have hi := BTree.inv_reachable lessFunc hlf ops
  have hi1 := BTree.inv_put lessFunc hlf _ hi a p1
  have hi2 := BTree.inv_put lessFunc hlf _ hi1 b p2
  have hs : sameKey lessFunc a b = true := by simp [sameKey, hab, hba]
  have hs' : sameKey lessFunc b a = true := by rw [sameKey_symm]; exact hs
  have hm1 : (a, p1) ∈ (((newBTree lessFunc).run ops).Put a p1).2.entries :=
    (BTree.mem_entries_put lessFunc hlf _ hi a p1 _).mpr (Or.inl rfl)
  have hm2 : (b, p2) ∈ ((((newBTree lessFunc).run ops).Put a p1).2.Put b p2).2.entries :=
    (BTree.mem_entries_put lessFunc hlf _ hi1 b p2 _).mpr (Or.inl rfl)
  have hf : ((((newBTree lessFunc).run ops).Put a p1).2.Put b p2).2.entries.filter
      (fun e => sameKey lessFunc e.1 a) = [(b, p2)] := by
    rw [← BTree.Put_entries_same lessFunc hlf _ hi1 b p2]
    apply List.filter_congr
    intro e _
    exact sameKey_congr_right lessFunc hlf a b hs e.1
  refine ⟨?_, ?_, ?_, BTree.Get_Put_same lessFunc hlf _ hi1 b p2, hf, ?_, rfl⟩
  · rw [BTree.Put_fst lessFunc _ hi1]
    exact BTree.Get_of_mem lessFunc hlf _ hi1 b (a, p1) hm1 hs
  · rw [BTree.Size_put lessFunc hlf _ hi1]
    have : (((newBTree lessFunc).run ops).Put a p1).2.hasEntry lessFunc b = true :=
      List.any_eq_true.mpr ⟨(a, p1), hm1, hs⟩
    rw [this]; rfl
  · exact BTree.Get_of_mem lessFunc hlf _ hi2 a (b, p2) hm2 hs'
  · exact ⟨_, BTree.Ascend_record lessFunc _ hi2, hf⟩

/-- C20 amended, with the default comparator on the index of the iteration example: after
a put of the nil key, a put of the empty key returns the position of the nil key and
leaves one entry, with the empty key. -/
theorem equivalent_keys_one_entry_witness :
    IsStrictWeakOrder (keyLess none) ∧ keyLess none none (some []) = false ∧
      keyLess none (some []) none = false ∧
      ((((newBTree none).run exampleOps).Put none (some (posAt 80))).2.Put (some [])
        (some (posAt 96))).1 = some (posAt 80) ∧
      ((((newBTree none).run exampleOps).Put none (some (posAt 80))).2.Put (some [])
        (some (posAt 96))).2.Get none = some (posAt 96) ∧
      ((((newBTree none).run exampleOps).Put none (some (posAt 80))).2.Put (some [])
        (some (posAt 96))).2.entries.filter (fun e => sameKey none e.1 none) =
        [(some [], some (posAt 96))] :=
  ⟨keyLess_default_isStrictWeakOrder, by decide, by decide,
    (equivalent_keys_one_entry none keyLess_default_isStrictWeakOrder exampleOps none (some [])
      (some (posAt 80)) (some (posAt 96)) (by decide) (by decide)).1,
    (equivalent_keys_one_entry none keyLess_default_isStrictWeakOrder exampleOps none (some [])
      (some (posAt 80)) (some (posAt 96)) (by decide) (by decide)).2.2.1,
    (equivalent_keys_one_entry none keyLess_default_isStrictWeakOrder exampleOps none (some [])
      (some (posAt 80)) (some (posAt 96)) (by decide) (by decide)).2.2.2.2.1⟩

/-! ## Claim C15: locking -/

/-- C15, refuted at the methods `Size` and `Iterator`.  `Size` reads the tree with no
lock held.  `Iterator` holds the read lock only while `newBTreeIterator` calls
`tree.Clone()`, a write of the tree, which the read lock does not keep apart from the
`Clone` of another `Iterator` call.  The nine other public methods of `BTree` read the
tree under the read lock or write it under the write lock. -/
theorem size_and_iterator_unguarded :
    guarded .nothing Method.Size.steps = false ∧
      guarded .nothing Method.Iterator.steps = false ∧
      ∀ m : Method, m ≠ Method.Size → m ≠ Method.Iterator →
        guarded .nothing m.steps = true := by
  refine ⟨rfl, rfl, ?_⟩
  intro m hs hi
  cases m <;> first | rfl | exact absurd rfl hs | exact absurd rfl hi

/-! ## Claim C21: mutations touch only their own key -/

theorem BTreeG.filter_other_insertItem {T : Type} (lt : T → T → Bool) (k : T)
    (hk : lt k k = false) (l : List T) :
    (BTreeG.insertItem lt k l).2.filter (fun x => lt x k || lt k x) =
      l.filter (fun x => lt x k || lt k x) := by
  induction l with
  | nil => simp [BTreeG.insertItem, hk]
  | cons x xs ih =>
    simp only [BTreeG.insertItem]
    split
    · rename_i hx
      simp [List.filter_cons, hx, ih]
    · rename_i hx
      split
      · simp [List.filter_cons, hk]
      · rename_i hkx
        simp [List.filter_cons, hk, hx, hkx]

theorem BTreeG.filter_other_deleteItem {T : Type} (lt : T → T → Bool) (k : T)
    (l : List T) :
    (BTreeG.deleteItem lt k l).2.filter (fun x => lt x k || lt k x) =
      l.filter (fun x => lt x k || lt k x) := by
  induction l with
  | nil => rfl
  | cons x xs ih =>
    simp only [BTreeG.deleteItem]
    split
    · rename_i hx
      simp [List.filter_cons, hx, ih]
    · rename_i hx
      split
      · rfl
      · rename_i hkx
        simp [List.filter_cons, hx, hkx]

theorem other_eq_not_sameKey (lf : Option (Bytes → Bytes → Bool)) (k : Bytes)
    (p : Option ChunkPosition) (i : btreeItem) :
    (newBTree.less lf (some i) (some { key := k, pos := p }) ||
      newBTree.less lf (some { key := k, pos := p }) (some i)) =
      !sameKey lf i.entry.1 k := by
  simp only [less_some_some, sameKey, btreeItem.entry]
  cases keyLess lf i.key k <;> cases keyLess lf k i.key <;> rfl

theorem BTree.entries_put_others (lf : Option (Bytes → Bytes → Bool))
    (h : IsStrictWeakOrder (keyLess lf)) (mt : BTree) (hi : mt.Inv lf) (k : Bytes)
    (p : Option ChunkPosition) :
    (mt.Put k p).2.entries.filter (fun e => !sameKey lf e.1 k) =
      mt.entries.filter (fun e => !sameKey lf e.1 k) := by
  have hs := BTree.items_some lf mt hi
  have hs' := BTree.items_some lf _ (BTree.inv_put lf h mt hi k p)
  rw [BTree.entries, BTree.entries,
    ← entriesOf_filter _ hs'
      (fun x => newBTree.less lf x (some { key := k, pos := p }) ||
        newBTree.less lf (some { key := k, pos := p }) x)
      (fun e => !sameKey lf e.1 k) (other_eq_not_sameKey lf k p),
    ← entriesOf_filter _ hs
      (fun x => newBTree.less lf x (some { key := k, pos := p }) ||
        newBTree.less lf (some { key := k, pos := p }) x)
      (fun e => !sameKey lf e.1 k) (other_eq_not_sameKey lf k p),
    BTree.Put_tree]
  simp only [hi.1]
  rw [BTreeG.filter_other_insertItem _ _ (less_irrefl_some lf h _)]

theorem BTree.entries_delete (lf : Option (Bytes → Bytes → Bool))
    (h : IsStrictWeakOrder (keyLess lf)) (mt : BTree) (hi : mt.Inv lf) (k : Bytes) :
    (mt.Delete k).2.entries = mt.entries.filter (fun e => !sameKey lf e.1 k) := by
  have hs := BTree.items_some lf mt hi
  have hs' := BTree.items_some lf _ (BTree.inv_delete lf mt hi k)
  have h1 : (mt.Delete k).2.entries.filter (fun e => !sameKey lf e.1 k) =
      mt.entries.filter (fun e => !sameKey lf e.1 k) := by
    rw [BTree.entries, BTree.entries,
      ← entriesOf_filter _ hs'
      (fun x => newBTree.less lf x (some { key := k, pos := none }) ||
        newBTree.less lf (some { key := k, pos := none }) x)
      (fun e => !sameKey lf e.1 k) (other_eq_not_sameKey lf k none),
      ← entriesOf_filter _ hs
      (fun x => newBTree.less lf x (some { key := k, pos := none }) ||
        newBTree.less lf (some { key := k, pos := none }) x)
      (fun e => !sameKey lf e.1 k) (other_eq_not_sameKey lf k none),
      BTree.Delete_tree]
    simp only [hi.1]
    rw [BTreeG.filter_other_deleteItem]
  rw [← h1]
  symm
  apply List.filter_eq_self.mpr
  intro e he
  rw [((BTree.mem_entries_delete lf h mt hi k e).mp he).2]
  rfl

theorem BTree.Get_of_entries (lf : Option (Bytes → Bytes → Bool))
    (h : IsStrictWeakOrder (keyLess lf)) (mt mt' : BTree) (hi : mt.Inv lf) (hi' : mt'.Inv lf)
    (k : Bytes)
    (hm : ∀ e, sameKey lf e.1 k = true → (e ∈ mt'.entries ↔ e ∈ mt.entries)) :
    mt'.Get k = mt.Get k := by
  cases hh : mt.hasEntry lf k
  · have hno : ∀ e ∈ mt.entries, sameKey lf e.1 k = false := by
      intro e he
      cases hs : sameKey lf e.1 k
      · rfl
      · have : mt.hasEntry lf k = true := List.any_eq_true.mpr ⟨e, he, hs⟩
        rw [hh] at this; cases this
    rw [BTree.Get_of_not_mem lf mt hi k hno]
    apply BTree.Get_of_not_mem lf mt' hi' k
    intro e he
    cases hs : sameKey lf e.1 k
    · rfl
    · exact absurd (hno e ((hm e hs).mp he)) (by rw [hs]; simp)
  · simp only [BTree.hasEntry, List.any_eq_true] at hh
    obtain ⟨e, he, hs⟩ := hh
    rw [BTree.Get_of_mem lf h mt hi k e he hs,
      BTree.Get_of_mem lf h mt' hi' k e ((hm e hs).mpr he) hs]

/-- C21. `Put` and `Delete` touch only their own key: on any index reached from
`newBTree lessFunc`, for a key `k`, a position `p` and a key `k'` that is not the same key
as `k` for the comparator, `Get(k')` returns the same position after `Put(k, p)` and
after `Delete(k)` as before; the entries of the other keys, in the order in which
`Ascend` reports them, are the same after `Put(k, p)`, and after `Delete(k)` they are all
the entries that remain. -/
theorem mutations_touch_own_key (lessFunc : Option (Bytes → Bytes → Bool))
    (hlf : IsStrictWeakOrder (keyLess lessFunc)) (ops : List Op) (k : Bytes)
    (p : Option ChunkPosition) (k' : Bytes) (hk : sameKey lessFunc k k' = false) :
    (((newBTree lessFunc).run ops).Put k p).2.Get k' = ((newBTree lessFunc).run ops).Get k' ∧
      (((newBTree lessFunc).run ops).Delete k).2.Get k' =
        ((newBTree lessFunc).run ops).Get k' ∧
      (((newBTree lessFunc).run ops).Put k p).2.entries.filter
          (fun e => !sameKey lessFunc e.1 k) =
        ((newBTree lessFunc).run ops).entries.filter (fun e => !sameKey lessFunc e.1 k) ∧
      (((newBTree lessFunc).run ops).Delete k).2.entries =
        ((newBTree lessFunc).run ops).entries.filter (fun e => !sameKey lessFunc e.1 k) ∧
      ((newBTree lessFunc).run ops).Ascend record [] =
        .ok ((newBTree lessFunc).run ops).entries ∧
      (((newBTree lessFunc).run ops).Put k p).2.Ascend record [] =
        .ok (((newBTree lessFunc).run ops).Put k p).2.entries ∧
      (((newBTree lessFunc).run ops).Delete k).2.Ascend record [] =
        .ok (((newBTree lessFunc).run ops).Delete k).2.entries := by
  have hi := BTree.inv_reachable lessFunc hlf ops
  have hip := BTree.inv_put lessFunc hlf _ hi k p
  have hid := BTree.inv_delete lessFunc _ hi k
  have hother : ∀ e : Entry, sameKey lessFunc e.1 k' = true → sameKey lessFunc e.1 k = false := by
    intro e he
    cases hs : sameKey lessFunc e.1 k
    · rfl
    · rw [sameKey_symm] at hs
      rw [sameKey_trans lessFunc hlf _ _ _ hs he] at hk
      cases hk
  refine ⟨?_, ?_, BTree.entries_put_others lessFunc hlf _ hi k p,
    BTree.entries_delete lessFunc hlf _ hi k, BTree.Ascend_record lessFunc _ hi,
    BTree.Ascend_record lessFunc _ hip, BTree.Ascend_record lessFunc _ hid⟩
  · apply BTree.Get_of_entries lessFunc hlf _ _ hi hip k'
    intro e he
    rw [BTree.mem_entries_put lessFunc hlf _ hi k p e]
    constructor
    · rintro (rfl | ⟨h1, _⟩)
      · have := hother _ he
        rw [sameKey_refl lessFunc hlf] at this
        cases this
      · exact h1
    · exact fun h1 => Or.inr ⟨h1, hother e he⟩
  · apply BTree.Get_of_entries lessFunc hlf _ _ hi hid k'
    intro e he
    rw [BTree.mem_entries_delete lessFunc hlf _ hi k e]
    exact ⟨fun h1 => h1.1, fun h1 => ⟨h1, hother e he⟩⟩

/-- C21, on the index of the iteration example: overwriting key27 and deleting key27
leave `Get(key13)` and the entries of the other four keys as they were. -/
theorem mutations_touch_own_key_witness :
    IsStrictWeakOrder (keyLess none) ∧ sameKey none key27 key13 = false ∧
      (((newBTree none).run exampleOps).Put key27 (some (posAt 80))).2.Get key13 =
        some (posAt 0) ∧
      (((newBTree none).run exampleOps).Delete key27).2.Get key13 = some (posAt 0) ∧
      (((newBTree none).run exampleOps).Delete key27).2.entries =
        [(key11, some (posAt 16)), (key13, some (posAt 0)), (key35, some (posAt 32)),
          (key41, some (posAt 64))] :=
  ⟨keyLess_default_isStrictWeakOrder, by decide,
    ((mutations_touch_own_key none keyLess_default_isStrictWeakOrder exampleOps key27
      (some (posAt 80)) key13 (by decide)).1).trans rfl,
    ((mutations_touch_own_key none keyLess_default_isStrictWeakOrder exampleOps key27
      (some (posAt 80)) key13 (by decide)).2.1).trans rfl,
    ((mutations_touch_own_key none keyLess_default_isStrictWeakOrder exampleOps key27
      (some (posAt 80)) key13 (by decide)).2.2.2.1).trans (by decide)⟩

end Memdb
